import Mathlib

/-!
# Resolution engine of the dependency-injection container

A shallow embedding of `schema.go` (the registry `defaultSchema` with
`register`, `cleanup`, `find`, `group`, `bypass` and `renderDot`), of
`cmp_iface.go` (the alias compiler) and of the data the registry handles,
followed by the properties that the specification states.

Pointers (`*node`, `*reflect.Value`) are addresses: a `node` record carries
the address it lives at (`ptr`) and the address of its memo slot (`rv`), and
`&node{...}` takes two fresh addresses from an allocation counter `Mem`.
-/

set_option autoImplicit false

namespace Di

/-! ## Type descriptors (`reflect.Type`) -/

/-- The kinds of `reflect.Kind` that the registry distinguishes. -/
inductive Kind
  | Bool | Int | String | Func | Interface | Struct
  | Ptr | Slice | Array | Chan | Map
  deriving DecidableEq, Repr

/-- The kinds of the types that have no element type. -/
inductive BaseKind
  | Bool | Int | String | Func | Interface | Struct
  deriving DecidableEq, Repr

/-- The kind that a base kind stands for. -/
def BaseKind.Kind : BaseKind → Kind
  | .Bool => .Bool
  | .Int => .Int
  | .String => .String
  | .Func => .Func
  | .Interface => .Interface
  | .Struct => .Struct

/-- A type descriptor: a named type of a base kind, a composite type over its
element type, or a defined type (`type name underlying`) over a composite.
Two descriptors are equal iff they denote the same type, so that a descriptor
can be a map key. -/
inductive RType
  | named (name : String) (k : BaseKind)
  | ptr (e : RType)
  | slice (e : RType)
  | array (len : Nat) (e : RType)
  | chan (e : RType)
  | map (key : RType) (e : RType)
  | defined (name : String) (underlying : RType)
  deriving DecidableEq, Repr

/-- The method `t.Kind()`. A defined type has the kind of its underlying
type. -/
def RType.Kind : RType → Kind
  | .named _ k => k.Kind
  | .ptr _ => .Ptr
  | .slice _ => .Slice
  | .array _ _ => .Array
  | .chan _ => .Chan
  | .map _ _ => .Map
  | .defined _ u => u.Kind

/-- The method `t.Elem()`: the element type of an array, channel, map,
pointer or slice type. On every other type the Go method panics, which is
`none` here. -/
def RType.Elem : RType → Option RType
  | .named _ _ => none
  | .ptr e => some e
  | .slice e => some e
  | .array _ e => some e
  | .chan e => some e
  | .map _ e => some e
  | .defined _ u => u.Elem

/-! ## Tags -/

/-- A tag set, written as the list of its labels. -/
abbrev Tags := List String

/-- Modelled from the spec: the tag-match rule that `matchTags` applies (the
type `Tags` and its comparison are not in the two source files). The query is
a filter: a node matches when every label of the query is among the labels of
the node, so that the query without tags matches every node and the query
`a` the nodes that carry `a` (the scenario of section 8). Section 4.2 words
the rule as the equality of the two tag sets; the scenario of section 8 does
not hold under that wording. -/
def Tags.matches (nodeTags query : Tags) : Bool :=
  query.all (fun l => nodeTags.contains l)

/-- Two lists of labels denote the same tag set: order and repetition of
labels do not count. -/
def Tags.same (a b : Tags) : Bool :=
  a.all (fun l => b.contains l) && b.all (fun l => a.contains l)

/-! ## Nodes and compilers -/

mutual
/-- The struct `node`: the address of the node itself (`ptr`, the identity of
a `*node`), its type `rt`, its `tags`, the address `rv` of its memo slot and
its `compiler`. -/
inductive node
  | mk (ptr : Nat) (rv : Nat) (rt : RType) (tags : Tags) (compiler : compiler)
/-- The compilers a node can carry. `provider` stands for the compilers that
the registration API builds around a constructor or a value (identified by a
number, their code is outside the registry); `typeCompiler` is what
`newTypeCompiler(t)` returns, `groupCompiler` what `newGroupCompiler(t, matched)`
returns, and `interfaceCompiler` is the alias compiler of `cmp_iface.go`. -/
inductive compiler
  | provider (id : Nat)
  | typeCompiler (t : RType)
  | groupCompiler (t : RType) (matched : List node)
  | interfaceCompiler (n : node)
end

/-- The address of the node: two `*node` are the same pointer iff their
addresses are equal. -/
def node.ptr : node → Nat
  | .mk p _ _ _ _ => p

/-- The field `rv` of a node: the address of its memo slot. -/
def node.rv : node → Nat
  | .mk _ v _ _ _ => v

/-- The field `rt` of a node. -/
def node.rt : node → RType
  | .mk _ _ t _ _ => t

/-- The field `tags` of a node. -/
def node.tags : node → Tags
  | .mk _ _ _ g _ => g

/-- The embedded field `compiler` of a node. -/
def node.compiler : node → compiler
  | .mk _ _ _ _ c => c

/-- What a node is, its addresses apart: its type, its tags and its
compiler. -/
def node.shape (n : node) : RType × Tags × Di.compiler := (n.rt, n.tags, n.compiler)

/-- Modelled from the spec: `matchTags(nodes, tags)`, the helper that `find`
and `group` call (its body is not in the two source files). It keeps, in
their order, the nodes whose tag set matches the query. -/
def matchTags (nodes : List node) (tags : Tags) : List node :=
  nodes.filter (fun n => Tags.matches n.tags tags)

/-! ## The registry -/

/-- The Go map `map[reflect.Type][]*node`, as a list of entries with distinct
keys. -/
abbrev NodeMap := List (RType × List node)

/-- The map read `m[t]` with its presence flag: `none` when the key is
absent. -/
def NodeMap.get (m : NodeMap) (t : RType) : Option (List node) :=
  match m with
  | [] => none
  | (k, v) :: rest => if k = t then some v else NodeMap.get rest t

/-- The map write `m[t] = v`: replaces the entry of `t`, or adds one. -/
def NodeMap.set (m : NodeMap) (t : RType) (v : List node) : NodeMap :=
  match m with
  | [] => [(t, v)]
  | (k, w) :: rest => if k = t then (k, v) :: rest else (k, w) :: NodeMap.set rest t v

/-- The struct `defaultSchema`. A cleanup callback is identified by a number;
`passed` is the visited-state map of the cycle check, keyed by node address,
and `none` is the nil map. -/
structure defaultSchema where
  nodes : NodeMap
  cleanups : List Nat
  passed : Option (List (Nat × Int))

/-- The allocation counter: every address below `next` has been handed out. -/
structure Mem where
  next : Nat
  deriving DecidableEq, Repr

/-- The failures that `find` and `group` return, one per message format,
with the values the message is formatted from. `elemPanic` is the panic of
`t.Elem()` on a type without an element type. -/
inductive Failure
  | notInContainer (t : RType) (tags : Tags)
  | notExists (t : RType) (tags : Tags)
  | multipleDefinitions (t : RType) (tags : Tags)
  | injectNotSupported (t : RType) (tags : Tags) (elem : RType)
  | elemPanic (t : RType)
  deriving DecidableEq, Repr

/-- What a lookup leaves behind: the returned node or failure, the registry
and the allocation counter after the call. -/
structure Outcome where
  res : Except Failure node
  schema : defaultSchema
  mem : Mem

/-- The method `cleanup` (`schema.go`, lines 25-27): appends the callback to
the cleanup list. -/
def defaultSchema.cleanup (s : defaultSchema) (c : Nat) : defaultSchema :=
  { s with cleanups := s.cleanups ++ [c] }

/-- The function `newDefaultSchema` (`schema.go`, lines 30-34): an empty node
map, no cleanups, and the nil visited-state map. -/
def newDefaultSchema : defaultSchema :=
  { nodes := [], cleanups := [], passed := none }

/-- The method `register` (`schema.go`, lines 38-44): a one-element list when
the type of the node has no entry, else the node appended to the list of its
type. -/
def defaultSchema.register (s : defaultSchema) (n : node) : defaultSchema :=
  match s.nodes.get n.rt with
  | none => { s with nodes := s.nodes.set n.rt [n] }
  | some l => { s with nodes := s.nodes.set n.rt (l ++ [n]) }

/-- The method `group` (`schema.go`, lines 81-97). The providers of the
element type are read from the index and filtered by `matchTags`; with at
least one match a new node is allocated around `newGroupCompiler(t, matched)`
and returned. The registry is not written. -/
def defaultSchema.group (s : defaultSchema) (m : Mem) (t : RType) (tags : Tags) : Outcome :=
  match t.Elem with
  | none => ⟨.error (.elemPanic t), s, m⟩
  | some e =>
    match s.nodes.get e with
    | none => ⟨.error (.notExists t tags), s, m⟩
    | some group =>
      let matched := matchTags group tags
      if matched.length = 0 then
        ⟨.error (.notExists t tags), s, m⟩
      else
        ⟨.ok (.mk (m.next + 1) m.next t tags (.groupCompiler t matched)), s, ⟨m.next + 2⟩⟩

/-- The method `find` (`schema.go`, lines 47-79). The predicate `isInjectable`
of the field-injection policy is not in the two source files and is a
parameter. The branches are in the order of the source: the guard of line 49,
the type found in the index (lines 53-62), the field-injection branch (lines
63-77, whose node literal sets no tags and whose node is stored under `t`),
then `group`. -/
def defaultSchema.find (isInjectable : RType → Bool) (s : defaultSchema) (m : Mem)
    (t : RType) (tags : Tags) : Outcome :=
  let found := s.nodes.get t
  if found.isNone && t.Kind != Kind.Slice && !isInjectable t then
    ⟨.error (.notInContainer t tags), s, m⟩
  else
    match found with
    | some nodes =>
      let matched := matchTags nodes tags
      if matched.length = 0 then
        ⟨.error (.notExists t tags), s, m⟩
      else if matched.length > 1 then
        ⟨.error (.multipleDefinitions t tags), s, m⟩
      else
        match matched with
        | n :: _ => ⟨.ok n, s, m⟩
        | [] => ⟨.error (.notExists t tags), s, m⟩
    | none =>
      if isInjectable t then
        if t.Kind = Kind.Ptr then
          match t.Elem with
          | some e => ⟨.error (.injectNotSupported t tags e), s, m⟩
          | none => ⟨.error (.elemPanic t), s, m⟩
        else
          let n : node := .mk (m.next + 1) m.next t [] (.typeCompiler t)
          ⟨.ok n, { s with nodes := s.nodes.set t ((s.nodes.get t).getD [] ++ [n]) }, ⟨m.next + 2⟩⟩
      else
        s.group m t tags

/-- Modelled from the spec: what a field-injection policy admits (section 4.2,
step 3, and the comment of lines 64-65 of `schema.go`; the predicate
`isInjectable` itself is not in the two source files): struct types, and
pointer types, which `find` then rejects. No type of another kind qualifies. -/
def admitsStructAndPointerOnly (isInjectable : RType → Bool) : Prop :=
  ∀ t, isInjectable t = true → t.Kind = Kind.Struct ∨ t.Kind = Kind.Ptr

/-! ## Dependencies of a node -/

/-- What resolving a list of dependencies leaves behind: the nodes or the
failure, the registry and the allocation counter after the lookups. -/
structure ParamsOutcome where
  res : Except Failure (List node)
  schema : defaultSchema
  mem : Mem

/-- What `Value` or a compile step leaves behind: the value, identified by a
number, or the failure, the registry and the allocation counter. -/
structure ValueOutcome where
  res : Except Failure Nat
  schema : defaultSchema
  mem : Mem

/-- The declarations that the registration boundary supplies and the two
source files only use: the field-injection policy `isInjectable`, the declared
inputs (type and tags) of the constructor behind a `provider` compiler, the
declared fields (type and tags, the `rt` and `tags` of a `field`) that
`n.fields()` lists for a node, the method `Value` of a node and the compile
step of its compiler. -/
structure Decl where
  isInjectable : RType → Bool
  inputs : Nat → List (RType × Tags)
  fields : node → List (RType × Tags)
  Value : node → defaultSchema → Mem → ValueOutcome
  compile : node → List Nat → defaultSchema → Mem → ValueOutcome

/-- The lookups `s.find(rt, tags)` of a list of declared dependencies, first
to last, as in the loop of `renderNode` (`schema.go`, lines 137-143): the
first failure is returned, and each lookup runs on the registry that the
previous one left. -/
def findAll (isInjectable : RType → Bool) :
    List (RType × Tags) → defaultSchema → Mem → ParamsOutcome
  | [], s, m => ⟨.ok [], s, m⟩
  | (t, tags) :: rest, s, m =>
    match (s.find isInjectable m t tags).res with
    | .error e =>
      ⟨.error e, (s.find isInjectable m t tags).schema, (s.find isInjectable m t tags).mem⟩
    | .ok n =>
      match (findAll isInjectable rest (s.find isInjectable m t tags).schema
          (s.find isInjectable m t tags).mem).res with
      | .error e =>
        ⟨.error e,
          (findAll isInjectable rest (s.find isInjectable m t tags).schema
            (s.find isInjectable m t tags).mem).schema,
          (findAll isInjectable rest (s.find isInjectable m t tags).schema
            (s.find isInjectable m t tags).mem).mem⟩
      | .ok ns =>
        ⟨.ok (n :: ns),
          (findAll isInjectable rest (s.find isInjectable m t tags).schema
            (s.find isInjectable m t tags).mem).schema,
          (findAll isInjectable rest (s.find isInjectable m t tags).schema
            (s.find isInjectable m t tags).mem).mem⟩

/-- The method `interfaceCompiler.params` (`cmp_iface.go`, lines 15-17): the
wrapped node appended to the empty result list, and no failure. -/
def interfaceCompiler.params (w : node) (s : defaultSchema) (m : Mem) : ParamsOutcome :=
  ⟨.ok ([] ++ [w]), s, m⟩

/-- The method `interfaceCompiler.compile` (`cmp_iface.go`, lines 19-21): the
result of `Value` on the wrapped node. The method `node.Value` is not in the
two source files and is a parameter; its result type `R` holds the value or
the failure together with whatever `Value` leaves behind. The resolved
parameter values `vs` are not used. -/
def interfaceCompiler.compile {V R : Type} (Value : node → defaultSchema → R) (w : node)
    (_vs : List V) (s : defaultSchema) : R :=
  Value w s

/-- Modelled from the spec: the method `n.params(s)` of a node, by its
compiler (section 4.3; only the alias compiler is in the source files). An
alias node has its wrapped node; a constructor node has one node per declared
input, resolved through the registry with the type and tags of the input; a
group node has its pre-matched members; a field-injection node has no
parameters. -/
def node.params (d : Decl) (n : node) (s : defaultSchema) (m : Mem) : ParamsOutcome :=
  match n.compiler with
  | .interfaceCompiler w => interfaceCompiler.params w s m
  | .provider id => findAll d.isInjectable (d.inputs id) s m
  | .typeCompiler _ => ⟨.ok [], s, m⟩
  | .groupCompiler _ matched => ⟨.ok matched, s, m⟩

/-- Modelled from the spec: the method `n.String()`, the identity key of a
node: the rendering of its type and of its tags. -/
def node.String (n : node) : RType × Tags := (n.rt, n.tags)

/-! ## The cycle check -/

/-- What the walk reports: a cycle, with the identity key of the node found
in progress, or the failure of a dependency lookup. -/
inductive WalkFailure
  | cycleDetected (key : RType × Tags)
  | lookup (f : Failure)
  deriving DecidableEq, Repr

/-- What a walk leaves behind. -/
structure WalkOutcome where
  res : Except WalkFailure Unit
  schema : defaultSchema
  mem : Mem

/-- Modelled from the spec: the visit state "in progress" (section 4.4); an
address without entry in the map reads as 0, unvisited. -/
def visitInProgress : Int := 1

/-- Modelled from the spec: the visit state "done" (section 4.4). -/
def visitDone : Int := 2

/-- The map read `passed[n]`: 0 when the address has no entry. -/
def passedGet (p : List (Nat × Int)) (k : Nat) : Int :=
  match p with
  | [] => 0
  | (a, v) :: rest => if a = k then v else passedGet rest k

/-- The map write `passed[n] = v`. -/
def passedSet (p : List (Nat × Int)) (k : Nat) (v : Int) : List (Nat × Int) :=
  match p with
  | [] => [(k, v)]
  | (a, w) :: rest => if a = k then (a, v) :: rest else (a, w) :: passedSet rest k v

/-- The visit state of an address in the visited-state map of the registry. -/
def defaultSchema.mark (s : defaultSchema) (k : Nat) : Int :=
  passedGet (s.passed.getD []) k

/-- The registry after the write `passed[k] = v` to its visited-state map. -/
def defaultSchema.setMark (s : defaultSchema) (k : Nat) (v : Int) : defaultSchema :=
  { s with passed := some (passedSet (s.passed.getD []) k v) }

/-- A loop that walks the nodes of a list with the step `v` and returns at
the first failure; `none` when a step has not enough fuel. -/
def visitEach (v : defaultSchema → Mem → node → Option WalkOutcome) :
    List node → defaultSchema → Mem → Option WalkOutcome
  | [], s, m => some ⟨.ok (), s, m⟩
  | n :: rest, s, m =>
    match v s m n with
    | none => none
    | some o =>
      match o.res with
      | .error e => some ⟨.error e, o.schema, o.mem⟩
      | .ok _ => visitEach v rest o.schema o.mem

/-- Modelled from the spec: the walk step `visit(s, n, passed)` of the cycle
check (section 4.4; the function is not in the two source files). A node that
is done is not walked again; a node found in progress is a cycle, reported
with its identity key. Else the node is marked in progress, its parameter
nodes and the nodes of its fields (each resolved by `find`) are collected as
in `renderNode` and walked in that order, and the node is marked done. The
failure of a lookup or of a walked dependency is returned unchanged. The
first argument is the fuel of the recursion: `none` when it runs out. -/
def visit (d : Decl) : Nat → defaultSchema → Mem → node → Option WalkOutcome
  | 0, _, _, _ => none
  | fuel + 1, s, m, n =>
    if s.mark n.ptr = visitDone then some ⟨.ok (), s, m⟩
    else if s.mark n.ptr = visitInProgress then
      some ⟨.error (.cycleDetected n.String), s, m⟩
    else
      match (n.params d (s.setMark n.ptr visitInProgress) m).res with
      | .error e =>
        some ⟨.error (.lookup e), (n.params d (s.setMark n.ptr visitInProgress) m).schema,
          (n.params d (s.setMark n.ptr visitInProgress) m).mem⟩
      | .ok ps =>
        match (findAll d.isInjectable (d.fields n)
            (n.params d (s.setMark n.ptr visitInProgress) m).schema
            (n.params d (s.setMark n.ptr visitInProgress) m).mem).res with
        | .error e =>
          some ⟨.error (.lookup e),
            (findAll d.isInjectable (d.fields n)
              (n.params d (s.setMark n.ptr visitInProgress) m).schema
              (n.params d (s.setMark n.ptr visitInProgress) m).mem).schema,
            (findAll d.isInjectable (d.fields n)
              (n.params d (s.setMark n.ptr visitInProgress) m).schema
              (n.params d (s.setMark n.ptr visitInProgress) m).mem).mem⟩
        | .ok fs =>
          match visitEach (fun s1 m1 x => visit d fuel s1 m1 x) (ps ++ fs)
              (findAll d.isInjectable (d.fields n)
                (n.params d (s.setMark n.ptr visitInProgress) m).schema
                (n.params d (s.setMark n.ptr visitInProgress) m).mem).schema
              (findAll d.isInjectable (d.fields n)
                (n.params d (s.setMark n.ptr visitInProgress) m).schema
                (n.params d (s.setMark n.ptr visitInProgress) m).mem).mem with
          | none => none
          | some o =>
            match o.res with
            | .error e => some ⟨.error e, o.schema, o.mem⟩
            | .ok _ => some ⟨.ok (), o.schema.setMark n.ptr visitDone, o.mem⟩

/-- The nodes of the index, list after list: the order in which the loops
`for _, group := range s.nodes` and `for _, node := range group` meet them,
with the entries of the map taken in the order of the list. A Go map is
ranged over in no fixed order: each order of the entries is a registry of this
type, and what is proved of every registry holds in every order. -/
def defaultSchema.allNodes (s : defaultSchema) : List node :=
  (s.nodes.map (fun e => e.2)).flatten

/-- The method `bypass` (`schema.go`, lines 99-115). With the nil
visited-state map, the map is created, every node of the index is walked (the
entries that the walk itself adds are not met), and the call returns without
walking `n`; else `n` is walked with the map of the registry. -/
def defaultSchema.bypass (d : Decl) (fuel : Nat) (s : defaultSchema) (m : Mem) (n : node) :
    Option WalkOutcome :=
  match s.passed with
  | none =>
    visitEach (fun s1 m1 x => visit d fuel s1 m1 x) s.allNodes { s with passed := some [] } m
  | some _ => visit d fuel s m n

/-! ## The graph exporter -/

/-- The diagram of the package `dot`, as far as `renderNode` uses it: the keys
of its nodes and its edges, each from one key to another. -/
structure Graph where
  keys : List (RType × Tags)
  edges : List ((RType × Tags) × (RType × Tags))
  deriving DecidableEq, Repr

/-- The function `dot.NewGraph`. -/
def NewGraph : Graph := ⟨[], []⟩

/-- The method `root.Node(key)`: the node of that key, created when the
diagram has none. -/
def Graph.Node (g : Graph) (k : RType × Tags) : Graph :=
  if k ∈ g.keys then g else { g with keys := g.keys ++ [k] }

/-- The step of lines 148-150 of `schema.go`: an edge from `p` to `r`, unless
the diagram has one. -/
def Graph.Edge (g : Graph) (p r : RType × Tags) : Graph :=
  if (p, r) ∈ (g.Node p).edges then g.Node p
  else { g.Node p with edges := (g.Node p).edges ++ [(p, r)] }

/-- What the exporter leaves behind: the diagram, the failure if any, the
registry and the allocation counter. -/
structure RenderOutcome where
  res : Except Failure Unit
  root : Graph
  schema : defaultSchema
  mem : Mem

/-- The loop of lines 144-151 of `schema.go` with the step `r` for the
recursive call: each dependency is rendered, then linked to the node of key
`k`. -/
def renderEach (r : defaultSchema → Mem → Graph → node → Option RenderOutcome)
    (k : RType × Tags) : List node → defaultSchema → Mem → Graph → Option RenderOutcome
  | [], s, m, g => some ⟨.ok (), g, s, m⟩
  | p :: rest, s, m, g =>
    match r s m g p with
    | none => none
    | some o =>
      match o.res with
      | .error e => some ⟨.error e, o.root, o.schema, o.mem⟩
      | .ok _ => renderEach r k rest o.schema o.mem (o.root.Edge p.String k)

/-- The method `renderNode` (`schema.go`, lines 129-153). The first argument
is the fuel of the recursion: `none` when it runs out. -/
def defaultSchema.renderNode (d : Decl) :
    Nat → defaultSchema → Mem → Graph → node → Option RenderOutcome
  | 0, _, _, _, _ => none
  | fuel + 1, s, m, root, n =>
    match (n.params d s m).res with
    | .error e => some ⟨.error e, root.Node n.String, (n.params d s m).schema, (n.params d s m).mem⟩
    | .ok ps =>
      match (findAll d.isInjectable (d.fields n) (n.params d s m).schema
          (n.params d s m).mem).res with
      | .error e =>
        some ⟨.error e, root.Node n.String,
          (findAll d.isInjectable (d.fields n) (n.params d s m).schema
            (n.params d s m).mem).schema,
          (findAll d.isInjectable (d.fields n) (n.params d s m).schema
            (n.params d s m).mem).mem⟩
      | .ok fs =>
        renderEach (fun s1 m1 g x => defaultSchema.renderNode d fuel s1 m1 g x) n.String
          (ps ++ fs)
          (findAll d.isInjectable (d.fields n) (n.params d s m).schema
            (n.params d s m).mem).schema
          (findAll d.isInjectable (d.fields n) (n.params d s m).schema
            (n.params d s m).mem).mem
          (root.Node n.String)

/-- The loop of `renderDot` over the nodes of the index. -/
def renderAll (r : defaultSchema → Mem → Graph → node → Option RenderOutcome) :
    List node → defaultSchema → Mem → Graph → Option RenderOutcome
  | [], s, m, g => some ⟨.ok (), g, s, m⟩
  | n :: rest, s, m, g =>
    match r s m g n with
    | none => none
    | some o =>
      match o.res with
      | .error e => some ⟨.error e, o.root, o.schema, o.mem⟩
      | .ok _ => renderAll r rest o.schema o.mem o.root

/-- The method `renderDot` (`schema.go`, lines 117-127): every node of the
index is rendered into a new diagram; the first failure is returned. -/
def defaultSchema.renderDot (d : Decl) (fuel : Nat) (s : defaultSchema) (m : Mem) :
    Option RenderOutcome :=
  renderAll (fun s1 m1 g x => defaultSchema.renderNode d fuel s1 m1 g x) s.allNodes s m NewGraph

/-! ## Notions for the properties of the walk -/

/-- The registry `s2` keeps what `s1` holds: every type with a list in the
index of `s1` has that list in the index of `s2`, and the cleanup list and the
visited-state map are the same. Entries may have been added. -/
def Keeps (s1 s2 : defaultSchema) : Prop :=
  (∀ t L, s1.nodes.get t = some L → s2.nodes.get t = some L) ∧
  s2.cleanups = s1.cleanups ∧ s2.passed = s1.passed

/-- The registry `s2` is `s1` grown by field-injection synthesis alone: the
list of a type is the same in both, or the type had no list in `s1`, qualifies
for field injection, is not a pointer type, and has in `s2` the one-element
list of a synthesized node (no tags, the compiler of `newTypeCompiler`); the
cleanup list and the visited-state map are the same. -/
def GrowsByInjection (isInjectable : RType → Bool) (s1 s2 : defaultSchema) : Prop :=
  (∀ t, s2.nodes.get t = s1.nodes.get t ∨
    (s1.nodes.get t = none ∧ isInjectable t = true ∧ t.Kind ≠ Kind.Ptr ∧
      ∃ p v, s2.nodes.get t = some [node.mk p v t [] (.typeCompiler t)])) ∧
  s2.cleanups = s1.cleanups ∧ s2.passed = s1.passed

/-- The walk of `visit` on the visited-state map alone, over a graph given by
the list `deps n` of the dependencies of each node. The first argument of
`dfsEach` is the step for one node. -/
def dfsEach (v : List (Nat × Int) → node → Option (Except WalkFailure Unit × List (Nat × Int))) :
    List node → List (Nat × Int) → Option (Except WalkFailure Unit × List (Nat × Int))
  | [], p => some (.ok (), p)
  | x :: rest, p =>
    match v p x with
    | none => none
    | some (.error e, p2) => some (.error e, p2)
    | some (.ok _, p2) => dfsEach v rest p2

/-- The walk step on the visited-state map alone. -/
def dfs (deps : node → List node) :
    Nat → List (Nat × Int) → node → Option (Except WalkFailure Unit × List (Nat × Int))
  | 0, _, _ => none
  | fuel + 1, p, n =>
    if passedGet p n.ptr = visitDone then some (.ok (), p)
    else if passedGet p n.ptr = visitInProgress then some (.error (.cycleDetected n.String), p)
    else
      match dfsEach (fun p1 x => dfs deps fuel p1 x) (deps n)
          (passedSet p n.ptr visitInProgress) with
      | none => none
      | some (.error e, p2) => some (.error e, p2)
      | some (.ok _, p2) => some (.ok (), passedSet p2 n.ptr visitDone)

/-- The outcome of a walk of a registry `s` that changes the visited-state map
alone. -/
def liftMarks (s : defaultSchema) (m : Mem)
    (r : Except WalkFailure Unit × List (Nat × Int)) : WalkOutcome :=
  ⟨r.1, { s with passed := some r.2 }, m⟩

/-- An address is marked in a visited-state map: in progress or done. -/
def isMarked (p : List (Nat × Int)) (k : Nat) : Bool :=
  decide (passedGet p k = visitDone) || decide (passedGet p k = visitInProgress)

/-- The number of nodes of a list whose address is not marked. -/
def unmarkedCount (N : List node) (p : List (Nat × Int)) : Nat :=
  N.countP (fun x => !isMarked p x.ptr)

/-- A registry whose dependency graph lies within the index: the nodes of the
index are identified by their addresses, and for every node `n` of the index
the parameters and the fields of `n` resolve, in every registry with this
index, to the nodes `deps n`, which are nodes of the index, without a
synthesis (the registry and the allocation counter are left as they were). -/
def Closed (d : Decl) (s : defaultSchema) (deps : node → List node) : Prop :=
  (∀ x ∈ s.allNodes, ∀ y ∈ s.allNodes, x.ptr = y.ptr → x = y) ∧
  (∀ n ∈ s.allNodes,
    (∀ x ∈ deps n, x ∈ s.allNodes) ∧
    ∀ (s1 : defaultSchema) (m : Mem), s1.nodes = s.nodes →
      ∃ ps fs, n.params d s1 m = ⟨.ok ps, s1, m⟩ ∧
        findAll d.isInjectable (d.fields n) s1 m = ⟨.ok fs, s1, m⟩ ∧
        ps ++ fs = deps n)

/-! ## Notions for the general properties of the walk -/

/-- The dependencies that the walk and the exporter resolve for a node: its
parameter nodes, then the nodes of its fields, each looked up by `find`; the
first failure is returned. -/
def node.resolve (d : Decl) (n : node) (s : defaultSchema) (m : Mem) : ParamsOutcome :=
  match (n.params d s m).res with
  | .error e => ⟨.error e, (n.params d s m).schema, (n.params d s m).mem⟩
  | .ok ps =>
    match (findAll d.isInjectable (d.fields n) (n.params d s m).schema
        (n.params d s m).mem).res with
    | .error e =>
      ⟨.error e,
        (findAll d.isInjectable (d.fields n) (n.params d s m).schema
          (n.params d s m).mem).schema,
        (findAll d.isInjectable (d.fields n) (n.params d s m).schema
          (n.params d s m).mem).mem⟩
    | .ok fs =>
      ⟨.ok (ps ++ fs),
        (findAll d.isInjectable (d.fields n) (n.params d s m).schema
          (n.params d s m).mem).schema,
        (findAll d.isInjectable (d.fields n) (n.params d s m).schema
          (n.params d s m).mem).mem⟩

/-- The nodes that the compiler of a node points to: the wrapped node of an
alias compiler, the members of a group compiler. -/
def node.inner (n : node) : List node :=
  match n.compiler with
  | .interfaceCompiler w => [w]
  | .groupCompiler _ ms => ms
  | .provider _ => []
  | .typeCompiler _ => []

/-- The index of `s2` keeps every list of the index of `s1`. -/
def IndexLe (s1 s2 : defaultSchema) : Prop :=
  ∀ t L, s1.nodes.get t = some L → s2.nodes.get t = some L

/-- A registry and an allocation counter that fit the pointers of the program:
every stored node lies below the allocation counter, two stored nodes at the
same address are the same node, and the nodes that the compiler of a stored
node points to are stored nodes. -/
def WellFormed (s : defaultSchema) (m : Mem) : Prop :=
  (∀ x ∈ s.allNodes, x.ptr < m.next) ∧
  (∀ x ∈ s.allNodes, ∀ y ∈ s.allNodes, x.ptr = y.ptr → x = y) ∧
  (∀ x ∈ s.allNodes, ∀ y ∈ x.inner, y ∈ s.allNodes)

/-- A node that a walk can meet: a stored node, or a group node that `find`
returned without storing it, of a slice type, at an address below the
allocation counter that no stored node has, with stored members. -/
def Met (s : defaultSchema) (m : Mem) (x : node) : Prop :=
  x ∈ s.allNodes ∨
  (x.ptr < m.next ∧ (∀ y ∈ s.allNodes, y.ptr ≠ x.ptr) ∧
    ∃ t ms, x.compiler = .groupCompiler t ms ∧ x.rt.Kind = Kind.Slice ∧
      ∀ y ∈ ms, y ∈ s.allNodes)

/-- What is left to walk: the stored nodes that are not marked, and the types
of the list `U` that have no entry in the index. -/
def pending (U : List RType) (s : defaultSchema) : Nat :=
  unmarkedCount s.allNodes (s.passed.getD []) + U.countP (fun t => (s.nodes.get t).isNone)

/-- How the lookups and the walk move a registry and its allocation counter:
the counter does not go back, the lists of the index and the stored nodes are
kept, a list that the index did not have holds nodes at or above the former
counter, as does a stored node that was not stored before, a well-formed state
stays well-formed, and the cleanup list is the same. -/
def Grow (s : defaultSchema) (m : Mem) (s2 : defaultSchema) (m2 : Mem) : Prop :=
  m.next ≤ m2.next ∧ IndexLe s s2 ∧ (∀ x ∈ s.allNodes, x ∈ s2.allNodes) ∧
  (∀ x ∈ s2.allNodes, x ∈ s.allNodes ∨ m.next ≤ x.ptr) ∧
  (∀ t L, s2.nodes.get t = some L → s.nodes.get t = some L ∨ ∀ x ∈ L, m.next ≤ x.ptr) ∧
  (WellFormed s m → WellFormed s2 m2) ∧ s2.cleanups = s.cleanups

/-- A move of the registry after which no more is left to walk than before. -/
def Step (U : List RType) (s : defaultSchema) (m : Mem) (s2 : defaultSchema) (m2 : Mem) :
    Prop :=
  Grow s m s2 m2 ∧ pending U s2 ≤ pending U s

/-- A node whose dependencies were resolved during a walk from the registry
`se` to the registry `hi`, all of them within the list `W`: in a registry
whose index lies between the two, the lookups of the parameters and of the
fields of the node succeed, and every node they return is in `W`. -/
def WalkedIn (d : Decl) (se hi : defaultSchema) (W : List node) (x : node) : Prop :=
  ∃ s1 m1 l, IndexLe se s1 ∧ IndexLe s1 hi ∧ (x.resolve d s1 m1).res = .ok l ∧
    ∀ y ∈ l, y ∈ W

/-- The visited-state map of `hi` covers the list `W` after walks that began at
the registry `se`: the index of `hi` keeps the lists of `se`, every node of `W`
is marked done in `hi`, and every address marked done in `hi` was done in `se`
or is the address of a node of `W` whose dependencies were resolved during the
walks, all of them within `W`. With no address done in `se`, `W` is closed
under the dependency lookups. -/
def Covered (d : Decl) (se hi : defaultSchema) (W : List node) : Prop :=
  IndexLe se hi ∧ (∀ x ∈ W, hi.mark x.ptr = visitDone) ∧
  ∀ p, hi.mark p = visitDone → se.mark p = visitDone ∨
    ∃ x ∈ W, x.ptr = p ∧ WalkedIn d se hi W x

/-! ## Sequences of calls -/

/-- Registering the nodes of a list, first to last. -/
def registerAll (s : defaultSchema) (ns : List node) : defaultSchema :=
  ns.foldl defaultSchema.register s

/-- Repeating the same lookup `k` times, each call on the registry and the
allocation counter that the previous call left: the results, first to last. -/
def findRepeat (isInjectable : RType → Bool) (t : RType) (tags : Tags) :
    Nat → defaultSchema → Mem → List (Except Failure node)
  | 0, _, _ => []
  | k + 1, s, m =>
    (s.find isInjectable m t tags).res ::
      findRepeat isInjectable t tags k (s.find isInjectable m t tags).schema
        (s.find isInjectable m t tags).mem

/-! ## Sample registries -/

/-- An interface type with three tagged providers. -/
def Plugin : RType := .named "Plugin" .Interface

/-- A provider of `Plugin` tagged `a`. -/
def pluginA : node := .mk 1 0 Plugin ["a"] (.provider 0)

/-- A provider of `Plugin` tagged `b`. -/
def pluginB : node := .mk 3 2 Plugin ["b"] (.provider 1)

/-- A second provider of `Plugin` tagged `a`. -/
def pluginA2 : node := .mk 5 4 Plugin ["a"] (.provider 2)

/-- The registry after registering `pluginA`, then `pluginB`. -/
def pluginSchema : defaultSchema :=
  registerAll newDefaultSchema [pluginA, pluginB]

/-- The allocation counter once the sample providers exist. -/
def pluginMem : Mem := ⟨6⟩

/-- A field-injection policy that admits no type. -/
def injectNone : RType → Bool := fun _ => false

/-- A struct type without provider. -/
def Config : RType := .named "Config" .Struct

/-- The field-injection policy under which `Config` carries the injection
marker: `Config` and the pointer to `Config` qualify. -/
def injectConfig : RType → Bool := fun t => decide (t = Config) || decide (t = .ptr Config)

/-- A provider of `Plugin` tagged `c`. -/
def pluginC : node := .mk 7 6 Plugin ["c"] (.provider 3)

/-- The registry after registering `pluginA`, `pluginB`, then `pluginC`. -/
def threePlugins : defaultSchema :=
  registerAll newDefaultSchema [pluginA, pluginB, pluginC]

/-- The allocation counter once the three providers exist. -/
def threeMem : Mem := ⟨8⟩

/-- A `Value` that returns the memo slot of the node and changes nothing. -/
def slotValue : node → defaultSchema → Mem → ValueOutcome :=
  fun n s m => ⟨.ok n.rv, s, m⟩

/-- A compile step that returns the memo slot of the node and changes
nothing. -/
def slotCompile : node → List Nat → defaultSchema → Mem → ValueOutcome :=
  fun n _ s m => ⟨.ok n.rv, s, m⟩

/-- A `Value` that registers a cleanup callback, as a factory may. -/
def cleanupValue : node → defaultSchema → Mem → ValueOutcome :=
  fun n s m => ⟨.ok n.rv, s.cleanup n.ptr, m⟩

/-- A registration boundary without declared inputs and fields. -/
def noDeps : Decl := ⟨injectNone, fun _ => [], fun _ => [], slotValue, slotCompile⟩

/-- A struct type that carries the injection marker and a field of type
`Config`; its provider returns a pointer to it. -/
def Service : RType := .named "Service" .Struct

/-- The provider of the pointer to `Service`. -/
def serviceNode : node := .mk 1 0 (.ptr Service) [] (.provider 0)

/-- The declarations of the `Service` sample: the constructor has no input,
the node of the pointer to `Service` has the field of type `Config`, and
`Config` qualifies for field injection. -/
def serviceDecl : Decl :=
  ⟨injectConfig, fun _ => [],
    fun n => if n.rt = RType.ptr Service then [(Config, [])] else [],
    slotValue, slotCompile⟩

/-- The registry that holds the provider of the pointer to `Service`. -/
def serviceSchema : defaultSchema := registerAll newDefaultSchema [serviceNode]

/-- Three struct types with providers, and one without. -/
def Alpha : RType := .named "Alpha" .Struct

/-- The second type of the cycle samples. -/
def Beta : RType := .named "Beta" .Struct

/-- The third type of the cycle samples. -/
def Gamma : RType := .named "Gamma" .Struct

/-- A type that is not registered. -/
def Missing : RType := .named "Missing" .Struct

/-- The provider of `Alpha`. -/
def nodeA : node := .mk 1 0 Alpha [] (.provider 0)

/-- The provider of `Beta`. -/
def nodeB : node := .mk 3 2 Beta [] (.provider 1)

/-- The provider of `Gamma`. -/
def nodeC : node := .mk 5 4 Gamma [] (.provider 2)

/-- The constructor of `Alpha` takes a `Beta`, the one of `Beta` an
`Alpha`. -/
def cycleDecl : Decl :=
  ⟨injectNone,
    fun id => if id = 0 then [(Beta, [])] else if id = 1 then [(Alpha, [])] else [],
    fun _ => [], slotValue, slotCompile⟩

/-- The dependencies of the nodes of the cycle sample. -/
def cycleDeps : node → List node :=
  fun n => if n.ptr = 1 then [nodeB] else if n.ptr = 3 then [nodeA] else []

/-- The registry of the cycle sample. -/
def cycleSchema : defaultSchema := registerAll newDefaultSchema [nodeA, nodeB]

/-- The constructor of `Alpha` takes a `Gamma` and a `Beta`, the one of `Beta`
an `Alpha`, and the one of `Gamma` a `Missing`, which nobody provides. -/
def brokenDecl : Decl :=
  ⟨injectNone,
    fun id =>
      if id = 0 then [(Gamma, []), (Beta, [])]
      else if id = 1 then [(Alpha, [])]
      else if id = 2 then [(Missing, [])] else [],
    fun _ => [], slotValue, slotCompile⟩

/-- The registry of the sample with the unresolved input. -/
def brokenSchema : defaultSchema := registerAll newDefaultSchema [nodeA, nodeB, nodeC]

/-- The constructor of `Alpha` takes all the `Plugin` providers, as a slice,
and a `Beta`; the one of `Beta` takes an `Alpha`, and the node of `Beta` has a
field of type `Config`, which qualifies for field injection. -/
def mixedDecl : Decl :=
  ⟨injectConfig,
    fun id =>
      if id = 0 then [(.slice Plugin, []), (Beta, [])]
      else if id = 1 then [(Alpha, [])] else [],
    fun n => if n.rt = Beta then [(Config, [])] else [],
    slotValue, slotCompile⟩

/-- The registry of the sample with a group dependency and an injected
field. -/
def mixedSchema : defaultSchema := registerAll newDefaultSchema [nodeA, nodeB, pluginA2]

/-- The index entries of the sample with the unresolved input, in each of the
orders in which a loop over the index can meet them. -/
def brokenOrders : List NodeMap :=
  [[(Alpha, [nodeA]), (Beta, [nodeB]), (Gamma, [nodeC])],
   [(Alpha, [nodeA]), (Gamma, [nodeC]), (Beta, [nodeB])],
   [(Beta, [nodeB]), (Alpha, [nodeA]), (Gamma, [nodeC])],
   [(Beta, [nodeB]), (Gamma, [nodeC]), (Alpha, [nodeA])],
   [(Gamma, [nodeC]), (Alpha, [nodeA]), (Beta, [nodeB])],
   [(Gamma, [nodeC]), (Beta, [nodeB]), (Alpha, [nodeA])]]

/-- The registry after registering `pluginA`, `pluginB`, then `pluginA2`:
two providers of `Plugin` carry the tag set `a`. -/
def twoTaggedA : defaultSchema :=
  registerAll newDefaultSchema ([] ++ pluginA :: ([pluginB] ++ pluginA2 :: []))

/-! ## The index -/

theorem NodeMap.get_set_same (m : NodeMap) (t : RType) (v : List node) :
    (m.set t v).get t = some v := by
  induction m with
  | nil => simp [NodeMap.set, NodeMap.get]
  | cons hd tl ih =>
    obtain ⟨k, w⟩ := hd
    by_cases h : k = t
    · simp [NodeMap.set, NodeMap.get, h]
    · simp [NodeMap.set, NodeMap.get, h, ih]

theorem NodeMap.get_set_other (m : NodeMap) (t u : RType) (v : List node) (h : t ≠ u) :
    (m.set t v).get u = m.get u := by
  induction m with
  | nil => simp [NodeMap.set, NodeMap.get, h]
  | cons hd tl ih =>
    obtain ⟨k, w⟩ := hd
    by_cases hk : k = t
    · subst hk
      simp [NodeMap.set, NodeMap.get, h]
    · by_cases hu : k = u
      · subst hu
        simp [NodeMap.set, NodeMap.get, hk]
      · simp [NodeMap.set, NodeMap.get, hk, hu, ih]

theorem register_get (s : defaultSchema) (n : node) (t : RType) :
    (s.register n).nodes.get t =
      if n.rt = t then some ((s.nodes.get t).getD [] ++ [n]) else s.nodes.get t := by
  unfold defaultSchema.register
  by_cases h : n.rt = t
  · subst h
    cases hg : s.nodes.get n.rt <;> simp [NodeMap.get_set_same]
  · cases hg : s.nodes.get n.rt <;> simp [NodeMap.get_set_other _ _ _ _ h, h]

theorem register_cleanups (s : defaultSchema) (n : node) :
    (s.register n).cleanups = s.cleanups ∧ (s.register n).passed = s.passed := by
  unfold defaultSchema.register
  cases s.nodes.get n.rt <;> simp

/-- The list of a type after a run of registrations: the nodes of that type
are appended to the former list in the order of the calls. -/
theorem registerAll_get (s : defaultSchema) (ns : List node) (t : RType) :
    (registerAll s ns).nodes.get t =
      if (ns.filter (fun n => decide (n.rt = t))).isEmpty then s.nodes.get t
      else some ((s.nodes.get t).getD [] ++ ns.filter (fun n => decide (n.rt = t))) := by
  induction ns generalizing s with
  | nil => simp [registerAll]
  | cons n rest ih =>
    have hstep : registerAll s (n :: rest) = registerAll (s.register n) rest := rfl
    rw [hstep, ih (s.register n), register_get]
    by_cases h : n.rt = t
    · simp [h, List.filter_cons]
    · simp [h, List.filter_cons]

/-! ## Tag matching -/

theorem Tags.matches_iff (a b : Tags) :
    Tags.matches a b = true ↔ ∀ l, l ∈ b → l ∈ a := by
  simp only [Tags.matches, List.all_eq_true, List.contains_eq_any_beq,
    List.any_eq_true, beq_iff_eq]
  constructor
  · intro h l hl
    obtain ⟨x, hx, rfl⟩ := h l hl
    exact hx
  · intro h l hl
    exact ⟨l, h l hl, rfl⟩

theorem Tags.same_iff (a b : Tags) :
    Tags.same a b = true ↔ ∀ l, l ∈ a ↔ l ∈ b := by
  simp only [Tags.same, Bool.and_eq_true, List.all_eq_true, List.contains_eq_any_beq,
    List.any_eq_true, beq_iff_eq]
  constructor
  · rintro ⟨h1, h2⟩ l
    constructor
    · intro hl
      obtain ⟨x, hx, rfl⟩ := h1 l hl
      exact hx
    · intro hl
      obtain ⟨x, hx, rfl⟩ := h2 l hl
      exact hx
  · intro h
    exact ⟨fun l hl => ⟨l, (h l).1 hl, rfl⟩, fun l hl => ⟨l, (h l).2 hl, rfl⟩⟩

theorem matchTags_sublist (L : List node) (tags : Tags) :
    List.Sublist (matchTags L tags) L :=
  List.filter_sublist L

/-! ## The lookup of a registered type -/

/-- The lookup of a type that has an entry in the index, by the number of
tag-matched nodes. -/
theorem find_of_get_some (inj : RType → Bool) (s : defaultSchema) (m : Mem) (t : RType)
    (tags : Tags) (L : List node) (hL : s.nodes.get t = some L) :
    s.find inj m t tags =
      ⟨match matchTags L tags with
        | [] => .error (.notExists t tags)
        | [n] => .ok n
        | _ :: _ :: _ => .error (.multipleDefinitions t tags), s, m⟩ := by
  unfold defaultSchema.find
  simp only [hL]
  rcases hM : matchTags L tags with _ | ⟨a, _ | ⟨b, r⟩⟩ <;> simp

/-- C1: when type `t` has a list `L` of registered providers, `find(t, tags)`
is decided by the tag-matched sublist `M = matchTags(L, tags)` alone: it fails
"not exists" when `M` is empty, fails "multiple definitions" when `M` has more
than one node and returns the single node of `M` otherwise. The result does
not depend on the field-injection policy, and the registry and the allocation
counter are left as they were: no node is synthesized. -/
theorem find_decided_by_matched (inj : RType → Bool) (s : defaultSchema) (m : Mem)
    (t : RType) (tags : Tags) (L : List node) (hL : s.nodes.get t = some L) :
    (matchTags L tags = [] →
        s.find inj m t tags = ⟨.error (.notExists t tags), s, m⟩) ∧
    (1 < (matchTags L tags).length →
        s.find inj m t tags = ⟨.error (.multipleDefinitions t tags), s, m⟩) ∧
    (∀ n, matchTags L tags = [n] → s.find inj m t tags = ⟨.ok n, s, m⟩) := by
  rw [find_of_get_some inj s m t tags L hL]
  refine ⟨?_, ?_, ?_⟩
  · intro h
    rw [h]
  · intro h
    rcases hM : matchTags L tags with _ | ⟨a, _ | ⟨b, r⟩⟩
    · rw [hM] at h
      simp at h
    · rw [hM] at h
      simp at h
    · rfl
  · intro n h
    rw [h]

/-- C1 at a sample registry: `Plugin` has the providers tagged `a` and `b`,
and the query tagged `a` returns the first. -/
theorem find_decided_by_matched_witness :
    pluginSchema.nodes.get Plugin = some [pluginA, pluginB] ∧
    matchTags [pluginA, pluginB] ["a"] = [pluginA] ∧
    pluginSchema.find injectNone pluginMem Plugin ["a"] = ⟨.ok pluginA, pluginSchema, pluginMem⟩ :=
  ⟨rfl, rfl,
    (find_decided_by_matched injectNone pluginSchema pluginMem Plugin ["a"]
      [pluginA, pluginB] rfl).2.2 pluginA rfl⟩

/-- The lookup of a type that has no entry in the index: the field-injection
branch when the type qualifies, else the group step for a slice type, else the
failure "not exists in the container". -/
theorem find_of_get_none (inj : RType → Bool) (s : defaultSchema) (m : Mem) (t : RType)
    (tags : Tags) (hnone : s.nodes.get t = none) :
    s.find inj m t tags =
      if inj t = true then
        if t.Kind = Kind.Ptr then
          match t.Elem with
          | some e => ⟨.error (.injectNotSupported t tags e), s, m⟩
          | none => ⟨.error (.elemPanic t), s, m⟩
        else
          ⟨.ok (.mk (m.next + 1) m.next t [] (.typeCompiler t)),
            { s with nodes := s.nodes.set t [.mk (m.next + 1) m.next t [] (.typeCompiler t)] },
            ⟨m.next + 2⟩⟩
      else if t.Kind = Kind.Slice then s.group m t tags
      else ⟨.error (.notInContainer t tags), s, m⟩ := by
  unfold defaultSchema.find
  simp only [hnone]
  by_cases hi : inj t = true
  · by_cases hp : t.Kind = Kind.Ptr <;> simp [hi, hp]
  · by_cases hk : t.Kind = Kind.Slice <;> simp [hi, hk]

/-- The group step on a type with element type `T`, by the tag-matched
providers of `T`. -/
theorem group_of_elem (s : defaultSchema) (m : Mem) (t T : RType) (tags : Tags)
    (hT : t.Elem = some T) :
    s.group m t tags =
      match matchTags ((s.nodes.get T).getD []) tags with
      | [] => ⟨.error (.notExists t tags), s, m⟩
      | a :: r =>
        ⟨.ok (.mk (m.next + 1) m.next t tags (.groupCompiler t (a :: r))), s, ⟨m.next + 2⟩⟩ := by
  unfold defaultSchema.group
  simp only [hT]
  cases hg : s.nodes.get T with
  | none => simp [matchTags]
  | some L =>
    simp only [Option.getD_some]
    cases hM : matchTags L tags <;> simp

/-- A slice type has an element type. -/
theorem Elem_of_Kind_Slice (t : RType) (h : t.Kind = Kind.Slice) : ∃ e, t.Elem = some e := by
  induction t with
  | named n k => cases k <;> simp [RType.Kind, BaseKind.Kind] at h
  | ptr e _ => simp [RType.Kind] at h
  | slice e _ => exact ⟨e, rfl⟩
  | array n e _ => simp [RType.Kind] at h
  | chan e _ => simp [RType.Kind] at h
  | map k e _ _ => simp [RType.Kind] at h
  | defined n u ih => exact ih h

/-- A pointer type has an element type. -/
theorem Elem_of_Kind_Ptr (t : RType) (h : t.Kind = Kind.Ptr) : ∃ e, t.Elem = some e := by
  induction t with
  | named n k => cases k <;> simp [RType.Kind, BaseKind.Kind] at h
  | ptr e _ => exact ⟨e, rfl⟩
  | slice e _ => simp [RType.Kind] at h
  | array n e _ => simp [RType.Kind] at h
  | chan e _ => simp [RType.Kind] at h
  | map k e _ _ => simp [RType.Kind] at h
  | defined n u ih => exact ih h

theorem pair_sublist (pre mid post : List node) (n1 n2 : node) :
    List.Sublist [n1, n2] (pre ++ n1 :: (mid ++ n2 :: post)) := by
  apply List.Sublist.trans _ (List.sublist_append_right pre _)
  apply List.Sublist.cons₂
  apply List.Sublist.trans _ (List.sublist_append_right mid _)
  apply List.Sublist.cons₂
  exact List.nil_sublist post

/-- Two nodes of type `t` that match the query, registered one after the other
(with any registrations before, between and after), make the lookup of `t`
ambiguous. -/
theorem find_of_two_matching (inj : RType → Bool) (s0 : defaultSchema) (m : Mem)
    (pre mid post : List node) (n1 n2 : node) (t : RType) (tags : Tags)
    (h1 : n1.rt = t) (h2 : n2.rt = t)
    (hm1 : Tags.matches n1.tags tags = true) (hm2 : Tags.matches n2.tags tags = true) :
    (registerAll s0 (pre ++ n1 :: (mid ++ n2 :: post))).find inj m t tags =
      ⟨.error (.multipleDefinitions t tags),
        registerAll s0 (pre ++ n1 :: (mid ++ n2 :: post)), m⟩ := by
  have hsub := ((pair_sublist pre mid post n1 n2).filter (fun n => decide (n.rt = t)))
  have hpair : List.filter (fun n => decide (n.rt = t)) [n1, n2] = [n1, n2] := by
    simp [List.filter_cons, h1, h2]
  rw [hpair] at hsub
  have hne : (List.filter (fun n => decide (n.rt = t))
      (pre ++ n1 :: (mid ++ n2 :: post))).isEmpty = false := by
    cases hF : List.filter (fun n => decide (n.rt = t)) (pre ++ n1 :: (mid ++ n2 :: post)) with
    | nil => rw [hF] at hsub; simp at hsub
    | cons a r => rfl
  have hget := registerAll_get s0 (pre ++ n1 :: (mid ++ n2 :: post)) t
  rw [hne] at hget
  simp only [Bool.false_eq_true, if_false] at hget
  rw [find_of_get_some inj _ m t tags _ hget]
  have hsub2 : List.Sublist [n1, n2] (matchTags ((s0.nodes.get t).getD [] ++
      List.filter (fun n => decide (n.rt = t)) (pre ++ n1 :: (mid ++ n2 :: post))) tags) := by
    have h := (List.Sublist.trans hsub
      (List.sublist_append_right ((s0.nodes.get t).getD []) _)).filter
      (fun n => Tags.matches n.tags tags)
    have hp : List.filter (fun n => Tags.matches n.tags tags) [n1, n2] = [n1, n2] := by
      simp [List.filter_cons, hm1, hm2]
    rw [hp] at h
    exact h
  have hlen := hsub2.length_le
  rcases hM : matchTags ((s0.nodes.get t).getD [] ++
      List.filter (fun n => decide (n.rt = t)) (pre ++ n1 :: (mid ++ n2 :: post))) tags
    with _ | ⟨a, _ | ⟨b, r⟩⟩
  · rw [hM] at hlen; simp at hlen
  · rw [hM] at hlen; simp at hlen
  · rfl

/-- C2: in a registry obtained by registering two nodes `n1` and `n2` of the
same type `t` that carry identical tag sets, whatever is registered before,
between and after them and whatever the registry held at the start,
`find(t, tags)` with `tags` equal to that tag set fails with "multiple
definitions": it returns neither node, and leaves the registry as it was. -/
theorem find_ambiguous_of_identical_tags (inj : RType → Bool) (s0 : defaultSchema) (m : Mem)
    (pre mid post : List node) (n1 n2 : node) (t : RType) (tags : Tags)
    (h1 : n1.rt = t) (h2 : n2.rt = t)
    (h12 : Tags.same n1.tags n2.tags = true)
    (hq : Tags.same tags n1.tags = true) :
    (registerAll s0 (pre ++ n1 :: (mid ++ n2 :: post))).find inj m t tags =
      ⟨.error (.multipleDefinitions t tags),
        registerAll s0 (pre ++ n1 :: (mid ++ n2 :: post)), m⟩ := by
  have e12 := (Tags.same_iff _ _).1 h12
  have eq := (Tags.same_iff _ _).1 hq
  have hm1 : Tags.matches n1.tags tags = true :=
    (Tags.matches_iff _ _).2 (fun l hl => (eq l).1 hl)
  have hm2 : Tags.matches n2.tags tags = true :=
    (Tags.matches_iff _ _).2 (fun l hl => (e12 l).1 ((eq l).1 hl))
  exact find_of_two_matching inj s0 m pre mid post n1 n2 t tags h1 h2 hm1 hm2

/-- C2 at a sample registry: `pluginA` and `pluginA2` are both tagged `a`, and
the query `Plugin` tagged `a` is ambiguous. -/
theorem find_ambiguous_of_identical_tags_witness :
    pluginA.rt = Plugin ∧ pluginA2.rt = Plugin ∧
    Tags.same pluginA.tags pluginA2.tags = true ∧
    Tags.same ["a"] pluginA.tags = true ∧
    twoTaggedA.find injectNone pluginMem Plugin ["a"] =
      ⟨.error (.multipleDefinitions Plugin ["a"]), twoTaggedA, pluginMem⟩ :=
  ⟨rfl, rfl, rfl, rfl,
    find_ambiguous_of_identical_tags injectNone newDefaultSchema pluginMem [] [pluginB] []
      pluginA pluginA2 Plugin ["a"] rfl rfl rfl rfl⟩

/-- C3: when exactly one registered provider `n` of type `t` matches `tags`,
`find(t, tags)` returns `n` and leaves the registry and the allocation counter
as they were, and for every number `k` of repetitions each of the `k` calls
returns that same node `n`: the same address, hence the same memo slot. -/
theorem find_repeat_same_node (inj : RType → Bool) (s : defaultSchema) (m : Mem) (t : RType)
    (tags : Tags) (L : List node) (n : node) (hL : s.nodes.get t = some L)
    (hM : matchTags L tags = [n]) :
    s.find inj m t tags = ⟨.ok n, s, m⟩ ∧
    ∀ k, findRepeat inj t tags k s m = List.replicate k (.ok n) := by
  have hf : s.find inj m t tags = ⟨.ok n, s, m⟩ := by
    rw [find_of_get_some inj s m t tags L hL, hM]
  refine ⟨hf, ?_⟩
  intro k
  induction k with
  | zero => rfl
  | succ k ih => simp only [findRepeat, hf, ih, List.replicate_succ]

/-- C3 at a sample registry: three lookups of `Plugin` tagged `b` return
`pluginB` three times. -/
theorem find_repeat_same_node_witness :
    pluginSchema.nodes.get Plugin = some [pluginA, pluginB] ∧
    matchTags [pluginA, pluginB] ["b"] = [pluginB] ∧
    findRepeat injectNone Plugin ["b"] 3 pluginSchema pluginMem =
      [.ok pluginB, .ok pluginB, .ok pluginB] :=
  ⟨rfl, rfl,
    (find_repeat_same_node injectNone pluginSchema pluginMem Plugin ["b"]
      [pluginA, pluginB] pluginB rfl rfl).2 3⟩

/-- The list of a type after a run of registrations, read with the empty list
for an absent type. -/
theorem registerAll_getD (s : defaultSchema) (ns : List node) (t : RType) :
    ((registerAll s ns).nodes.get t).getD [] =
      (s.nodes.get t).getD [] ++ ns.filter (fun n => decide (n.rt = t)) := by
  rw [registerAll_get]
  cases hF : ns.filter (fun n => decide (n.rt = t)) with
  | nil => simp
  | cons a r => simp

/-- A lookup that the group step decides: the type has no entry in the index,
does not qualify for field injection and is of slice kind. -/
theorem find_eq_group (inj : RType → Bool) (s : defaultSchema) (m : Mem) (t : RType)
    (tags : Tags) (hkind : t.Kind = Kind.Slice) (hnone : s.nodes.get t = none)
    (hinj : inj t = false) :
    s.find inj m t tags = s.group m t tags := by
  rw [find_of_get_none inj s m t tags hnone]
  simp [hinj, hkind]

/-- C4: in a registry built by registering the nodes `regs` in that order on a
registry `s0`, a successful group query `find(t, tags)` on a slice type `t` of
element type `T` (no provider under `t` itself) returns a group node whose
members are `matchTags(L, tags)`, where the index list `L` of `T` is the list
that `s0` held for `T` followed by the nodes of `regs` of type `T` in the order
of the calls of `register`; the members are an order-preserving sublist of
`L`, the registered ones an order-preserving sublist of `regs`, and repeating
the query on the registry that the first query left returns a group node with
the same member sequence. -/
theorem group_members_in_registration_order (inj : RType → Bool) (s0 : defaultSchema)
    (m : Mem) (regs : List node) (t T : RType) (tags : Tags) (g : node)
    (hkind : t.Kind = Kind.Slice) (hT : t.Elem = some T)
    (hnone : (registerAll s0 regs).nodes.get t = none) (hinj : inj t = false)
    (hok : ((registerAll s0 regs).find inj m t tags).res = .ok g) :
    ((registerAll s0 regs).nodes.get T).getD [] =
        (s0.nodes.get T).getD [] ++ regs.filter (fun n => decide (n.rt = T)) ∧
    g.compiler = .groupCompiler t
        (matchTags (((registerAll s0 regs).nodes.get T).getD []) tags) ∧
    List.Sublist (matchTags (((registerAll s0 regs).nodes.get T).getD []) tags)
        (((registerAll s0 regs).nodes.get T).getD []) ∧
    List.Sublist (matchTags (regs.filter (fun n => decide (n.rt = T))) tags) regs ∧
    ∃ g2, (((registerAll s0 regs).find inj m t tags).schema.find inj
        ((registerAll s0 regs).find inj m t tags).mem t tags).res = .ok g2 ∧
      g2.compiler = g.compiler := by
  refine ⟨registerAll_getD s0 regs T, ?_, matchTags_sublist _ _,
    (matchTags_sublist _ _).trans (List.filter_sublist regs), ?_⟩
  · rw [find_eq_group inj _ m t tags hkind hnone hinj, group_of_elem _ m t T tags hT] at hok
    cases hM : matchTags (((registerAll s0 regs).nodes.get T).getD []) tags with
    | nil => rw [hM] at hok; simp at hok
    | cons a r =>
      rw [hM] at hok
      simp only [Except.ok.injEq] at hok
      rw [← hok]
      rfl
  · rw [find_eq_group inj _ m t tags hkind hnone hinj, group_of_elem _ m t T tags hT] at hok ⊢
    cases hM : matchTags (((registerAll s0 regs).nodes.get T).getD []) tags with
    | nil => rw [hM] at hok; simp at hok
    | cons a r =>
      rw [hM] at hok
      simp only [Except.ok.injEq] at hok
      simp only []
      rw [find_eq_group inj _ _ t tags hkind hnone hinj, group_of_elem _ _ t T tags hT, hM]
      refine ⟨_, rfl, ?_⟩
      rw [← hok]
      rfl

/-- C4 at a sample registry: after registering `pluginA`, `pluginB`, then
`pluginA2`, the query for the slice of `Plugin` tagged `a` returns a group of
the two providers tagged `a`, in the order of their registration, with
`pluginB`, registered between them, left out; the repeated query returns the
same two members in the same order. -/
theorem group_members_in_registration_order_witness :
    (RType.slice Plugin).Kind = Kind.Slice ∧ (RType.slice Plugin).Elem = some Plugin ∧
    (registerAll newDefaultSchema [pluginA, pluginB, pluginA2]).nodes.get (.slice Plugin) =
      none ∧
    ((registerAll newDefaultSchema [pluginA, pluginB, pluginA2]).find injectNone pluginMem
        (.slice Plugin) ["a"]).res =
      .ok (.mk 7 6 (.slice Plugin) ["a"]
        (.groupCompiler (.slice Plugin) [pluginA, pluginA2])) ∧
    (node.mk 7 6 (.slice Plugin) ["a"]
        (.groupCompiler (.slice Plugin) [pluginA, pluginA2])).compiler =
      .groupCompiler (.slice Plugin)
        (matchTags (((registerAll newDefaultSchema [pluginA, pluginB, pluginA2]).nodes.get
          Plugin).getD []) ["a"]) ∧
    List.Sublist [pluginA, pluginA2] [pluginA, pluginB, pluginA2] ∧
    ∃ g2, (((registerAll newDefaultSchema [pluginA, pluginB, pluginA2]).find injectNone
          pluginMem (.slice Plugin) ["a"]).schema.find injectNone
        ((registerAll newDefaultSchema [pluginA, pluginB, pluginA2]).find injectNone
          pluginMem (.slice Plugin) ["a"]).mem
        (.slice Plugin) ["a"]).res = .ok g2 ∧
      g2.compiler = .groupCompiler (.slice Plugin) [pluginA, pluginA2] :=
  ⟨rfl, rfl, rfl, rfl,
    (group_members_in_registration_order injectNone newDefaultSchema pluginMem
      [pluginA, pluginB, pluginA2] (.slice Plugin) Plugin ["a"]
      (.mk 7 6 (.slice Plugin) ["a"] (.groupCompiler (.slice Plugin) [pluginA, pluginA2]))
      rfl rfl rfl rfl rfl).2.1,
    (group_members_in_registration_order injectNone newDefaultSchema pluginMem
      [pluginA, pluginB, pluginA2] (.slice Plugin) Plugin ["a"]
      (.mk 7 6 (.slice Plugin) ["a"] (.groupCompiler (.slice Plugin) [pluginA, pluginA2]))
      rfl rfl rfl rfl rfl).2.2.2.1,
    (group_members_in_registration_order injectNone newDefaultSchema pluginMem
      [pluginA, pluginB, pluginA2] (.slice Plugin) Plugin ["a"]
      (.mk 7 6 (.slice Plugin) ["a"] (.groupCompiler (.slice Plugin) [pluginA, pluginA2]))
      rfl rfl rfl rfl rfl).2.2.2.2⟩

/-- C5: a group query `find(t, tags)` (slice type `t` of element type `T`, no
provider under `t`, `t` not field-injectable) is the group step, and it fails
with "not exists", leaving the registry as it was, when no registered provider
of `T` matches `tags`, in particular when `T` has no providers at all; a node
that such a query returns is a group node with at least one member. -/
theorem group_query_without_match_fails (inj : RType → Bool) (s : defaultSchema) (m : Mem)
    (t T : RType) (tags : Tags)
    (hkind : t.Kind = Kind.Slice) (hT : t.Elem = some T)
    (hnone : s.nodes.get t = none) (hinj : inj t = false) :
    s.find inj m t tags = s.group m t tags ∧
    (matchTags ((s.nodes.get T).getD []) tags = [] →
        s.find inj m t tags = ⟨.error (.notExists t tags), s, m⟩) ∧
    (s.nodes.get T = none →
        s.find inj m t tags = ⟨.error (.notExists t tags), s, m⟩) ∧
    (∀ g, (s.find inj m t tags).res = .ok g →
        ∃ a r, matchTags ((s.nodes.get T).getD []) tags = a :: r ∧
          g.compiler = .groupCompiler t (a :: r)) := by
  have hfg := find_eq_group inj s m t tags hkind hnone hinj
  refine ⟨hfg, ?_, ?_, ?_⟩
  · intro hM
    rw [hfg, group_of_elem s m t T tags hT, hM]
  · intro hg
    rw [hfg, group_of_elem s m t T tags hT, hg]
    rfl
  · intro g hok
    rw [hfg, group_of_elem s m t T tags hT] at hok
    cases hM : matchTags ((s.nodes.get T).getD []) tags with
    | nil => rw [hM] at hok; simp at hok
    | cons a r =>
      rw [hM] at hok
      simp only [Except.ok.injEq] at hok
      refine ⟨a, r, rfl, ?_⟩
      rw [← hok]
      rfl

/-- C5 at a sample registry: no provider of `Plugin` is tagged `c`, and the
query for the slice of `Plugin` tagged `c` fails. -/
theorem group_query_without_match_fails_witness :
    (RType.slice Plugin).Kind = Kind.Slice ∧ (RType.slice Plugin).Elem = some Plugin ∧
    pluginSchema.nodes.get (.slice Plugin) = none ∧
    matchTags ((pluginSchema.nodes.get Plugin).getD []) ["c"] = [] ∧
    pluginSchema.find injectNone pluginMem (.slice Plugin) ["c"] =
      ⟨.error (.notExists (.slice Plugin) ["c"]), pluginSchema, pluginMem⟩ :=
  ⟨rfl, rfl, rfl, rfl,
    (group_query_without_match_fails injectNone pluginSchema pluginMem (.slice Plugin) Plugin
      ["c"] rfl rfl rfl rfl).2.1 rfl⟩

/-- C6: a type `t` that has no registered providers, is not of slice kind and
does not qualify for field injection is not found: for every tag set,
`find(t, tags)` fails with "not exists in the container" and leaves the
registry and the allocation counter as they were. -/
theorem find_unregistered_fails (inj : RType → Bool) (s : defaultSchema) (m : Mem)
    (t : RType) (hnone : s.nodes.get t = none) (hkind : t.Kind ≠ Kind.Slice)
    (hinj : inj t = false) :
    ∀ tags, s.find inj m t tags = ⟨.error (.notInContainer t tags), s, m⟩ := by
  intro tags
  rw [find_of_get_none inj s m t tags hnone]
  simp [hinj, hkind]

/-- C6 at a sample registry: `Config` is not registered. -/
theorem find_unregistered_fails_witness :
    pluginSchema.nodes.get Config = none ∧ Config.Kind ≠ Kind.Slice ∧
    injectNone Config = false ∧
    pluginSchema.find injectNone pluginMem Config ["a"] =
      ⟨.error (.notInContainer Config ["a"]), pluginSchema, pluginMem⟩ :=
  ⟨rfl, by decide, rfl,
    find_unregistered_fails injectNone pluginSchema pluginMem Config rfl (by decide) rfl ["a"]⟩

/-- The sample policy admits a struct type and the pointer to it. -/
theorem injectConfig_policy : admitsStructAndPointerOnly injectConfig := by
  intro t h
  simp only [injectConfig, Bool.or_eq_true, decide_eq_true_eq] at h
  rcases h with h | h
  · left; rw [h]; rfl
  · right; rw [h]; rfl

/-- The branch of `find` for a slice type without registered providers, for
any policy: the group step when the type does not qualify for field injection,
the synthesized field-injection node when it does. -/
theorem find_fallback_order (inj : RType → Bool) (s : defaultSchema) (m : Mem) (t : RType)
    (tags : Tags) (hnone : s.nodes.get t = none) (hkind : t.Kind = Kind.Slice) :
    (inj t = false → s.find inj m t tags = s.group m t tags) ∧
    (inj t = true →
      s.find inj m t tags =
        ⟨.ok (.mk (m.next + 1) m.next t [] (.typeCompiler t)),
          { s with nodes := s.nodes.set t [.mk (m.next + 1) m.next t [] (.typeCompiler t)] },
          ⟨m.next + 2⟩⟩) := by
  refine ⟨find_eq_group inj s m t tags hkind hnone, ?_⟩
  intro hinj
  rw [find_of_get_none inj s m t tags hnone]
  simp [hinj, hkind]

/-- C7: with a field-injection policy that admits struct and pointer types
only, a type `t` of slice kind with no registered providers does not qualify
for field injection, and `find(t, tags)` returns exactly the result of the
group query `group(t, tags)`: result, registry and allocation counter. The
field-injection branch stands before the group step in `find`, and is never
taken for a slice type, so that for such a type the lookup goes from the
explicit providers to the group step. -/
theorem find_sequence_is_group (inj : RType → Bool) (s : defaultSchema) (m : Mem)
    (t : RType) (tags : Tags) (hpolicy : admitsStructAndPointerOnly inj)
    (hnone : s.nodes.get t = none) (hkind : t.Kind = Kind.Slice) :
    inj t = false ∧ s.find inj m t tags = s.group m t tags := by
  have hinj : inj t = false := by
    cases h : inj t with
    | false => rfl
    | true =>
      rcases hpolicy t h with hk | hk
      · rw [hkind] at hk; simp at hk
      · rw [hkind] at hk; simp at hk
  exact ⟨hinj, find_eq_group inj s m t tags hkind hnone hinj⟩

/-- C7 at a sample registry: under the policy that admits `Config` and the
pointer to `Config`, the lookup of the slice of `Plugin` tagged `a` is the
group query, a group of `pluginA`; and the lookup of the slice of `Config`,
whose element type qualifies for field injection, is the group query too, the
failure "not exists". -/
theorem find_sequence_is_group_witness :
    admitsStructAndPointerOnly injectConfig ∧
    pluginSchema.nodes.get (.slice Plugin) = none ∧
    (RType.slice Plugin).Kind = Kind.Slice ∧
    pluginSchema.find injectConfig pluginMem (.slice Plugin) ["a"] =
      pluginSchema.group pluginMem (.slice Plugin) ["a"] ∧
    (pluginSchema.group pluginMem (.slice Plugin) ["a"]).res =
      .ok (.mk 7 6 (.slice Plugin) ["a"] (.groupCompiler (.slice Plugin) [pluginA])) ∧
    pluginSchema.find injectConfig pluginMem (.slice Config) [] =
      ⟨.error (.notExists (.slice Config) []), pluginSchema, pluginMem⟩ :=
  ⟨injectConfig_policy, rfl, rfl,
    (find_sequence_is_group injectConfig pluginSchema pluginMem (.slice Plugin) ["a"]
      injectConfig_policy rfl rfl).2,
    rfl,
    (find_sequence_is_group injectConfig pluginSchema pluginMem (.slice Config) []
      injectConfig_policy rfl rfl).2⟩

/-- C8: for a pointer type `t` that qualifies for field injection and has no
registered providers, and for every tag set, `find(t, tags)` fails with the
failure "inject fields not supported", which names the pointee type `t.Elem()`;
no node is returned, and the registry and the allocation counter are as they
were: no node is added. -/
theorem find_pointer_injection_fails (inj : RType → Bool) (s : defaultSchema) (m : Mem)
    (t : RType) (hkind : t.Kind = Kind.Ptr) (hnone : s.nodes.get t = none)
    (hinj : inj t = true) :
    ∃ e, t.Elem = some e ∧
      ∀ tags, s.find inj m t tags = ⟨.error (.injectNotSupported t tags e), s, m⟩ := by
  obtain ⟨e, he⟩ := Elem_of_Kind_Ptr t hkind
  refine ⟨e, he, ?_⟩
  intro tags
  rw [find_of_get_none inj s m t tags hnone]
  simp [hinj, hkind, he]

/-- C8 at a sample registry: the pointer to `Config` is rejected, and the
failure names `Config`. -/
theorem find_pointer_injection_fails_witness :
    (RType.ptr Config).Kind = Kind.Ptr ∧ pluginSchema.nodes.get (.ptr Config) = none ∧
    injectConfig (.ptr Config) = true ∧
    ∃ e, (RType.ptr Config).Elem = some e ∧
      ∀ tags, pluginSchema.find injectConfig pluginMem (.ptr Config) tags =
        ⟨.error (.injectNotSupported (.ptr Config) tags e), pluginSchema, pluginMem⟩ :=
  ⟨rfl, rfl, by decide,
    find_pointer_injection_fails injectConfig pluginSchema pluginMem (.ptr Config) rfl rfl
      (by decide)⟩

/-- The first lookup of a field-injectable type without providers (not a
pointer type) stores an untagged node under the type; the second lookup with
the same arguments goes through the tag match of that stored node, and returns
it only when the query tag set matches the empty tag set. -/
theorem find_injected_twice (inj : RType → Bool) (s : defaultSchema) (m : Mem) (t : RType)
    (tags : Tags) (hkind : t.Kind ≠ Kind.Ptr) (hnone : s.nodes.get t = none)
    (hinj : inj t = true) :
    (s.find inj m t tags).res = .ok (.mk (m.next + 1) m.next t [] (.typeCompiler t)) ∧
    (s.find inj m t tags).schema.nodes.get t =
      some [.mk (m.next + 1) m.next t [] (.typeCompiler t)] ∧
    ((s.find inj m t tags).schema.find inj (s.find inj m t tags).mem t tags).res =
      if Tags.matches [] tags = true then
        .ok (.mk (m.next + 1) m.next t [] (.typeCompiler t))
      else .error (.notExists t tags) := by
  have hf : s.find inj m t tags =
      ⟨.ok (.mk (m.next + 1) m.next t [] (.typeCompiler t)),
        { s with nodes := s.nodes.set t [.mk (m.next + 1) m.next t [] (.typeCompiler t)] },
        ⟨m.next + 2⟩⟩ := by
    rw [find_of_get_none inj s m t tags hnone]
    simp [hinj, hkind]
  rw [hf]
  refine ⟨rfl, NodeMap.get_set_same _ _ _, ?_⟩
  rw [find_of_get_some inj _ _ t tags _ (NodeMap.get_set_same _ _ _)]
  by_cases hm : Tags.matches [] tags = true
  · simp [matchTags, node.tags, hm]
  · simp [matchTags, node.tags, hm]

/-- C9, the code at a failing input: `Config` qualifies for field injection
and has no provider. The first `find(Config, [a])` returns a synthesized node
and stores it, untagged, under `Config`; the second `find(Config, [a])` fails
with "not exists". -/
theorem find_injected_tagged_then_fails :
    (newDefaultSchema.find injectConfig ⟨0⟩ Config ["a"]).res =
      .ok (.mk 1 0 Config [] (.typeCompiler Config)) ∧
    (newDefaultSchema.find injectConfig ⟨0⟩ Config ["a"]).schema.nodes =
      [(Config, [.mk 1 0 Config [] (.typeCompiler Config)])] ∧
    ((newDefaultSchema.find injectConfig ⟨0⟩ Config ["a"]).schema.find injectConfig
      (newDefaultSchema.find injectConfig ⟨0⟩ Config ["a"]).mem Config ["a"]).res =
      .error (.notExists Config ["a"]) :=
  ⟨rfl, rfl, rfl⟩

/-- C10, as stated, fails: after the successful group query for the slice of
`Plugin` tagged `a`, the index has no entry for the slice type, and the
repeated query returns another node, at another address. -/
theorem group_node_cached_counterexample :
    (pluginSchema.find injectNone pluginMem (.slice Plugin) ["a"]).res =
      .ok (.mk 7 6 (.slice Plugin) ["a"] (.groupCompiler (.slice Plugin) [pluginA])) ∧
    (pluginSchema.find injectNone pluginMem (.slice Plugin) ["a"]).schema.nodes =
      [(Plugin, [pluginA, pluginB])] ∧
    (pluginSchema.find injectNone pluginMem (.slice Plugin) ["a"]).schema.nodes.get
      (.slice Plugin) = none ∧
    ((pluginSchema.find injectNone pluginMem (.slice Plugin) ["a"]).schema.find injectNone
      (pluginSchema.find injectNone pluginMem (.slice Plugin) ["a"]).mem
      (.slice Plugin) ["a"]).res =
      .ok (.mk 9 8 (.slice Plugin) ["a"] (.groupCompiler (.slice Plugin) [pluginA])) ∧
    ((pluginSchema.find injectNone pluginMem (.slice Plugin) ["a"]).schema.find injectNone
      (pluginSchema.find injectNone pluginMem (.slice Plugin) ["a"]).mem
      (.slice Plugin) ["a"]).res ≠
      (pluginSchema.find injectNone pluginMem (.slice Plugin) ["a"]).res := by
  refine ⟨rfl, rfl, rfl, rfl, ?_⟩
  intro h
  have h2 : (some 9 : Option Nat) = some 7 :=
    congrArg (fun r => r.toOption.map node.ptr) h
  simp at h2

/-- C10, amended: a synthesized group node is not cached. A successful group
query `find(t, tags)` (slice type `t`, no provider under `t`, `t` not
field-injectable) leaves the registry as it was, so the index still has no
entry for `t`, and the repeated query returns a newly created node: another
address and another memo slot, with the same type, tags and members. -/
theorem group_node_created_each_query (inj : RType → Bool) (s : defaultSchema) (m : Mem)
    (t : RType) (tags : Tags) (g : node)
    (hkind : t.Kind = Kind.Slice) (hnone : s.nodes.get t = none) (hinj : inj t = false)
    (hok : (s.find inj m t tags).res = .ok g) :
    (s.find inj m t tags).schema = s ∧
    (s.find inj m t tags).schema.nodes.get t = none ∧
    ∃ g2, ((s.find inj m t tags).schema.find inj (s.find inj m t tags).mem t tags).res =
        .ok g2 ∧
      g2.ptr ≠ g.ptr ∧ g2.rv ≠ g.rv ∧ g2.rt = g.rt ∧ g2.tags = g.tags ∧
      g2.compiler = g.compiler := by
  obtain ⟨T, hT⟩ := Elem_of_Kind_Slice t hkind
  rw [find_eq_group inj s m t tags hkind hnone hinj, group_of_elem s m t T tags hT] at hok ⊢
  cases hM : matchTags ((s.nodes.get T).getD []) tags with
  | nil => rw [hM] at hok; simp at hok
  | cons a r =>
    rw [hM] at hok
    simp only [Except.ok.injEq] at hok
    refine ⟨rfl, hnone, ?_⟩
    simp only []
    rw [find_eq_group inj s _ t tags hkind hnone hinj, group_of_elem s _ t T tags hT, hM]
    refine ⟨_, rfl, ?_⟩
    rw [← hok]
    simp [node.ptr, node.rv, node.rt, node.tags, node.compiler]

/-- C10, amended, at a sample registry: the group query for the slice of
`Plugin` tagged `a`, twice. -/
theorem group_node_created_each_query_witness :
    (RType.slice Plugin).Kind = Kind.Slice ∧
    pluginSchema.nodes.get (.slice Plugin) = none ∧
    (pluginSchema.find injectNone pluginMem (.slice Plugin) ["a"]).res =
      .ok (.mk 7 6 (.slice Plugin) ["a"] (.groupCompiler (.slice Plugin) [pluginA])) ∧
    (pluginSchema.find injectNone pluginMem (.slice Plugin) ["a"]).schema.nodes.get
      (.slice Plugin) = none :=
  ⟨rfl, rfl, rfl,
    (group_node_created_each_query injectNone pluginSchema pluginMem (.slice Plugin) ["a"]
      (.mk 7 6 (.slice Plugin) ["a"] (.groupCompiler (.slice Plugin) [pluginA]))
      rfl rfl rfl rfl).2.1⟩

/-! ## Registration and cleanup -/

/-- C13: after `register(n)` the list indexed under the type of `n` is the
previous list with `n` appended at the end (the one-element list when the type
was absent), the lists of all other types, the cleanup list and the
visited-state map are unchanged, and no uniqueness is enforced: the list grows
by one entry at every call, also when the same node is registered twice or
when a node of the same type and tags is registered after it. -/
theorem register_appends_to_type_list (s : defaultSchema) (n : node) :
    (s.register n).nodes.get n.rt = some ((s.nodes.get n.rt).getD [] ++ [n]) ∧
    (s.nodes.get n.rt = none → (s.register n).nodes.get n.rt = some [n]) ∧
    (∀ u, u ≠ n.rt → (s.register n).nodes.get u = s.nodes.get u) ∧
    (s.register n).cleanups = s.cleanups ∧
    (s.register n).passed = s.passed ∧
    (((s.register n).nodes.get n.rt).getD []).length =
      ((s.nodes.get n.rt).getD []).length + 1 ∧
    ((s.register n).register n).nodes.get n.rt =
      some ((s.nodes.get n.rt).getD [] ++ [n, n]) ∧
    (∀ n2, n2.rt = n.rt → n2.tags = n.tags →
      ((s.register n).register n2).nodes.get n.rt =
        some ((s.nodes.get n.rt).getD [] ++ [n, n2])) := by
  have h1 : (s.register n).nodes.get n.rt = some ((s.nodes.get n.rt).getD [] ++ [n]) := by
    rw [register_get]; simp
  refine ⟨h1, ?_, ?_, (register_cleanups s n).1, (register_cleanups s n).2, ?_, ?_, ?_⟩
  · intro h
    rw [h1, h]
    rfl
  · intro u hu
    rw [register_get]
    simp [Ne.symm hu]
  · rw [h1]; simp
  · rw [register_get, h1]; simp
  · intro n2 hrt _
    rw [register_get, hrt, h1]; simp

/-- C14: after `cleanup(c)` the cleanup list is the previous list with `c`
appended at the end, and the node index and the visited-state map are
unchanged; after the calls for `cs` in that order the list is the previous
list followed by `cs`, so that on a new registry it is exactly `cs`, with
repeated callbacks kept as separate entries. -/
theorem cleanup_appends (s : defaultSchema) (c : Nat) :
    (s.cleanup c).cleanups = s.cleanups ++ [c] ∧
    (s.cleanup c).nodes = s.nodes ∧
    (s.cleanup c).passed = s.passed ∧
    (∀ cs : List Nat, (cs.foldl defaultSchema.cleanup s).cleanups = s.cleanups ++ cs) ∧
    (∀ cs : List Nat, (cs.foldl defaultSchema.cleanup newDefaultSchema).cleanups = cs) ∧
    ((s.cleanup c).cleanup c).cleanups = s.cleanups ++ [c, c] := by
  have hall : ∀ (cs : List Nat) (s0 : defaultSchema),
      (cs.foldl defaultSchema.cleanup s0).cleanups = s0.cleanups ++ cs := by
    intro cs
    induction cs with
    | nil => intro s0; simp
    | cons a rest ih =>
      intro s0
      rw [List.foldl_cons, ih (s0.cleanup a)]
      simp [defaultSchema.cleanup]
  refine ⟨rfl, rfl, rfl, fun cs => hall cs s, ?_, ?_⟩
  · intro cs
    rw [hall cs newDefaultSchema]
    rfl
  · simp [defaultSchema.cleanup]

/-! ## The alias compiler -/

/-- C15: for the alias compiler around a node `w`, `params(s)` succeeds with
exactly the one-element list of `w` (and leaves the registry as it was), and
`compile(vs, s)` is exactly what `w.Value(s)` is, value or failure alike,
whatever the resolved parameter values `vs` are. -/
theorem alias_compiler_passthrough {V R : Type} (Value : node → defaultSchema → R)
    (w : node) (s : defaultSchema) (m : Mem) (vs : List V) :
    interfaceCompiler.params w s m = ⟨.ok [w], s, m⟩ ∧
    interfaceCompiler.compile Value w vs s = Value w s ∧
    (∀ vs2 : List V,
      interfaceCompiler.compile Value w vs2 s = interfaceCompiler.compile Value w vs s) ∧
    (∀ (d : Decl) (p v : Nat) (t : RType) (g : Tags),
      (node.mk p v t g (.interfaceCompiler w)).params d s m = ⟨.ok [w], s, m⟩) :=
  ⟨rfl, rfl, fun _ => rfl, fun _ _ _ _ _ => rfl⟩

/-! ## What a lookup changes -/

/-- A lookup of a type without entry that qualifies for field injection and
is not a pointer type: the synthesized node, stored under the type. -/
theorem find_of_injectable (inj : RType → Bool) (s : defaultSchema) (m : Mem) (t : RType)
    (tags : Tags) (hnone : s.nodes.get t = none) (hinj : inj t = true)
    (hkind : t.Kind ≠ Kind.Ptr) :
    s.find inj m t tags =
      ⟨.ok (.mk (m.next + 1) m.next t [] (.typeCompiler t)),
        { s with nodes := s.nodes.set t [.mk (m.next + 1) m.next t [] (.typeCompiler t)] },
        ⟨m.next + 2⟩⟩ := by
  rw [find_of_get_none inj s m t tags hnone]
  simp [hinj, hkind]

/-- The group step leaves the registry as it was. -/
theorem group_schema (s : defaultSchema) (m : Mem) (t : RType) (tags : Tags) :
    (s.group m t tags).schema = s := by
  unfold defaultSchema.group
  split
  · rfl
  · split
    · rfl
    · simp only []
      split <;> rfl

/-- The group step on a slice type does not panic. -/
theorem group_no_panic (s : defaultSchema) (m : Mem) (t : RType) (tags : Tags)
    (hkind : t.Kind = Kind.Slice) (u : RType) :
    (s.group m t tags).res ≠ .error (.elemPanic u) := by
  obtain ⟨T, hT⟩ := Elem_of_Kind_Slice t hkind
  rw [group_of_elem s m t T tags hT]
  cases matchTags ((s.nodes.get T).getD []) tags <;> simp

/-- The registry after a lookup: unchanged, or, after a field-injection
synthesis, the registry with the new node stored under the type. -/
theorem find_schema_cases (inj : RType → Bool) (s : defaultSchema) (m : Mem) (t : RType)
    (tags : Tags) :
    ((s.find inj m t tags).schema = s) ∨
    (s.nodes.get t = none ∧ inj t = true ∧ t.Kind ≠ Kind.Ptr ∧
      s.find inj m t tags =
        ⟨.ok (.mk (m.next + 1) m.next t [] (.typeCompiler t)),
          { s with nodes := s.nodes.set t [.mk (m.next + 1) m.next t [] (.typeCompiler t)] },
          ⟨m.next + 2⟩⟩) := by
  cases hg : s.nodes.get t with
  | some L =>
    left
    rw [find_of_get_some inj s m t tags L hg]
  | none =>
    by_cases hinj : inj t = true
    · by_cases hk : t.Kind = Kind.Ptr
      · left
        obtain ⟨e, he⟩ := Elem_of_Kind_Ptr t hk
        rw [find_of_get_none inj s m t tags hg]
        simp [hinj, hk, he]
      · right
        exact ⟨rfl, hinj, hk, find_of_injectable inj s m t tags hg hinj hk⟩
    · left
      rw [find_of_get_none inj s m t tags hg]
      by_cases hk : t.Kind = Kind.Slice
      · simp [hinj, hk, group_schema]
      · simp [hinj, hk]

/-- C18: `find` is atomic on failure and minimal on success. A failing
`find(t, tags)` leaves the registry (node index, cleanup list, visited-state
map) as it was; so does a successful lookup of a type with registered
providers, and so does a group query; the only lookup that changes the
registry is a successful field-injection synthesis, which stores exactly the
returned node as the list of `t` and changes neither the list of another type
nor the cleanup list nor the visited-state map. -/
theorem find_atomic_and_minimal (inj : RType → Bool) (s : defaultSchema) (m : Mem)
    (t : RType) (tags : Tags) :
    (∀ e, (s.find inj m t tags).res = .error e → (s.find inj m t tags).schema = s) ∧
    (∀ L, s.nodes.get t = some L → (s.find inj m t tags).schema = s) ∧
    (s.nodes.get t = none → inj t = false → (s.find inj m t tags).schema = s) ∧
    ((s.find inj m t tags).schema ≠ s →
      s.nodes.get t = none ∧ inj t = true ∧ t.Kind ≠ Kind.Ptr ∧
      ∃ n, (s.find inj m t tags).res = .ok n ∧
        (s.find inj m t tags).schema.nodes.get t = some [n] ∧
        (∀ u, u ≠ t → (s.find inj m t tags).schema.nodes.get u = s.nodes.get u) ∧
        (s.find inj m t tags).schema.cleanups = s.cleanups ∧
        (s.find inj m t tags).schema.passed = s.passed) := by
  rcases find_schema_cases inj s m t tags with h | ⟨hg, hinj, hk, hf⟩
  · refine ⟨fun _ _ => h, fun _ _ => h, fun _ _ => h, fun hne => absurd h hne⟩
  · refine ⟨?_, ?_, ?_, ?_⟩
    · intro e he
      rw [hf] at he
      simp at he
    · intro L hL
      rw [hg] at hL
      simp at hL
    · intro _ hi
      rw [hinj] at hi
      simp at hi
    · intro _
      refine ⟨hg, hinj, hk, ?_⟩
      rw [hf]
      exact ⟨_, rfl, NodeMap.get_set_same _ _ _,
        fun u hu => NodeMap.get_set_other _ _ _ _ (Ne.symm hu), rfl, rfl⟩

/-- C19: `find` never takes the element type of a type that has none. Its
result is never the panic of `t.Elem()`; the group step is the result only for
a type without registered providers that does not qualify for field injection
and is of slice kind, and such a type has an element type; in every other case
the result is the one of the guard, of the tag match or of the field-injection
branch, where `t.Elem()` is taken of a pointer type only. -/
theorem find_elem_always_defined (inj : RType → Bool) (s : defaultSchema) (m : Mem)
    (t : RType) (tags : Tags) :
    (∀ u, (s.find inj m t tags).res ≠ .error (.elemPanic u)) ∧
    (s.nodes.get t = none → inj t = false → t.Kind = Kind.Slice →
      (∃ T, t.Elem = some T) ∧ s.find inj m t tags = s.group m t tags) ∧
    (s.nodes.get t = none → inj t = false → t.Kind ≠ Kind.Slice →
      s.find inj m t tags = ⟨.error (.notInContainer t tags), s, m⟩) ∧
    (s.nodes.get t = none → inj t = true → t.Kind = Kind.Ptr →
      ∃ e, t.Elem = some e ∧
        s.find inj m t tags = ⟨.error (.injectNotSupported t tags e), s, m⟩) ∧
    (s.nodes.get t = none → inj t = true → t.Kind ≠ Kind.Ptr →
      s.find inj m t tags =
        ⟨.ok (.mk (m.next + 1) m.next t [] (.typeCompiler t)),
          { s with nodes := s.nodes.set t [.mk (m.next + 1) m.next t [] (.typeCompiler t)] },
          ⟨m.next + 2⟩⟩) ∧
    (∀ L, s.nodes.get t = some L →
      s.find inj m t tags =
        ⟨match matchTags L tags with
          | [] => .error (.notExists t tags)
          | [n] => .ok n
          | _ :: _ :: _ => .error (.multipleDefinitions t tags), s, m⟩) := by
  have hslice : s.nodes.get t = none → inj t = false → t.Kind = Kind.Slice →
      s.find inj m t tags = s.group m t tags :=
    fun hg hi hk => find_eq_group inj s m t tags hk hg hi
  have hguard : s.nodes.get t = none → inj t = false → t.Kind ≠ Kind.Slice →
      s.find inj m t tags = ⟨.error (.notInContainer t tags), s, m⟩ := by
    intro hg hi hk
    rw [find_of_get_none inj s m t tags hg]
    simp [hi, hk]
  have hptr : s.nodes.get t = none → inj t = true → t.Kind = Kind.Ptr →
      ∃ e, t.Elem = some e ∧
        s.find inj m t tags = ⟨.error (.injectNotSupported t tags e), s, m⟩ := by
    intro hg hi hk
    obtain ⟨e, he⟩ := Elem_of_Kind_Ptr t hk
    refine ⟨e, he, ?_⟩
    rw [find_of_get_none inj s m t tags hg]
    simp [hi, hk, he]
  refine ⟨?_, fun hg hi hk => ⟨Elem_of_Kind_Slice t hk, hslice hg hi hk⟩, hguard, hptr,
    fun hg hi hk => find_of_injectable inj s m t tags hg hi hk,
    fun L hL => find_of_get_some inj s m t tags L hL⟩
  intro u
  cases hg : s.nodes.get t with
  | some L =>
    rw [find_of_get_some inj s m t tags L hg]
    rcases matchTags L tags with _ | ⟨a, _ | ⟨b, r⟩⟩ <;> simp
  | none =>
    by_cases hi : inj t = true
    · by_cases hk : t.Kind = Kind.Ptr
      · obtain ⟨e, _, hf⟩ := hptr hg hi hk
        rw [hf]; simp
      · rw [find_of_injectable inj s m t tags hg hi hk]; simp
    · have hi2 : inj t = false := by simpa using hi
      by_cases hk : t.Kind = Kind.Slice
      · rw [hslice hg hi2 hk]
        exact group_no_panic s m t tags hk u
      · rw [hguard hg hi2 hk]; simp

/-! ## Group queries of tagged providers -/

/-- C16: in a registry that holds exactly the three providers `pa`, `pb`,
`pc` of `T`, registered in that order and tagged `a`, `b`, `c` (with `a`
different from `b` and `c`), the group query on the slice type `t` of `T`
with the empty tag set succeeds with a group node whose members are `pa`,
`pb`, `pc` in that order, and the group query with the tag set of `a` succeeds
with a group node whose only member is `pa`. The tag match is the filter rule:
a node matches when its tag set holds every label of the query. -/
theorem group_query_three_tagged (inj : RType → Bool) (s : defaultSchema) (m : Mem)
    (t T : RType) (pa pb pc : node) (a b c : String)
    (hkind : t.Kind = Kind.Slice) (hT : t.Elem = some T)
    (hnone : s.nodes.get t = none) (hinj : inj t = false)
    (hL : s.nodes.get T = some [pa, pb, pc])
    (ha : pa.tags = [a]) (hb : pb.tags = [b]) (hc : pc.tags = [c])
    (hab : a ≠ b) (hac : a ≠ c) :
    s.find inj m t [] =
      ⟨.ok (.mk (m.next + 1) m.next t [] (.groupCompiler t [pa, pb, pc])), s,
        ⟨m.next + 2⟩⟩ ∧
    s.find inj m t [a] =
      ⟨.ok (.mk (m.next + 1) m.next t [a] (.groupCompiler t [pa])), s, ⟨m.next + 2⟩⟩ := by
  have hfg := fun tags => find_eq_group inj s m t tags hkind hnone hinj
  have hall : matchTags [pa, pb, pc] [] = [pa, pb, pc] := by
    simp [matchTags, List.filter_cons, Tags.matches]
  have hone : matchTags [pa, pb, pc] [a] = [pa] := by
    simp [matchTags, List.filter_cons, Tags.matches, ha, hb, hc, hab, hac]
  refine ⟨?_, ?_⟩
  · rw [hfg, group_of_elem s m t T [] hT, hL]
    simp only [Option.getD_some, hall]
  · rw [hfg, group_of_elem s m t T [a] hT, hL]
    simp only [Option.getD_some, hone]

/-- C16 at the sample registry of the three providers of `Plugin`: the query
without tags returns the three in the order of registration, the query tagged
`a` returns `pluginA` alone. -/
theorem group_query_three_tagged_witness :
    (RType.slice Plugin).Kind = Kind.Slice ∧
    threePlugins.nodes.get (.slice Plugin) = none ∧
    threePlugins.nodes.get Plugin = some [pluginA, pluginB, pluginC] ∧
    pluginA.tags = ["a"] ∧ pluginB.tags = ["b"] ∧ pluginC.tags = ["c"] ∧
    threePlugins.find injectNone threeMem (.slice Plugin) [] =
      ⟨.ok (.mk 9 8 (.slice Plugin) []
          (.groupCompiler (.slice Plugin) [pluginA, pluginB, pluginC])),
        threePlugins, ⟨10⟩⟩ ∧
    threePlugins.find injectNone threeMem (.slice Plugin) ["a"] =
      ⟨.ok (.mk 9 8 (.slice Plugin) ["a"] (.groupCompiler (.slice Plugin) [pluginA])),
        threePlugins, ⟨10⟩⟩ :=
  ⟨rfl, rfl, rfl, rfl, rfl, rfl,
    group_query_three_tagged injectNone threePlugins threeMem (.slice Plugin) Plugin
      pluginA pluginB pluginC "a" "b" "c" rfl rfl rfl rfl rfl rfl rfl rfl
      (by decide) (by decide)⟩

/-! ## Lookups of different types -/

/-- The result of a lookup of `t` depends on the index through the list of `t`
and, for a slice type, the list of its element type. -/
theorem find_res_congr (inj : RType → Bool) (s1 s2 : defaultSchema) (m : Mem) (t : RType)
    (tags : Tags) (h1 : s1.nodes.get t = s2.nodes.get t)
    (h2 : ∀ T, t.Kind = Kind.Slice → t.Elem = some T → s1.nodes.get T = s2.nodes.get T) :
    (s1.find inj m t tags).res = (s2.find inj m t tags).res := by
  cases hg : s2.nodes.get t with
  | some L =>
    rw [find_of_get_some inj s1 m t tags L (h1.trans hg), find_of_get_some inj s2 m t tags L hg]
  | none =>
    rw [find_of_get_none inj s1 m t tags (h1.trans hg), find_of_get_none inj s2 m t tags hg]
    by_cases hi : inj t = true
    · by_cases hk : t.Kind = Kind.Ptr
      · simp only [hi, hk, if_true]
        cases t.Elem <;> rfl
      · simp only [hi, hk, if_true, if_false, Bool.false_eq_true]
    · by_cases hk : t.Kind = Kind.Slice
      · obtain ⟨T, hT⟩ := Elem_of_Kind_Slice t hk
        simp only [hi, hk, if_true, if_false, Bool.false_eq_true]
        rw [group_of_elem s1 m t T tags hT, group_of_elem s2 m t T tags hT, h2 T hk hT]
        cases matchTags ((s2.nodes.get T).getD []) tags <;> rfl
      · simp only [hi, hk, if_false, Bool.false_eq_true]

/-- The allocation counter decides the addresses of a synthesized node and
nothing else of the result of a lookup. -/
theorem find_res_shape (inj : RType → Bool) (s : defaultSchema) (m m2 : Mem) (t : RType)
    (tags : Tags) :
    (s.find inj m2 t tags).res.map node.shape = (s.find inj m t tags).res.map node.shape := by
  cases hg : s.nodes.get t with
  | some L =>
    rw [find_of_get_some inj s m t tags L hg, find_of_get_some inj s m2 t tags L hg]
  | none =>
    rw [find_of_get_none inj s m t tags hg, find_of_get_none inj s m2 t tags hg]
    by_cases hi : inj t = true
    · by_cases hk : t.Kind = Kind.Ptr
      · simp only [hi, hk, if_true]
        cases t.Elem <;> rfl
      · simp only [hi, hk, if_true, if_false, Bool.false_eq_true]
        rfl
    · by_cases hk : t.Kind = Kind.Slice
      · obtain ⟨T, hT⟩ := Elem_of_Kind_Slice t hk
        simp only [hi, hk, if_true, if_false, Bool.false_eq_true]
        rw [group_of_elem s m t T tags hT, group_of_elem s m2 t T tags hT]
        cases matchTags ((s.nodes.get T).getD []) tags <;> rfl
      · simp only [hi, hk, if_false, Bool.false_eq_true]

/-- A lookup of `u` leaves the list of every other type as it was. -/
theorem find_get_other (inj : RType → Bool) (s : defaultSchema) (m : Mem) (u x : RType)
    (tags : Tags) (h : x ≠ u) :
    (s.find inj m u tags).schema.nodes.get x = s.nodes.get x := by
  rcases find_schema_cases inj s m u tags with h1 | ⟨_, _, _, hf⟩
  · rw [h1]
  · rw [hf]
    exact NodeMap.get_set_other _ _ _ _ (Ne.symm h)

/-- C20, as stated, fails: `Config` qualifies for field injection and has no
provider. On a new registry the query for the slice of `Config` fails with
"not exists"; after `find(Config, {})`, which stores a synthesized node under
`Config`, the same query returns a group node of that node. -/
theorem find_after_other_lookup_counterexample :
    Config ≠ RType.slice Config ∧
    (newDefaultSchema.find injectConfig ⟨0⟩ (.slice Config) []).res =
      .error (.notExists (.slice Config) []) ∧
    (newDefaultSchema.find injectConfig ⟨0⟩ Config []).res =
      .ok (.mk 1 0 Config [] (.typeCompiler Config)) ∧
    ((newDefaultSchema.find injectConfig ⟨0⟩ Config []).schema.find injectConfig
        (newDefaultSchema.find injectConfig ⟨0⟩ Config []).mem (.slice Config) []).res =
      .ok (.mk 3 2 (.slice Config) []
        (.groupCompiler (.slice Config) [.mk 1 0 Config [] (.typeCompiler Config)])) :=
  ⟨by decide, rfl, rfl, rfl⟩

theorem Tags.matches_nil_of_ne (tags : Tags) (h : tags ≠ []) :
    Tags.matches [] tags = false := by
  cases tags with
  | nil => exact absurd rfl h
  | cons a r => simp [Tags.matches]

/-- After a lookup of `u`, the lookup of another type `t` gives what it gives
on the registry before, with the same allocation counter, unless it is the
group query over `u` without tags that meets the node that the lookup of `u`
synthesized. -/
theorem find_res_after_find (inj : RType → Bool) (s : defaultSchema) (m m2 : Mem)
    (t u : RType) (tags tags2 : Tags) (htu : t ≠ u)
    (hexc : ¬ (s.nodes.get t = none ∧ inj t = false ∧ t.Kind = Kind.Slice ∧
      t.Elem = some u ∧ s.nodes.get u = none ∧ inj u = true ∧ u.Kind ≠ Kind.Ptr ∧
      tags = [])) :
    ((s.find inj m u tags2).schema.find inj m2 t tags).res = (s.find inj m2 t tags).res := by
  rcases find_schema_cases inj s m u tags2 with h | ⟨hgu, hiu, hku, hf⟩
  · rw [h]
  · by_cases hseq : t.Kind = Kind.Slice ∧ t.Elem = some u
    · have hget : (s.find inj m u tags2).schema.nodes.get t = s.nodes.get t :=
        find_get_other inj s m u t tags2 htu
      cases hg : s.nodes.get t with
      | some L =>
        rw [find_of_get_some inj _ m2 t tags L (hget.trans hg),
          find_of_get_some inj s m2 t tags L hg]
      | none =>
        cases hi : inj t with
        | true =>
          have hk : t.Kind ≠ Kind.Ptr := by rw [hseq.1]; decide
          rw [find_of_injectable inj _ m2 t tags (hget.trans hg) hi hk,
            find_of_injectable inj s m2 t tags hg hi hk]
        | false =>
          have htags : tags ≠ [] := fun h0 =>
            hexc ⟨hg, hi, hseq.1, hseq.2, hgu, hiu, hku, h0⟩
          rw [find_eq_group inj _ m2 t tags hseq.1 (hget.trans hg) hi,
            find_eq_group inj s m2 t tags hseq.1 hg hi,
            group_of_elem _ m2 t u tags hseq.2, group_of_elem s m2 t u tags hseq.2, hgu, hf]
          have hnew : (NodeMap.set s.nodes u
              [node.mk (m.next + 1) m.next u [] (compiler.typeCompiler u)]).get u =
              some [node.mk (m.next + 1) m.next u [] (compiler.typeCompiler u)] :=
            NodeMap.get_set_same _ _ _
          simp only [hnew, Option.getD_some, Option.getD_none]
          have h1 : matchTags [node.mk (m.next + 1) m.next u [] (compiler.typeCompiler u)]
              tags = [] := by
            simp [matchTags, node.tags, Tags.matches_nil_of_ne tags htags]
          have h2 : matchTags [] tags = [] := rfl
          rw [h1, h2]
    · apply find_res_congr
      · exact find_get_other inj s m u t tags2 htu
      · intro T hk hT
        apply find_get_other
        intro hTu
        exact hseq ⟨hk, hTu ▸ hT⟩

/-- C20, amended: for distinct types `t` and `u`, the outcome of
`find(t, tags)` is the same whether or not a `find(u, tags2)` was performed on
the registry before it (the same failure, the same registered node, or a
synthesized node of the same type, tags and compiler, for a group the same
members; its addresses alone depend on what was allocated before), with one
exception: `t` is a slice type over `u` that reaches the group step (no
provider, not field-injectable), `u` has no provider and qualifies for field
injection (not a pointer type), so that `find(u, tags2)` stores a synthesized
node, and the query `tags` is empty. In that case `find(t, tags)` fails with
"not exists" before the lookup of `u` and returns a group of the synthesized
node after it. -/
theorem find_independent_of_other_lookup (inj : RType → Bool) (s : defaultSchema) (m : Mem)
    (t u : RType) (tags tags2 : Tags) (htu : t ≠ u) :
    (¬ (s.nodes.get t = none ∧ inj t = false ∧ t.Kind = Kind.Slice ∧
        t.Elem = some u ∧ s.nodes.get u = none ∧ inj u = true ∧ u.Kind ≠ Kind.Ptr ∧
        tags = []) →
      (((s.find inj m u tags2).schema.find inj (s.find inj m u tags2).mem t tags).res.map
          node.shape = (s.find inj m t tags).res.map node.shape) ∧
      (∀ e, (s.find inj m t tags).res = .error e ↔
        ((s.find inj m u tags2).schema.find inj (s.find inj m u tags2).mem t tags).res =
          .error e) ∧
      (∀ L, s.nodes.get t = some L →
        ((s.find inj m u tags2).schema.find inj (s.find inj m u tags2).mem t tags).res =
          (s.find inj m t tags).res)) ∧
    ((s.nodes.get t = none ∧ inj t = false ∧ t.Kind = Kind.Slice ∧
        t.Elem = some u ∧ s.nodes.get u = none ∧ inj u = true ∧ u.Kind ≠ Kind.Ptr ∧
        tags = []) →
      (s.find inj m t tags).res = .error (.notExists t tags) ∧
      ((s.find inj m u tags2).schema.find inj (s.find inj m u tags2).mem t tags).res =
        .ok (.mk (m.next + 3) (m.next + 2) t tags
          (.groupCompiler t [.mk (m.next + 1) m.next u [] (.typeCompiler u)]))) := by
  constructor
  · intro hexc
    have hcongr : ∀ m2, ((s.find inj m u tags2).schema.find inj m2 t tags).res =
        (s.find inj m2 t tags).res :=
      fun m2 => find_res_after_find inj s m m2 t u tags tags2 htu hexc
    have hshape : ((s.find inj m u tags2).schema.find inj (s.find inj m u tags2).mem t
        tags).res.map node.shape = (s.find inj m t tags).res.map node.shape := by
      rw [hcongr, find_res_shape]
    refine ⟨hshape, ?_, ?_⟩
    · intro e
      constructor
      · intro he
        rw [he] at hshape
        cases hr : ((s.find inj m u tags2).schema.find inj (s.find inj m u tags2).mem t
            tags).res with
        | error e2 =>
          rw [hr] at hshape
          simp only [Except.map] at hshape
          injection hshape with h
          rw [h]
        | ok n =>
          rw [hr] at hshape
          simp [Except.map] at hshape
      · intro he
        rw [he] at hshape
        cases hr : (s.find inj m t tags).res with
        | error e2 =>
          rw [hr] at hshape
          simp only [Except.map] at hshape
          injection hshape with h
          rw [h]
        | ok n =>
          rw [hr] at hshape
          simp [Except.map] at hshape
    · intro L hL
      rw [hcongr, find_of_get_some inj s _ t tags L hL, find_of_get_some inj s m t tags L hL]
  · rintro ⟨hgt, hit, hkt, het, hgu, hiu, hku, htags⟩
    have hfu := find_of_injectable inj s m u tags2 hgu hiu hku
    have hget : (s.find inj m u tags2).schema.nodes.get t = none :=
      (find_get_other inj s m u t tags2 htu).trans hgt
    constructor
    · rw [find_eq_group inj s m t tags hkt hgt hit, group_of_elem s m t u tags het, hgu]
      rfl
    · rw [find_eq_group inj _ _ t tags hkt hget hit, group_of_elem _ _ t u tags het, hfu]
      have hnew : (NodeMap.set s.nodes u
          [node.mk (m.next + 1) m.next u [] (compiler.typeCompiler u)]).get u =
          some [node.mk (m.next + 1) m.next u [] (compiler.typeCompiler u)] :=
        NodeMap.get_set_same _ _ _
      simp only [hnew, Option.getD_some]
      have h1 : matchTags [node.mk (m.next + 1) m.next u [] (compiler.typeCompiler u)]
          tags = [node.mk (m.next + 1) m.next u [] (compiler.typeCompiler u)] := by
        rw [htags]
        rfl
      rw [h1]

/-- C20, amended, at sample registries: the group query for the slice of
`Plugin` without tags, where `Plugin` is registered, gives the same three-member
result shape after a lookup of `Plugin`; the lookup of `Plugin` tagged `a` gives
the same node after a lookup of `Config` that synthesizes a node; and the
group query for the slice of `Config` tagged `a` fails the same way before and
after the lookup of `Config`. -/
theorem find_independent_of_other_lookup_witness :
    RType.slice Plugin ≠ Plugin ∧
    ((threePlugins.find injectConfig threeMem Plugin ["a"]).schema.find injectConfig
        (threePlugins.find injectConfig threeMem Plugin ["a"]).mem (.slice Plugin) []).res.map
        node.shape =
      (threePlugins.find injectConfig threeMem (.slice Plugin) []).res.map node.shape ∧
    (threePlugins.find injectConfig threeMem (.slice Plugin) []).res =
      .ok (.mk 9 8 (.slice Plugin) []
        (.groupCompiler (.slice Plugin) [pluginA, pluginB, pluginC])) ∧
    (pluginSchema.find injectConfig pluginMem Config []).res =
      .ok (.mk 7 6 Config [] (.typeCompiler Config)) ∧
    ((pluginSchema.find injectConfig pluginMem Config []).schema.find injectConfig
        (pluginSchema.find injectConfig pluginMem Config []).mem Plugin ["a"]).res =
      (pluginSchema.find injectConfig pluginMem Plugin ["a"]).res ∧
    ((newDefaultSchema.find injectConfig ⟨0⟩ (.slice Config) ["a"]).res =
        .error (.notExists (.slice Config) ["a"]) ↔
      ((newDefaultSchema.find injectConfig ⟨0⟩ Config []).schema.find injectConfig
          (newDefaultSchema.find injectConfig ⟨0⟩ Config []).mem (.slice Config) ["a"]).res =
        .error (.notExists (.slice Config) ["a"])) :=
  ⟨by decide,
    ((find_independent_of_other_lookup injectConfig threePlugins threeMem (.slice Plugin)
      Plugin [] ["a"] (by decide)).1 (by
        intro h
        have h5 := h.2.2.2.2.1
        rw [show threePlugins.nodes.get Plugin = some [pluginA, pluginB, pluginC] from rfl]
          at h5
        simp at h5)).1,
    rfl, rfl,
    ((find_independent_of_other_lookup injectConfig pluginSchema pluginMem Plugin Config
      ["a"] [] (by decide)).1 (by
        intro h
        exact absurd h.2.2.1 (by decide))).2.2 [pluginA, pluginB] rfl,
    ((find_independent_of_other_lookup injectConfig newDefaultSchema ⟨0⟩ (.slice Config)
      Config ["a"] [] (by decide)).1 (by simp)).2.1 _⟩

/-! ## The visited-state map -/

theorem passedGet_set_same (p : List (Nat × Int)) (k : Nat) (v : Int) :
    passedGet (passedSet p k v) k = v := by
  induction p with
  | nil => simp [passedSet, passedGet]
  | cons hd tl ih =>
    obtain ⟨a, w⟩ := hd
    by_cases h : a = k
    · simp [passedSet, passedGet, h]
    · simp [passedSet, passedGet, h, ih]

theorem passedGet_set_other (p : List (Nat × Int)) (k j : Nat) (v : Int) (h : k ≠ j) :
    passedGet (passedSet p k v) j = passedGet p j := by
  induction p with
  | nil => simp [passedSet, passedGet, h]
  | cons hd tl ih =>
    obtain ⟨a, w⟩ := hd
    by_cases hk : a = k
    · subst hk
      simp [passedSet, passedGet, h]
    · by_cases hj : a = j
      · subst hj
        simp [passedSet, passedGet, hk]
      · simp [passedSet, passedGet, hk, hj, ih]

theorem mark_setMark_same (s : defaultSchema) (k : Nat) (v : Int) :
    (s.setMark k v).mark k = v := by
  simp [defaultSchema.mark, defaultSchema.setMark, passedGet_set_same]

/-! ## What the lookups of dependencies keep -/

theorem Keeps.refl (s : defaultSchema) : Keeps s s :=
  ⟨fun _ _ h => h, rfl, rfl⟩

theorem Keeps.trans {s1 s2 s3 : defaultSchema} (h12 : Keeps s1 s2) (h23 : Keeps s2 s3) :
    Keeps s1 s3 :=
  ⟨fun t L h => h23.1 t L (h12.1 t L h), h23.2.1.trans h12.2.1, h23.2.2.trans h12.2.2⟩

theorem find_keeps (inj : RType → Bool) (s : defaultSchema) (m : Mem) (t : RType)
    (tags : Tags) : Keeps s (s.find inj m t tags).schema := by
  rcases find_schema_cases inj s m t tags with h | ⟨hg, _, _, hf⟩
  · rw [h]
    exact Keeps.refl s
  · rw [hf]
    refine ⟨?_, rfl, rfl⟩
    intro u L hu
    have hne : t ≠ u := by
      intro htu
      rw [htu, hu] at hg
      simp at hg
    show (s.nodes.set t _).get u = some L
    rw [NodeMap.get_set_other _ _ _ _ hne]
    exact hu

theorem findAll_keeps (inj : RType → Bool) (l : List (RType × Tags)) (s : defaultSchema)
    (m : Mem) : Keeps s (findAll inj l s m).schema := by
  induction l generalizing s m with
  | nil => exact Keeps.refl s
  | cons hd tl ih =>
    obtain ⟨t, tags⟩ := hd
    have h1 := find_keeps inj s m t tags
    have h2 := ih (s.find inj m t tags).schema (s.find inj m t tags).mem
    unfold findAll
    cases hr : (s.find inj m t tags).res with
    | error e => exact h1
    | ok n =>
      simp only []
      cases hr2 : (findAll inj tl (s.find inj m t tags).schema (s.find inj m t tags).mem).res with
      | error e => exact h1.trans h2
      | ok ns => exact h1.trans h2

theorem params_keeps (d : Decl) (n : node) (s : defaultSchema) (m : Mem) :
    Keeps s (n.params d s m).schema := by
  obtain ⟨p, v, t, g, c⟩ := n
  cases c with
  | provider id => exact findAll_keeps d.isInjectable (d.inputs id) s m
  | typeCompiler t2 => exact Keeps.refl s
  | groupCompiler t2 ms => exact Keeps.refl s
  | interfaceCompiler w => exact Keeps.refl s

/-! ## The graph exporter -/

theorem renderEach_keeps (r : defaultSchema → Mem → Graph → node → Option RenderOutcome)
    (hr : ∀ s m g x o, r s m g x = some o → Keeps s o.schema)
    (k : RType × Tags) (l : List node) (s : defaultSchema) (m : Mem) (g : Graph)
    (o : RenderOutcome) (h : renderEach r k l s m g = some o) : Keeps s o.schema := by
  induction l generalizing s m g with
  | nil =>
    simp only [renderEach, Option.some.injEq] at h
    rw [← h]
    exact Keeps.refl s
  | cons x rest ih =>
    unfold renderEach at h
    cases hx : r s m g x with
    | none => rw [hx] at h; simp at h
    | some o1 =>
      rw [hx] at h
      have h1 := hr s m g x o1 hx
      cases hres : o1.res with
      | error e =>
        simp only [hres, Option.some.injEq] at h
        rw [← h]
        exact h1
      | ok u =>
        simp only [hres] at h
        exact h1.trans (ih _ _ _ h)

theorem renderNode_keeps (d : Decl) (fuel : Nat) (s : defaultSchema) (m : Mem) (g : Graph)
    (n : node) (o : RenderOutcome) (h : defaultSchema.renderNode d fuel s m g n = some o) :
    Keeps s o.schema := by
  induction fuel generalizing s m g n o with
  | zero => simp [defaultSchema.renderNode] at h
  | succ fuel ih =>
    have hp := params_keeps d n s m
    have hf := findAll_keeps d.isInjectable (d.fields n) (n.params d s m).schema
      (n.params d s m).mem
    unfold defaultSchema.renderNode at h
    cases hres : (n.params d s m).res with
    | error e =>
      simp only [hres, Option.some.injEq] at h
      rw [← h]
      exact hp
    | ok ps =>
      simp only [hres] at h
      cases hres2 : (findAll d.isInjectable (d.fields n) (n.params d s m).schema
          (n.params d s m).mem).res with
      | error e =>
        simp only [hres2, Option.some.injEq] at h
        rw [← h]
        exact hp.trans hf
      | ok fs =>
        simp only [hres2] at h
        exact (hp.trans hf).trans
          (renderEach_keeps _ (fun s1 m1 g1 x o1 h1 => ih s1 m1 g1 x o1 h1) _ _ _ _ _ o h)

theorem renderAll_keeps (r : defaultSchema → Mem → Graph → node → Option RenderOutcome)
    (hr : ∀ s m g x o, r s m g x = some o → Keeps s o.schema)
    (l : List node) (s : defaultSchema) (m : Mem) (g : Graph)
    (o : RenderOutcome) (h : renderAll r l s m g = some o) : Keeps s o.schema := by
  induction l generalizing s m g with
  | nil =>
    simp only [renderAll, Option.some.injEq] at h
    rw [← h]
    exact Keeps.refl s
  | cons x rest ih =>
    unfold renderAll at h
    cases hx : r s m g x with
    | none => rw [hx] at h; simp at h
    | some o1 =>
      rw [hx] at h
      have h1 := hr s m g x o1 hx
      cases hres : o1.res with
      | error e =>
        simp only [hres, Option.some.injEq] at h
        rw [← h]
        exact h1
      | ok u =>
        simp only [hres] at h
        exact h1.trans (ih _ _ _ h)

/-- C17, as stated, fails: the node of the pointer to `Service` has a field of
type `Config`, which qualifies for field injection and has no provider. The
exporter looks the field up with `find`, which stores a synthesized node: after
`renderDot` returns with a diagram, the index has an entry for `Config` that it
did not have before. -/
theorem renderDot_read_only_counterexample :
    serviceSchema.nodes = [(.ptr Service, [serviceNode])] ∧
    serviceSchema.nodes.get Config = none ∧
    (serviceSchema.renderDot serviceDecl 5 ⟨2⟩).map (fun o => o.res) = some (.ok ()) ∧
    (serviceSchema.renderDot serviceDecl 5 ⟨2⟩).map (fun o => o.schema.nodes) =
      some [(.ptr Service, [serviceNode]),
        (Config, [.mk 3 2 Config [] (.typeCompiler Config)])] ∧
    (serviceSchema.renderDot serviceDecl 5 ⟨2⟩).map (fun o => o.schema.nodes.get Config) =
      some (some [.mk 3 2 Config [] (.typeCompiler Config)]) :=
  ⟨rfl, rfl, rfl, rfl, rfl⟩

theorem growsByInjection_refl (inj : RType → Bool) (s : defaultSchema) :
    GrowsByInjection inj s s :=
  ⟨fun _ => Or.inl rfl, rfl, rfl⟩

theorem growsByInjection_trans {inj : RType → Bool} {s1 s2 s3 : defaultSchema}
    (h12 : GrowsByInjection inj s1 s2) (h23 : GrowsByInjection inj s2 s3) :
    GrowsByInjection inj s1 s3 := by
  refine ⟨?_, h23.2.1.trans h12.2.1, h23.2.2.trans h12.2.2⟩
  intro t
  rcases h23.1 t with h | ⟨hn, hi, hk, p, v, hs⟩
  · rcases h12.1 t with h2 | ⟨hn2, hi2, hk2, p, v, hs2⟩
    · exact Or.inl (h.trans h2)
    · exact Or.inr ⟨hn2, hi2, hk2, p, v, h.trans hs2⟩
  · rcases h12.1 t with h2 | ⟨_, _, _, p2, v2, hs2⟩
    · exact Or.inr ⟨h2.symm.trans hn, hi, hk, p, v, hs⟩
    · rw [hn] at hs2
      simp at hs2

theorem find_grows (inj : RType → Bool) (s : defaultSchema) (m : Mem) (t : RType)
    (tags : Tags) : GrowsByInjection inj s (s.find inj m t tags).schema := by
  rcases find_schema_cases inj s m t tags with h | ⟨hg, hi, hk, hf⟩
  · rw [h]
    exact growsByInjection_refl inj s
  · rw [hf]
    refine ⟨?_, rfl, rfl⟩
    intro u
    by_cases htu : t = u
    · subst htu
      exact Or.inr ⟨hg, hi, hk, m.next + 1, m.next, NodeMap.get_set_same _ _ _⟩
    · exact Or.inl (NodeMap.get_set_other _ _ _ _ htu)

theorem findAll_grows (inj : RType → Bool) (l : List (RType × Tags)) (s : defaultSchema)
    (m : Mem) : GrowsByInjection inj s (findAll inj l s m).schema := by
  induction l generalizing s m with
  | nil => exact growsByInjection_refl inj s
  | cons hd tl ih =>
    obtain ⟨t, tags⟩ := hd
    have h1 := find_grows inj s m t tags
    have h2 := ih (s.find inj m t tags).schema (s.find inj m t tags).mem
    unfold findAll
    cases hr : (s.find inj m t tags).res with
    | error e => exact h1
    | ok n =>
      simp only []
      cases hr2 : (findAll inj tl (s.find inj m t tags).schema (s.find inj m t tags).mem).res with
      | error e => exact growsByInjection_trans h1 h2
      | ok ns => exact growsByInjection_trans h1 h2

theorem params_grows (d : Decl) (n : node) (s : defaultSchema) (m : Mem) :
    GrowsByInjection d.isInjectable s (n.params d s m).schema := by
  obtain ⟨p, v, t, g, c⟩ := n
  cases c with
  | provider id => exact findAll_grows d.isInjectable (d.inputs id) s m
  | typeCompiler t2 => exact growsByInjection_refl _ s
  | groupCompiler t2 ms => exact growsByInjection_refl _ s
  | interfaceCompiler w => exact growsByInjection_refl _ s

theorem renderEach_grows (inj : RType → Bool)
    (r : defaultSchema → Mem → Graph → node → Option RenderOutcome)
    (hr : ∀ s m g x o, r s m g x = some o → GrowsByInjection inj s o.schema)
    (k : RType × Tags) (l : List node) (s : defaultSchema) (m : Mem) (g : Graph)
    (o : RenderOutcome) (h : renderEach r k l s m g = some o) :
    GrowsByInjection inj s o.schema := by
  induction l generalizing s m g with
  | nil =>
    simp only [renderEach, Option.some.injEq] at h
    rw [← h]
    exact growsByInjection_refl inj s
  | cons x rest ih =>
    unfold renderEach at h
    cases hx : r s m g x with
    | none => rw [hx] at h; simp at h
    | some o1 =>
      rw [hx] at h
      have h1 := hr s m g x o1 hx
      cases hres : o1.res with
      | error e =>
        simp only [hres, Option.some.injEq] at h
        rw [← h]
        exact h1
      | ok u =>
        simp only [hres] at h
        exact growsByInjection_trans h1 (ih _ _ _ h)

theorem renderNode_grows (d : Decl) (fuel : Nat) (s : defaultSchema) (m : Mem) (g : Graph)
    (n : node) (o : RenderOutcome) (h : defaultSchema.renderNode d fuel s m g n = some o) :
    GrowsByInjection d.isInjectable s o.schema := by
  induction fuel generalizing s m g n o with
  | zero => simp [defaultSchema.renderNode] at h
  | succ fuel ih =>
    have hp := params_grows d n s m
    have hf := findAll_grows d.isInjectable (d.fields n) (n.params d s m).schema
      (n.params d s m).mem
    unfold defaultSchema.renderNode at h
    cases hres : (n.params d s m).res with
    | error e =>
      simp only [hres, Option.some.injEq] at h
      rw [← h]
      exact hp
    | ok ps =>
      simp only [hres] at h
      cases hres2 : (findAll d.isInjectable (d.fields n) (n.params d s m).schema
          (n.params d s m).mem).res with
      | error e =>
        simp only [hres2, Option.some.injEq] at h
        rw [← h]
        exact growsByInjection_trans hp hf
      | ok fs =>
        simp only [hres2] at h
        exact growsByInjection_trans (growsByInjection_trans hp hf)
          (renderEach_grows _ _ (fun s1 m1 g1 x o1 h1 => ih s1 m1 g1 x o1 h1) _ _ _ _ _ o h)

theorem renderAll_grows (inj : RType → Bool)
    (r : defaultSchema → Mem → Graph → node → Option RenderOutcome)
    (hr : ∀ s m g x o, r s m g x = some o → GrowsByInjection inj s o.schema)
    (l : List node) (s : defaultSchema) (m : Mem) (g : Graph)
    (o : RenderOutcome) (h : renderAll r l s m g = some o) :
    GrowsByInjection inj s o.schema := by
  induction l generalizing s m g with
  | nil =>
    simp only [renderAll, Option.some.injEq] at h
    rw [← h]
    exact growsByInjection_refl inj s
  | cons x rest ih =>
    unfold renderAll at h
    cases hx : r s m g x with
    | none => rw [hx] at h; simp at h
    | some o1 =>
      rw [hx] at h
      have h1 := hr s m g x o1 hx
      cases hres : o1.res with
      | error e =>
        simp only [hres, Option.some.injEq] at h
        rw [← h]
        exact h1
      | ok u =>
        simp only [hres] at h
        exact growsByInjection_trans h1 (ih _ _ _ h)

/-- The dependencies of a node are resolved from the policy, the declared
inputs and the declared fields alone. -/
theorem params_congr (d1 d2 : Decl) (hi : d1.isInjectable = d2.isInjectable)
    (hn : d1.inputs = d2.inputs) (n : node) (s : defaultSchema) (m : Mem) :
    n.params d1 s m = n.params d2 s m := by
  unfold node.params
  rw [hi, hn]

/-- The exporter reads the policy, the declared inputs and the declared fields
of the declarations, and nothing else of them: neither `Value` nor a compile
step. -/
theorem renderNode_congr (d1 d2 : Decl) (hi : d1.isInjectable = d2.isInjectable)
    (hn : d1.inputs = d2.inputs) (hf : d1.fields = d2.fields) (fuel : Nat) :
    defaultSchema.renderNode d1 fuel = defaultSchema.renderNode d2 fuel := by
  induction fuel with
  | zero => rfl
  | succ fuel ih =>
    funext s m g n
    unfold defaultSchema.renderNode
    simp only [params_congr d1 d2 hi hn, hi, hf, ih]

/-- C17, amended: the graph exporter writes the registry only through the
field-injection synthesis of the lookups it makes. After `renderDot` returns,
with a diagram or with a failure, every type that had a list in the node index
has exactly that list; a type whose list is not the one it had is a type that
had none, qualifies for field injection and is not a pointer type, and its
list is the one synthesized node that `find` stores (no group node is stored);
the cleanup list and the visited-state map are as they were; and the outcome
is the same whatever `Value` and the compile steps do: the exporter invokes
neither. -/
theorem renderDot_keeps_registry (d : Decl) (fuel : Nat) (s : defaultSchema) (m : Mem)
    (o : RenderOutcome) (h : s.renderDot d fuel m = some o) :
    (∀ t L, s.nodes.get t = some L → o.schema.nodes.get t = some L) ∧
    (∀ t, o.schema.nodes.get t = s.nodes.get t ∨
      (s.nodes.get t = none ∧ d.isInjectable t = true ∧ t.Kind ≠ Kind.Ptr ∧
        ∃ p v, o.schema.nodes.get t = some [node.mk p v t [] (.typeCompiler t)])) ∧
    o.schema.cleanups = s.cleanups ∧ o.schema.passed = s.passed ∧
    (∀ V C, s.renderDot { d with Value := V, compile := C } fuel m = some o) := by
  have hk : Keeps s o.schema :=
    renderAll_keeps _ (fun s1 m1 g1 x o1 h1 => renderNode_keeps d fuel s1 m1 g1 x o1 h1)
      _ _ _ _ o h
  have hg : GrowsByInjection d.isInjectable s o.schema :=
    renderAll_grows _ _ (fun s1 m1 g1 x o1 h1 => renderNode_grows d fuel s1 m1 g1 x o1 h1)
      _ _ _ _ o h
  refine ⟨hk.1, hg.1, hk.2.1, hk.2.2, ?_⟩
  intro V C
  unfold defaultSchema.renderDot at h ⊢
  have hc := renderNode_congr { d with Value := V, compile := C } d rfl rfl rfl fuel
  rw [← h]
  simp only [hc]

/-- C17, amended, at the `Service` sample: the exporter returns; the list of
the pointer to `Service` is kept, the entry of `Config` is the synthesized node,
and the run with a `Value` that would register a cleanup callback leaves the
same outcome. -/
theorem renderDot_keeps_registry_witness :
    serviceSchema.renderDot serviceDecl 5 ⟨2⟩ =
      some ⟨.ok (),
        ⟨[(.ptr Service, []), (Config, [])], [((Config, []), (.ptr Service, []))]⟩,
        { serviceSchema with nodes := [(.ptr Service, [serviceNode]),
            (Config, [.mk 3 2 Config [] (.typeCompiler Config)])] },
        ⟨4⟩⟩ ∧
    (∀ t L, serviceSchema.nodes.get t = some L →
      (defaultSchema.nodes { serviceSchema with nodes := [(.ptr Service, [serviceNode]),
        (Config, [.mk 3 2 Config [] (.typeCompiler Config)])] }).get t = some L) ∧
    serviceSchema.renderDot { serviceDecl with Value := cleanupValue, compile := slotCompile }
        5 ⟨2⟩ =
      some ⟨.ok (),
        ⟨[(.ptr Service, []), (Config, [])], [((Config, []), (.ptr Service, []))]⟩,
        { serviceSchema with nodes := [(.ptr Service, [serviceNode]),
            (Config, [.mk 3 2 Config [] (.typeCompiler Config)])] },
        ⟨4⟩⟩ :=
  ⟨rfl,
    (renderDot_keeps_registry serviceDecl 5 serviceSchema ⟨2⟩
      ⟨.ok (),
        ⟨[(.ptr Service, []), (Config, [])], [((Config, []), (.ptr Service, []))]⟩,
        { serviceSchema with nodes := [(.ptr Service, [serviceNode]),
            (Config, [.mk 3 2 Config [] (.typeCompiler Config)])] },
        ⟨4⟩⟩ rfl).1,
    (renderDot_keeps_registry serviceDecl 5 serviceSchema ⟨2⟩
      ⟨.ok (),
        ⟨[(.ptr Service, []), (Config, [])], [((Config, []), (.ptr Service, []))]⟩,
        { serviceSchema with nodes := [(.ptr Service, [serviceNode]),
            (Config, [.mk 3 2 Config [] (.typeCompiler Config)])] },
        ⟨4⟩⟩ rfl).2.2.2.2 cleanupValue slotCompile⟩

/-! ## The cycle check -/

/-- A walk step that succeeds leaves its node marked done. -/
theorem visit_ok_marks_done (d : Decl) (fuel : Nat) (s : defaultSchema) (m : Mem) (n : node)
    (o : WalkOutcome) (h : visit d fuel s m n = some o) (hok : o.res = .ok ()) :
    o.schema.mark n.ptr = visitDone := by
  cases fuel with
  | zero => simp [visit] at h
  | succ fuel =>
    unfold visit at h
    by_cases hd : s.mark n.ptr = visitDone
    · rw [if_pos hd] at h
      simp only [Option.some.injEq] at h
      rw [← h]
      exact hd
    · rw [if_neg hd] at h
      by_cases hp : s.mark n.ptr = visitInProgress
      · rw [if_pos hp] at h
        simp only [Option.some.injEq] at h
        rw [← h] at hok
        simp at hok
      · rw [if_neg hp] at h
        split at h
        · simp only [Option.some.injEq] at h
          rw [← h] at hok
          simp at hok
        · split at h
          · simp only [Option.some.injEq] at h
            rw [← h] at hok
            simp at hok
          · split at h
            · simp at h
            · split at h
              · simp only [Option.some.injEq] at h
                rw [← h] at hok
                simp at hok
              · simp only [Option.some.injEq] at h
                rw [← h]
                exact mark_setMark_same _ _ _

/-- C12, as stated, fails: on the first call on a registry (nil visited-state
map) `bypass(n)` walks the nodes of the index and returns without walking `n`.
For the group node of `pluginA`, which `find` returns and does not store, the
call succeeds, and the map holds the two providers of the index and no entry
for the group node. -/
theorem bypass_first_call_counterexample :
    pluginSchema.passed = none ∧
    (pluginSchema.find injectNone pluginMem (.slice Plugin) ["a"]).res =
      .ok (.mk 7 6 (.slice Plugin) ["a"] (.groupCompiler (.slice Plugin) [pluginA])) ∧
    pluginSchema.bypass noDeps 5 ⟨8⟩
        (.mk 7 6 (.slice Plugin) ["a"] (.groupCompiler (.slice Plugin) [pluginA])) =
      some ⟨.ok (), { pluginSchema with passed := some [(1, 2), (3, 2)] }, ⟨8⟩⟩ ∧
    passedGet [(1, 2), (3, 2)] 7 = 0 ∧
    visit noDeps 5 { pluginSchema with passed := some [] } ⟨8⟩
        (.mk 7 6 (.slice Plugin) ["a"] (.groupCompiler (.slice Plugin) [pluginA])) =
      some ⟨.ok (), { pluginSchema with passed := some [(7, 2), (1, 2)] }, ⟨8⟩⟩ :=
  ⟨rfl, rfl, rfl, rfl, rfl⟩

/-! ## The walk on the visited-state map -/

theorem visitInProgress_ne_visitDone : visitInProgress ≠ visitDone := by decide

/-- The cases of a loop of the walk over a non-empty list. -/
theorem dfsEach_cons_cases
    (v : List (Nat × Int) → node → Option (Except WalkFailure Unit × List (Nat × Int)))
    (x : node) (rest : List node) (p p2 : List (Nat × Int)) (r : Except WalkFailure Unit)
    (h : dfsEach v (x :: rest) p = some (r, p2)) :
    (∃ e, v p x = some (.error e, p2) ∧ r = .error e) ∨
    (∃ p1, v p x = some (.ok (), p1) ∧ dfsEach v rest p1 = some (r, p2)) := by
  unfold dfsEach at h
  split at h
  · simp at h
  · rename_i e p3 hv
    simp only [Option.some.injEq, Prod.mk.injEq] at h
    left
    exact ⟨e, by rw [hv, h.2], h.1.symm⟩
  · rename_i u p3 hv
    right
    exact ⟨p3, hv, h⟩

/-- The cases of a walk step that returns. -/
theorem dfs_succ_cases (deps : node → List node) (f : Nat) (p p2 : List (Nat × Int))
    (n : node) (r : Except WalkFailure Unit) (h : dfs deps (f + 1) p n = some (r, p2)) :
    (passedGet p n.ptr = visitDone ∧ r = .ok () ∧ p2 = p) ∨
    (passedGet p n.ptr ≠ visitDone ∧ passedGet p n.ptr = visitInProgress ∧
      r = .error (.cycleDetected n.String) ∧ p2 = p) ∨
    (passedGet p n.ptr ≠ visitDone ∧ passedGet p n.ptr ≠ visitInProgress ∧
      ((∃ e, dfsEach (fun p1 x => dfs deps f p1 x) (deps n)
            (passedSet p n.ptr visitInProgress) = some (.error e, p2) ∧ r = .error e) ∨
        (∃ p1, dfsEach (fun p1 x => dfs deps f p1 x) (deps n)
            (passedSet p n.ptr visitInProgress) = some (.ok (), p1) ∧
          r = .ok () ∧ p2 = passedSet p1 n.ptr visitDone))) := by
  unfold dfs at h
  by_cases hd : passedGet p n.ptr = visitDone
  · rw [if_pos hd] at h
    simp only [Option.some.injEq, Prod.mk.injEq] at h
    left
    exact ⟨hd, h.1.symm, h.2.symm⟩
  · rw [if_neg hd] at h
    right
    by_cases hp : passedGet p n.ptr = visitInProgress
    · rw [if_pos hp] at h
      simp only [Option.some.injEq, Prod.mk.injEq] at h
      left
      exact ⟨hd, hp, h.1.symm, h.2.symm⟩
    · rw [if_neg hp] at h
      right
      refine ⟨hd, hp, ?_⟩
      split at h
      · simp at h
      · rename_i e p3 hv
        simp only [Option.some.injEq, Prod.mk.injEq] at h
        left
        exact ⟨e, by rw [hv, h.2], h.1.symm⟩
      · rename_i u p3 hv
        simp only [Option.some.injEq, Prod.mk.injEq] at h
        right
        exact ⟨p3, hv, h.1.symm, h.2.symm⟩

/-- A property of the map that every successful step keeps holds after a
successful loop. -/
theorem dfsEach_ok_inv
    (v : List (Nat × Int) → node → Option (Except WalkFailure Unit × List (Nat × Int)))
    (Q : List (Nat × Int) → Prop) (l : List node)
    (hv : ∀ p x p2, x ∈ l → Q p → v p x = some (.ok (), p2) → Q p2)
    (p p2 : List (Nat × Int)) (hQ : Q p) (h : dfsEach v l p = some (.ok (), p2)) : Q p2 := by
  induction l generalizing p with
  | nil =>
    simp only [dfsEach, Option.some.injEq, Prod.mk.injEq, true_and] at h
    rw [← h]
    exact hQ
  | cons x rest ih =>
    rcases dfsEach_cons_cases v x rest p p2 _ h with ⟨e, _, he⟩ | ⟨p1, h1, h2⟩
    · simp at he
    · exact ih (fun q y q2 hy => hv q y q2 (List.mem_cons_of_mem x hy)) p1
        (hv p x p1 (List.mem_cons_self x rest) hQ h1) h2

/-- In a successful loop every node of the list was walked with success, from
a map with every property that the successful steps keep. -/
theorem dfsEach_ok_mem
    (v : List (Nat × Int) → node → Option (Except WalkFailure Unit × List (Nat × Int)))
    (Q : List (Nat × Int) → Prop) (l : List node)
    (hv : ∀ p x p2, x ∈ l → Q p → v p x = some (.ok (), p2) → Q p2)
    (p p2 : List (Nat × Int)) (hQ : Q p) (h : dfsEach v l p = some (.ok (), p2))
    (y : node) (hy : y ∈ l) :
    ∃ q q2, Q q ∧ v q y = some (.ok (), q2) := by
  induction l generalizing p with
  | nil => simp at hy
  | cons x rest ih =>
    rcases dfsEach_cons_cases v x rest p p2 _ h with ⟨e, _, he⟩ | ⟨p1, h1, h2⟩
    · simp at he
    · rcases List.mem_cons.1 hy with hyx | hyr
      · subst hyx
        exact ⟨p, p1, hQ, h1⟩
      · exact ih (fun q z q2 hz => hv q z q2 (List.mem_cons_of_mem x hz)) p1
          (hv p x p1 (List.mem_cons_self x rest) hQ h1) h2 hyr

/-- A relation between the map before and after a step, reflexive and
transitive, holds between the map before and after a loop. -/
theorem dfsEach_rel
    (v : List (Nat × Int) → node → Option (Except WalkFailure Unit × List (Nat × Int)))
    (R : List (Nat × Int) → List (Nat × Int) → Prop) (hrefl : ∀ p, R p p)
    (htrans : ∀ p q r, R p q → R q r → R p r) (l : List node)
    (hv : ∀ p x r p2, x ∈ l → v p x = some (r, p2) → R p p2)
    (p p2 : List (Nat × Int)) (r : Except WalkFailure Unit)
    (h : dfsEach v l p = some (r, p2)) : R p p2 := by
  induction l generalizing p with
  | nil =>
    simp only [dfsEach, Option.some.injEq, Prod.mk.injEq] at h
    rw [← h.2]
    exact hrefl p
  | cons x rest ih =>
    rcases dfsEach_cons_cases v x rest p p2 _ h with ⟨e, h1, _⟩ | ⟨p1, h1, h2⟩
    · exact hv p x _ p2 (List.mem_cons_self x rest) h1
    · exact htrans _ _ _ (hv p x _ p1 (List.mem_cons_self x rest) h1)
        (ih (fun q z r2 q2 hz => hv q z r2 q2 (List.mem_cons_of_mem x hz)) p1 h2)

/-- The failure of a loop is the failure of one of its steps. -/
theorem dfsEach_error
    (v : List (Nat × Int) → node → Option (Except WalkFailure Unit × List (Nat × Int)))
    (C : WalkFailure → Prop) (l : List node)
    (hv : ∀ p x e p2, x ∈ l → v p x = some (.error e, p2) → C e)
    (p p2 : List (Nat × Int)) (e : WalkFailure)
    (h : dfsEach v l p = some (.error e, p2)) : C e := by
  induction l generalizing p with
  | nil => simp [dfsEach] at h
  | cons x rest ih =>
    rcases dfsEach_cons_cases v x rest p p2 _ h with ⟨e2, h1, he⟩ | ⟨p1, _, h2⟩
    · simp only [Except.error.injEq] at he
      rw [he]
      exact hv p x e2 p2 (List.mem_cons_self x rest) h1
    · exact ih (fun q z e2 q2 hz => hv q z e2 q2 (List.mem_cons_of_mem x hz)) p1 h2

/-- The walk on the map fails with a cycle only. -/
theorem dfs_error_cycle (deps : node → List node) (f : Nat) (p p2 : List (Nat × Int))
    (n : node) (e : WalkFailure) (h : dfs deps f p n = some (.error e, p2)) :
    ∃ key, e = .cycleDetected key := by
  induction f generalizing p p2 n e with
  | zero => simp [dfs] at h
  | succ f ih =>
    rcases dfs_succ_cases deps f p p2 n _ h with ⟨_, hr, _⟩ | ⟨_, _, hr, _⟩ |
      ⟨_, _, ⟨e2, h1, hr⟩ | ⟨_, _, hr, _⟩⟩
    · simp at hr
    · simp only [Except.error.injEq] at hr
      exact ⟨_, hr⟩
    · simp only [Except.error.injEq] at hr
      rw [hr]
      exact dfsEach_error _ (fun e => ∃ key, e = .cycleDetected key) (deps n)
        (fun q x e3 q2 _ hq => ih q q2 x e3 hq) _ _ e2 h1
    · simp at hr

theorem isMarked_set_same (p : List (Nat × Int)) (k : Nat) (v : Int)
    (hv : v = visitDone ∨ v = visitInProgress) : isMarked (passedSet p k v) k = true := by
  unfold isMarked
  rw [passedGet_set_same]
  rcases hv with h | h <;> simp [h]

theorem isMarked_set (p : List (Nat × Int)) (k j : Nat) (v : Int)
    (hv : v = visitDone ∨ v = visitInProgress) (h : isMarked p j = true) :
    isMarked (passedSet p k v) j = true := by
  by_cases hkj : k = j
  · subst hkj
    exact isMarked_set_same p k v hv
  · unfold isMarked at h ⊢
    rw [passedGet_set_other p k j v hkj]
    exact h

/-- The walk on the map keeps every mark: a marked address stays marked. -/
theorem dfs_mono (deps : node → List node) (f : Nat) (p p2 : List (Nat × Int))
    (n : node) (r : Except WalkFailure Unit) (h : dfs deps f p n = some (r, p2)) :
    ∀ k, isMarked p k = true → isMarked p2 k = true := by
  induction f generalizing p p2 n r with
  | zero => simp [dfs] at h
  | succ f ih =>
    have hloop : ∀ q q2 r2, dfsEach (fun p1 x => dfs deps f p1 x) (deps n) q = some (r2, q2) →
        ∀ k, isMarked q k = true → isMarked q2 k = true := by
      intro q q2 r2 hq
      exact dfsEach_rel _ (fun a b => ∀ k, isMarked a k = true → isMarked b k = true)
        (fun _ _ hk => hk) (fun _ _ _ h1 h2 k hk => h2 k (h1 k hk)) (deps n)
        (fun a x r3 b _ hab => ih a b x r3 hab) q q2 r2 hq
    rcases dfs_succ_cases deps f p p2 n _ h with ⟨_, _, hp⟩ | ⟨_, _, _, hp⟩ |
      ⟨_, _, ⟨e2, h1, _⟩ | ⟨p1, h1, _, hp⟩⟩
    · intro k hk; rw [hp]; exact hk
    · intro k hk; rw [hp]; exact hk
    · intro k hk
      exact hloop _ _ _ h1 k (isMarked_set p n.ptr k _ (Or.inr rfl) hk)
    · intro k hk
      rw [hp]
      exact isMarked_set p1 n.ptr k _ (Or.inl rfl)
        (hloop _ _ _ h1 k (isMarked_set p n.ptr k _ (Or.inr rfl) hk))

/-- A successful walk on the map leaves every address that is in progress in
progress. -/
theorem dfs_ok_inProgress (deps : node → List node) (f : Nat) (p p2 : List (Nat × Int))
    (n : node) (h : dfs deps f p n = some (.ok (), p2)) :
    ∀ k, passedGet p k = visitInProgress → passedGet p2 k = visitInProgress := by
  induction f generalizing p p2 n with
  | zero => simp [dfs] at h
  | succ f ih =>
    rcases dfs_succ_cases deps f p p2 n _ h with ⟨_, _, hp⟩ | ⟨_, _, hr, _⟩ |
      ⟨_, hnp, ⟨e2, _, hr⟩ | ⟨p1, h1, _, hp⟩⟩
    · intro k hk; rw [hp]; exact hk
    · simp at hr
    · simp at hr
    · intro k hk
      have hne : n.ptr ≠ k := by
        intro hnk
        rw [hnk] at hnp
        exact hnp hk
      rw [hp, passedGet_set_other _ _ _ _ hne]
      refine dfsEach_ok_inv _ (fun a => passedGet a k = visitInProgress) (deps n)
        (fun a x b _ ha hab => ih a b x hab k ha) _ p1 ?_ h1
      show passedGet (passedSet p n.ptr visitInProgress) k = visitInProgress
      rw [passedGet_set_other _ _ _ _ hne]
      exact hk

/-- A successful walk on the map leaves its node done. -/
theorem dfs_ok_done (deps : node → List node) (f : Nat) (p p2 : List (Nat × Int))
    (n : node) (h : dfs deps f p n = some (.ok (), p2)) :
    passedGet p2 n.ptr = visitDone := by
  cases f with
  | zero => simp [dfs] at h
  | succ f =>
    rcases dfs_succ_cases deps f p p2 n _ h with ⟨hd, _, hp⟩ | ⟨_, _, hr, _⟩ |
      ⟨_, _, ⟨e2, _, hr⟩ | ⟨p1, _, _, hp⟩⟩
    · rw [hp]; exact hd
    · simp at hr
    · simp at hr
    · rw [hp]; exact passedGet_set_same _ _ _

theorem unmarkedCount_mono (N : List node) (p p2 : List (Nat × Int))
    (h : ∀ k, isMarked p k = true → isMarked p2 k = true) :
    unmarkedCount N p2 ≤ unmarkedCount N p := by
  unfold unmarkedCount
  apply List.countP_mono_left
  intro x _ hx
  cases hm : isMarked p x.ptr with
  | false => rfl
  | true =>
    rw [h x.ptr hm] at hx
    simp at hx

theorem unmarkedCount_lt (N : List node) (p p2 : List (Nat × Int))
    (h : ∀ k, isMarked p k = true → isMarked p2 k = true) (n : node) (hn : n ∈ N)
    (h1 : isMarked p n.ptr = false) (h2 : isMarked p2 n.ptr = true) :
    unmarkedCount N p2 < unmarkedCount N p := by
  induction N with
  | nil => simp at hn
  | cons x rest ih =>
    have hrest := unmarkedCount_mono rest p p2 h
    unfold unmarkedCount at hrest ih ⊢
    rw [List.countP_cons, List.countP_cons]
    rcases List.mem_cons.1 hn with hx | hr
    · subst hx
      simp only [h1, h2, Bool.not_false, Bool.not_true, if_true, Bool.false_eq_true, if_false]
      omega
    · have := ih hr
      cases hm : isMarked p x.ptr with
      | false =>
        simp only [Bool.not_false, if_true]
        split <;> omega
      | true =>
        rw [h x.ptr hm]
        simp only [Bool.not_true, Bool.false_eq_true, if_false]
        omega

/-- A loop returns when each of its steps returns, from every map with a
property that the steps keep. -/
theorem dfsEach_some
    (v : List (Nat × Int) → node → Option (Except WalkFailure Unit × List (Nat × Int)))
    (Q : List (Nat × Int) → Prop) (l : List node)
    (hv : ∀ q x, x ∈ l → Q q → ∃ r q2, v q x = some (r, q2) ∧ Q q2)
    (p : List (Nat × Int)) (hQ : Q p) : ∃ r p2, dfsEach v l p = some (r, p2) := by
  induction l generalizing p with
  | nil => exact ⟨_, _, rfl⟩
  | cons x rest ih =>
    obtain ⟨r, q2, hvx, hQ2⟩ := hv p x (List.mem_cons_self x rest) hQ
    cases r with
    | error e =>
      refine ⟨.error e, q2, ?_⟩
      simp only [dfsEach, hvx]
    | ok u =>
      obtain ⟨r3, p3, h3⟩ := ih (fun q y hy => hv q y (List.mem_cons_of_mem x hy)) q2 hQ2
      refine ⟨r3, p3, ?_⟩
      simp only [dfsEach, hvx]
      exact h3

/-- The walk on the map returns, with one unit of fuel more than there are
unmarked nodes, on a graph whose dependencies lie within the list `N`. -/
theorem dfs_terminates (deps : node → List node) (N : List node)
    (hclosed : ∀ n ∈ N, ∀ x ∈ deps n, x ∈ N) (k : Nat) (p : List (Nat × Int)) (n : node)
    (hn : n ∈ N) (hk : unmarkedCount N p ≤ k) :
    ∃ r p2, dfs deps (k + 1) p n = some (r, p2) := by
  induction k generalizing p n with
  | zero =>
    unfold dfs
    by_cases hd : passedGet p n.ptr = visitDone
    · rw [if_pos hd]; exact ⟨_, _, rfl⟩
    · rw [if_neg hd]
      by_cases hp : passedGet p n.ptr = visitInProgress
      · rw [if_pos hp]; exact ⟨_, _, rfl⟩
      · exfalso
        have h1 : isMarked p n.ptr = false := by simp [isMarked, hd, hp]
        have h2 := unmarkedCount_lt N p (passedSet p n.ptr visitInProgress)
          (fun j hj => isMarked_set p n.ptr j _ (Or.inr rfl) hj) n hn h1
          (isMarked_set_same p n.ptr _ (Or.inr rfl))
        omega
  | succ k ih =>
    unfold dfs
    by_cases hd : passedGet p n.ptr = visitDone
    · rw [if_pos hd]; exact ⟨_, _, rfl⟩
    · rw [if_neg hd]
      by_cases hp : passedGet p n.ptr = visitInProgress
      · rw [if_pos hp]; exact ⟨_, _, rfl⟩
      · rw [if_neg hp]
        have h1 : isMarked p n.ptr = false := by simp [isMarked, hd, hp]
        have h2 := unmarkedCount_lt N p (passedSet p n.ptr visitInProgress)
          (fun j hj => isMarked_set p n.ptr j _ (Or.inr rfl) hj) n hn h1
          (isMarked_set_same p n.ptr _ (Or.inr rfl))
        obtain ⟨r, p2, hloop⟩ := dfsEach_some (fun p1 x => dfs deps (k + 1) p1 x)
          (fun q => unmarkedCount N q ≤ k) (deps n)
          (fun q x hx hq => by
            obtain ⟨r, q2, hq2⟩ := ih q x (hclosed n hn x hx) hq
            exact ⟨r, q2, hq2,
              Nat.le_trans (unmarkedCount_mono N q q2 (dfs_mono deps _ q q2 x r hq2)) hq⟩)
          (passedSet p n.ptr visitInProgress) (by omega)
        rw [hloop]
        cases r with
        | error e => exact ⟨_, _, rfl⟩
        | ok u => exact ⟨_, _, rfl⟩

theorem passedGet_set_ne_done (p : List (Nat × Int)) (k j : Nat)
    (h : passedGet p j ≠ visitDone) :
    passedGet (passedSet p k visitInProgress) j ≠ visitDone := by
  by_cases hkj : k = j
  · subst hkj
    rw [passedGet_set_same]
    exact visitInProgress_ne_visitDone
  · rw [passedGet_set_other _ _ _ _ hkj]
    exact h

/-- With `Y` among the dependencies of `X` and `X` among those of `Y`, the
loop over the dependencies of `X`, started with `X` in progress and neither
node done, does not succeed. -/
theorem cycle_blocks (deps : node → List node) (N : List node)
    (hclosed : ∀ n ∈ N, ∀ x ∈ deps n, x ∈ N) (X Y : node) (hX : X ∈ N)
    (hYX : Y ∈ deps X) (hXY : X ∈ deps Y) (f : Nat)
    (hM : ∀ p n p2, n ∈ N →
      (passedGet p X.ptr ≠ visitDone ∧ passedGet p Y.ptr ≠ visitDone) →
      dfs deps f p n = some (.ok (), p2) →
      (passedGet p2 X.ptr ≠ visitDone ∧ passedGet p2 Y.ptr ≠ visitDone))
    (p p1 : List (Nat × Int))
    (hInv : passedGet p X.ptr ≠ visitDone ∧ passedGet p Y.ptr ≠ visitDone)
    (h : dfsEach (fun q x => dfs deps f q x) (deps X) (passedSet p X.ptr visitInProgress) =
      some (.ok (), p1)) : False := by
  obtain ⟨q, q2, ⟨hq, hqX⟩, hY⟩ := dfsEach_ok_mem (fun q x => dfs deps f q x)
    (fun q => (passedGet q X.ptr ≠ visitDone ∧ passedGet q Y.ptr ≠ visitDone) ∧
      passedGet q X.ptr = visitInProgress) (deps X)
    (fun a x b hx ha hab =>
      ⟨hM a x b (hclosed X hX x hx) ha.1 hab, dfs_ok_inProgress deps f a b x hab _ ha.2⟩)
    _ p1
    ⟨⟨passedGet_set_ne_done p _ _ hInv.1, passedGet_set_ne_done p _ _ hInv.2⟩,
      passedGet_set_same _ _ _⟩ h Y hYX
  cases f with
  | zero => simp [dfs] at hY
  | succ g =>
    rcases dfs_succ_cases deps g q q2 Y _ hY with ⟨hd, _, _⟩ | ⟨_, _, hr, _⟩ |
      ⟨_, hnp, ⟨e2, _, hr⟩ | ⟨p3, h3, _, _⟩⟩
    · exact hq.2 hd
    · simp at hr
    · simp at hr
    · have hne : Y.ptr ≠ X.ptr := by
        intro hyx
        rw [hyx] at hnp
        exact hnp hqX
      obtain ⟨q3, q4, hq3, hX3⟩ := dfsEach_ok_mem (fun q x => dfs deps g q x)
        (fun a => passedGet a X.ptr = visitInProgress) (deps Y)
        (fun a x b _ ha hab => dfs_ok_inProgress deps g a b x hab _ ha)
        _ p3 (by
          show passedGet (passedSet q Y.ptr visitInProgress) X.ptr = visitInProgress
          rw [passedGet_set_other _ _ _ _ hne]
          exact hqX) h3 X hXY
      cases g with
      | zero => simp [dfs] at hX3
      | succ g2 =>
        rcases dfs_succ_cases deps g2 q3 q4 X _ hX3 with ⟨hd, _, _⟩ | ⟨_, _, hr, _⟩ |
          ⟨_, hnp2, _⟩
        · rw [hq3] at hd
          exact visitInProgress_ne_visitDone hd
        · simp at hr
        · exact hnp2 hq3

/-- With `B` among the dependencies of `A` and `A` among those of `B`, a
successful walk step leaves neither node done. -/
theorem dfs_ok_keeps_not_done (deps : node → List node) (N : List node)
    (hclosed : ∀ n ∈ N, ∀ x ∈ deps n, x ∈ N)
    (hptr : ∀ x ∈ N, ∀ y ∈ N, x.ptr = y.ptr → x = y)
    (A B : node) (hA : A ∈ N) (hB : B ∈ N) (hAB : B ∈ deps A) (hBA : A ∈ deps B)
    (f : Nat) (p : List (Nat × Int)) (n : node) (p2 : List (Nat × Int)) (hn : n ∈ N)
    (hInv : passedGet p A.ptr ≠ visitDone ∧ passedGet p B.ptr ≠ visitDone)
    (h : dfs deps f p n = some (.ok (), p2)) :
    passedGet p2 A.ptr ≠ visitDone ∧ passedGet p2 B.ptr ≠ visitDone := by
  induction f generalizing p n p2 with
  | zero => simp [dfs] at h
  | succ f ih =>
    rcases dfs_succ_cases deps f p p2 n _ h with ⟨_, _, hp⟩ | ⟨_, _, hr, _⟩ |
      ⟨_, _, ⟨e2, _, hr⟩ | ⟨p1, h1, _, hp⟩⟩
    · rw [hp]; exact hInv
    · simp at hr
    · simp at hr
    · have hnA : n.ptr ≠ A.ptr := by
        intro hna
        have hnA2 : n = A := hptr n hn A hA hna
        subst hnA2
        exact cycle_blocks deps N hclosed n B hn hAB hBA f
          (fun a x b hx ha hab => ih a x b hx ha hab) p p1 hInv h1
      have hnB : n.ptr ≠ B.ptr := by
        intro hnb
        have hnB2 : n = B := hptr n hn B hB hnb
        subst hnB2
        exact cycle_blocks deps N hclosed n A hn hBA hAB f
          (fun a x b hx ha hab => (ih a x b hx ha.symm hab).symm) p p1 hInv.symm h1
      have hp1 := dfsEach_ok_inv (fun q x => dfs deps f q x)
        (fun q => passedGet q A.ptr ≠ visitDone ∧ passedGet q B.ptr ≠ visitDone) (deps n)
        (fun a x b hx ha hab => ih a x b (hclosed n hn x hx) ha hab) _ p1
        ⟨passedGet_set_ne_done p _ _ hInv.1, passedGet_set_ne_done p _ _ hInv.2⟩ h1
      rw [hp, passedGet_set_other _ _ _ _ hnA, passedGet_set_other _ _ _ _ hnB]
      exact hp1

/-- The walk of all the nodes of a graph with a mutual dependency, from the
empty map and with more fuel than there are nodes, returns a cycle failure. -/
theorem dfsEach_detects_cycle (deps : node → List node) (N : List node)
    (hclosed : ∀ n ∈ N, ∀ x ∈ deps n, x ∈ N)
    (hptr : ∀ x ∈ N, ∀ y ∈ N, x.ptr = y.ptr → x = y)
    (A B : node) (hA : A ∈ N) (hB : B ∈ N) (hAB : B ∈ deps A) (hBA : A ∈ deps B)
    (fuel : Nat) (hfuel : N.length < fuel) :
    ∃ key p2, dfsEach (fun q x => dfs deps fuel q x) N [] =
      some (.error (.cycleDetected key), p2) := by
  obtain ⟨k, rfl⟩ : ∃ k, fuel = k + 1 := ⟨fuel - 1, by omega⟩
  have hcount : unmarkedCount N [] ≤ k := by
    have := List.countP_le_length (fun x : node => !isMarked [] x.ptr) (l := N)
    unfold unmarkedCount
    omega
  obtain ⟨r, p2, hres⟩ := dfsEach_some (fun q x => dfs deps (k + 1) q x)
    (fun q => unmarkedCount N q ≤ k) N
    (fun q x hx hq => by
      obtain ⟨r, q2, hq2⟩ := dfs_terminates deps N hclosed k q x hx hq
      exact ⟨r, q2, hq2,
        Nat.le_trans (unmarkedCount_mono N q q2 (dfs_mono deps _ q q2 x r hq2)) hq⟩)
    [] hcount
  cases r with
  | ok u =>
    exfalso
    have hInv0 : passedGet [] A.ptr ≠ visitDone ∧ passedGet [] B.ptr ≠ visitDone := by
      constructor <;> simp [passedGet, visitDone]
    obtain ⟨q, q2, hq, hqA⟩ := dfsEach_ok_mem (fun q x => dfs deps (k + 1) q x)
      (fun q => passedGet q A.ptr ≠ visitDone ∧ passedGet q B.ptr ≠ visitDone) N
      (fun a x b hx ha hab =>
        dfs_ok_keeps_not_done deps N hclosed hptr A B hA hB hAB hBA _ a x b hx ha hab)
      [] p2 hInv0 hres A hA
    exact (dfs_ok_keeps_not_done deps N hclosed hptr A B hA hB hAB hBA _ q A q2 hA hq hqA).1
      (dfs_ok_done deps _ q q2 A hqA)
  | error e =>
    obtain ⟨key, hkey⟩ := dfsEach_error (fun q x => dfs deps (k + 1) q x)
      (fun e => ∃ key, e = .cycleDetected key) N
      (fun q x e3 q2 _ hq => dfs_error_cycle deps _ q q2 x e3 hq) [] p2 e hres
    exact ⟨key, p2, by rw [hres, hkey]⟩

/-- A loop of the walk of the registry is the loop on the map, when each step
is. -/
theorem visitEach_eq_dfsEach (s : defaultSchema)
    (v : defaultSchema → Mem → node → Option WalkOutcome)
    (w : List (Nat × Int) → node → Option (Except WalkFailure Unit × List (Nat × Int)))
    (l : List node)
    (hvw : ∀ p m x, x ∈ l →
      v { s with passed := some p } m x = (w p x).map (liftMarks s m))
    (p : List (Nat × Int)) (m : Mem) :
    visitEach v l { s with passed := some p } m = (dfsEach w l p).map (liftMarks s m) := by
  induction l generalizing p with
  | nil => rfl
  | cons x rest ih =>
    unfold visitEach dfsEach
    rw [hvw p m x (List.mem_cons_self x rest)]
    cases hw : w p x with
    | none => rfl
    | some rp =>
      obtain ⟨r, p2⟩ := rp
      cases r with
      | error e => rfl
      | ok u =>
        exact ih (fun q m2 y hy => hvw q m2 y (List.mem_cons_of_mem x hy)) p2

/-- In a registry whose dependency graph lies within the index, the walk step
of the registry is the walk step on the map: the index, the cleanup list and
the allocation counter are left as they were. -/
theorem visit_eq_dfs (d : Decl) (s : defaultSchema) (deps : node → List node)
    (hc : Closed d s deps) (f : Nat) (p : List (Nat × Int)) (m : Mem) (n : node)
    (hn : n ∈ s.allNodes) :
    visit d f { s with passed := some p } m n = (dfs deps f p n).map (liftMarks s m) := by
  induction f generalizing p n m with
  | zero => rfl
  | succ f ih =>
    obtain ⟨hin, hres⟩ := hc.2 n hn
    obtain ⟨ps, fs, hps, hfs, hdeps⟩ :=
      hres (defaultSchema.setMark { s with passed := some p } n.ptr visitInProgress) m rfl
    have hloop := visitEach_eq_dfsEach s (fun s1 m1 x => visit d f s1 m1 x)
      (fun p1 x => dfs deps f p1 x) (deps n)
      (fun q m2 x hx => ih q m2 x (hin x hx)) (passedSet p n.ptr visitInProgress) m
    unfold visit dfs
    have hmark : defaultSchema.mark { s with passed := some p } n.ptr = passedGet p n.ptr := rfl
    rw [hmark]
    by_cases hd : passedGet p n.ptr = visitDone
    · rw [if_pos hd, if_pos hd]
      rfl
    · rw [if_neg hd, if_neg hd]
      by_cases hp : passedGet p n.ptr = visitInProgress
      · rw [if_pos hp, if_pos hp]
        rfl
      · rw [if_neg hp, if_neg hp]
        simp only [hps, hfs, hdeps]
        have hstate : defaultSchema.setMark { s with passed := some p } n.ptr visitInProgress =
            { s with passed := some (passedSet p n.ptr visitInProgress) } := rfl
        rw [hstate, hloop]
        cases hw : dfsEach (fun p1 x => dfs deps f p1 x) (deps n)
            (passedSet p n.ptr visitInProgress) with
        | none => rfl
        | some rp =>
          obtain ⟨r, p2⟩ := rp
          cases r with
          | error e => rfl
          | ok u => rfl

/-- In a registry whose dependency graph lies within the index and that holds
nodes `A` and `B`, each among the dependencies of the other, the first `bypass`
call, with fuel above the number of stored nodes, returns a cycle failure and
changes the visited-state map alone. -/
theorem bypass_closed_cycle (d : Decl) (s : defaultSchema)
    (deps : node → List node) (m : Mem) (n A B : node)
    (hpassed : s.passed = none) (hc : Closed d s deps)
    (hA : A ∈ s.allNodes) (hB : B ∈ s.allNodes) (hAB : B ∈ deps A) (hBA : A ∈ deps B)
    (fuel : Nat) (hfuel : s.allNodes.length < fuel) :
    ∃ key p, s.bypass d fuel m n =
      some ⟨.error (.cycleDetected key), { s with passed := some p }, m⟩ := by
  obtain ⟨key, p2, hres⟩ := dfsEach_detects_cycle deps s.allNodes
    (fun x hx => (hc.2 x hx).1) hc.1 A B hA hB hAB hBA fuel hfuel
  refine ⟨key, p2, ?_⟩
  unfold defaultSchema.bypass
  rw [hpassed]
  simp only []
  rw [visitEach_eq_dfsEach s (fun s1 m1 x => visit d fuel s1 m1 x)
    (fun q x => dfs deps fuel q x) s.allNodes
    (fun q m2 x hx => visit_eq_dfs d s deps hc fuel q m2 x hx) [] m, hres]
  rfl

/-- The lookup of a type with exactly one matching provider. -/
theorem find_of_single_match (inj : RType → Bool) (s : defaultSchema) (m : Mem) (t : RType)
    (tags : Tags) (L : List node) (x : node) (hL : s.nodes.get t = some L)
    (hM : matchTags L tags = [x]) : s.find inj m t tags = ⟨.ok x, s, m⟩ := by
  rw [find_of_get_some inj s m t tags L hL, hM]

/-- The lookups of a list of dependencies whose first lookup and whose later
lookups succeed without a synthesis. -/
theorem findAll_cons_ok (inj : RType → Bool) (s : defaultSchema) (m : Mem) (t : RType)
    (tags : Tags) (rest : List (RType × Tags)) (x : node) (xs : List node)
    (hf : s.find inj m t tags = ⟨.ok x, s, m⟩)
    (hrest : findAll inj rest s m = ⟨.ok xs, s, m⟩) :
    findAll inj ((t, tags) :: rest) s m = ⟨.ok (x :: xs), s, m⟩ := by
  unfold findAll
  simp only [hf, hrest]

/-- The dependency graph of the cycle sample lies within its index. -/
theorem cycleSchema_closed : Closed cycleDecl cycleSchema cycleDeps := by
  have hall : cycleSchema.allNodes = [nodeA, nodeB] := rfl
  have hnodes : cycleSchema.nodes = [(Alpha, [nodeA]), (Beta, [nodeB])] := rfl
  constructor
  · intro x hx y hy h
    rw [hall] at hx hy
    simp only [List.mem_cons, List.mem_singleton, List.not_mem_nil, or_false] at hx hy
    rcases hx with rfl | rfl <;> rcases hy with rfl | rfl
    · rfl
    · exact absurd h (by decide)
    · exact absurd h (by decide)
    · rfl
  · intro n hn
    rw [hall] at hn
    simp only [List.mem_cons, List.mem_singleton, List.not_mem_nil, or_false] at hn
    rcases hn with rfl | rfl
    · refine ⟨?_, ?_⟩
      · intro x hx
        have hx2 : x = nodeB := by simpa [cycleDeps, nodeA, node.ptr] using hx
        rw [hx2, hall]
        simp
      · intro s1 m hs
        refine ⟨[nodeB], [], ?_, rfl, rfl⟩
        show findAll injectNone [(Beta, [])] s1 m = ⟨.ok [nodeB], s1, m⟩
        exact findAll_cons_ok injectNone s1 m Beta [] [] nodeB []
          (find_of_single_match injectNone s1 m Beta [] [nodeB] nodeB
            (by rw [hs, hnodes]; rfl) rfl) rfl
    · refine ⟨?_, ?_⟩
      · intro x hx
        have hx2 : x = nodeA := by simpa [cycleDeps, nodeB, node.ptr] using hx
        rw [hx2, hall]
        simp
      · intro s1 m hs
        refine ⟨[nodeA], [], ?_, rfl, rfl⟩
        show findAll injectNone [(Alpha, [])] s1 m = ⟨.ok [nodeA], s1, m⟩
        exact findAll_cons_ok injectNone s1 m Alpha [] [] nodeA []
          (find_of_single_match injectNone s1 m Alpha [] [nodeA] nodeA
            (by rw [hs, hnodes]; rfl) rfl) rfl

/-! ## The stored nodes -/

theorem NodeMap.mem_flatten_of_get (mp : NodeMap) (t : RType) (L : List node) (x : node)
    (h : mp.get t = some L) (hx : x ∈ L) : x ∈ (mp.map (fun e => e.2)).flatten := by
  induction mp with
  | nil => simp [NodeMap.get] at h
  | cons hd tl ih =>
    obtain ⟨k, w⟩ := hd
    simp only [List.map_cons, List.flatten_cons, List.mem_append]
    by_cases hk : k = t
    · simp only [NodeMap.get, hk, if_true, Option.some.injEq] at h
      left
      rw [h]
      exact hx
    · simp only [NodeMap.get, hk, if_false] at h
      right
      exact ih h

theorem mem_allNodes_of_get (s : defaultSchema) (t : RType) (L : List node) (x : node)
    (h : s.nodes.get t = some L) (hx : x ∈ L) : x ∈ s.allNodes :=
  NodeMap.mem_flatten_of_get s.nodes t L x h hx

theorem NodeMap.flatten_set_of_get_none (mp : NodeMap) (t : RType) (v : List node)
    (h : mp.get t = none) :
    ((mp.set t v).map (fun e => e.2)).flatten = (mp.map (fun e => e.2)).flatten ++ v := by
  induction mp with
  | nil => simp [NodeMap.set]
  | cons hd tl ih =>
    obtain ⟨k, w⟩ := hd
    by_cases hk : k = t
    · simp [NodeMap.get, hk] at h
    · simp only [NodeMap.get, hk, if_false] at h
      simp only [NodeMap.set, hk, if_false, List.map_cons, List.flatten_cons, ih h,
        List.append_assoc]

/-- The outcomes of a lookup: nothing changes, and a returned node is a stored
node; or a group node over stored members is allocated and the registry does
not change; or a field-injection node is allocated and stored. -/
theorem find_cases (inj : RType → Bool) (s : defaultSchema) (m : Mem) (t : RType)
    (tags : Tags) :
    ((s.find inj m t tags).schema = s ∧ (s.find inj m t tags).mem = m ∧
      ∀ n, (s.find inj m t tags).res = .ok n → n ∈ s.allNodes) ∨
    ((s.find inj m t tags).schema = s ∧ (s.find inj m t tags).mem = ⟨m.next + 2⟩ ∧
      ∃ ms, (∀ y ∈ ms, y ∈ s.allNodes) ∧ t.Kind = Kind.Slice ∧
        (s.find inj m t tags).res =
          .ok (.mk (m.next + 1) m.next t tags (.groupCompiler t ms))) ∨
    (s.nodes.get t = none ∧ inj t = true ∧ t.Kind ≠ Kind.Ptr ∧
      s.find inj m t tags =
        ⟨.ok (.mk (m.next + 1) m.next t [] (.typeCompiler t)),
          { s with nodes := s.nodes.set t [.mk (m.next + 1) m.next t [] (.typeCompiler t)] },
          ⟨m.next + 2⟩⟩) := by
  cases hg : s.nodes.get t with
  | some L =>
    left
    rw [find_of_get_some inj s m t tags L hg]
    refine ⟨rfl, rfl, ?_⟩
    intro n hn
    rcases hM : matchTags L tags with _ | ⟨a, _ | ⟨b, r⟩⟩
    · rw [hM] at hn; simp at hn
    · rw [hM] at hn
      simp only [Except.ok.injEq] at hn
      have ha : a ∈ L := (matchTags_sublist L tags).subset (by rw [hM]; simp)
      rw [← hn]
      exact mem_allNodes_of_get s t L a hg ha
    · rw [hM] at hn; simp at hn
  | none =>
    by_cases hi : inj t = true
    · by_cases hk : t.Kind = Kind.Ptr
      · left
        obtain ⟨e, he⟩ := Elem_of_Kind_Ptr t hk
        rw [find_of_get_none inj s m t tags hg]
        simp [hi, hk, he]
      · right; right
        exact ⟨rfl, hi, hk, find_of_injectable inj s m t tags hg hi hk⟩
    · have hi2 : inj t = false := by simpa using hi
      by_cases hk : t.Kind = Kind.Slice
      · obtain ⟨T, hT⟩ := Elem_of_Kind_Slice t hk
        rw [find_eq_group inj s m t tags hk hg hi2, group_of_elem s m t T tags hT]
        cases hM : matchTags ((s.nodes.get T).getD []) tags with
        | nil =>
          left
          simp
        | cons a r =>
          right; left
          refine ⟨rfl, rfl, a :: r, ?_, hk, rfl⟩
          intro y hy
          have hy2 : y ∈ (s.nodes.get T).getD [] :=
            (matchTags_sublist _ tags).subset (by rw [hM]; exact hy)
          cases hT2 : s.nodes.get T with
          | none => rw [hT2] at hy2; simp at hy2
          | some L =>
            rw [hT2] at hy2
            exact mem_allNodes_of_get s T L y hT2 hy2
      · left
        rw [find_of_get_none inj s m t tags hg]
        simp [hi2, hk]

/-! ## Relations that the lookups and the walk carry through -/

theorem findAll_rel (R : defaultSchema → Mem → defaultSchema → Mem → Prop)
    (hrefl : ∀ s m, R s m s m)
    (htrans : ∀ s1 m1 s2 m2 s3 m3, R s1 m1 s2 m2 → R s2 m2 s3 m3 → R s1 m1 s3 m3)
    (inj : RType → Bool)
    (hfind : ∀ s m t tags, R s m (s.find inj m t tags).schema (s.find inj m t tags).mem)
    (l : List (RType × Tags)) (s : defaultSchema) (m : Mem) :
    R s m (findAll inj l s m).schema (findAll inj l s m).mem := by
  induction l generalizing s m with
  | nil => exact hrefl s m
  | cons hd tl ih =>
    obtain ⟨t, tags⟩ := hd
    have h1 := hfind s m t tags
    have h2 := ih (s.find inj m t tags).schema (s.find inj m t tags).mem
    unfold findAll
    cases hr : (s.find inj m t tags).res with
    | error e => exact h1
    | ok n =>
      simp only []
      cases hr2 : (findAll inj tl (s.find inj m t tags).schema (s.find inj m t tags).mem).res with
      | error e => exact htrans _ _ _ _ _ _ h1 h2
      | ok ns => exact htrans _ _ _ _ _ _ h1 h2

theorem params_rel (R : defaultSchema → Mem → defaultSchema → Mem → Prop)
    (hrefl : ∀ s m, R s m s m)
    (htrans : ∀ s1 m1 s2 m2 s3 m3, R s1 m1 s2 m2 → R s2 m2 s3 m3 → R s1 m1 s3 m3)
    (d : Decl)
    (hfind : ∀ s m t tags, R s m (s.find d.isInjectable m t tags).schema
      (s.find d.isInjectable m t tags).mem)
    (n : node) (s : defaultSchema) (m : Mem) :
    R s m (n.params d s m).schema (n.params d s m).mem := by
  obtain ⟨p, v, t, g, c⟩ := n
  cases c with
  | provider id => exact findAll_rel R hrefl htrans d.isInjectable hfind (d.inputs id) s m
  | typeCompiler t2 => exact hrefl s m
  | groupCompiler t2 ms => exact hrefl s m
  | interfaceCompiler w => exact hrefl s m

theorem resolve_rel (R : defaultSchema → Mem → defaultSchema → Mem → Prop)
    (hrefl : ∀ s m, R s m s m)
    (htrans : ∀ s1 m1 s2 m2 s3 m3, R s1 m1 s2 m2 → R s2 m2 s3 m3 → R s1 m1 s3 m3)
    (d : Decl)
    (hfind : ∀ s m t tags, R s m (s.find d.isInjectable m t tags).schema
      (s.find d.isInjectable m t tags).mem)
    (n : node) (s : defaultSchema) (m : Mem) :
    R s m (n.resolve d s m).schema (n.resolve d s m).mem := by
  have hp := params_rel R hrefl htrans d hfind n s m
  have hf := findAll_rel R hrefl htrans d.isInjectable hfind (d.fields n)
    (n.params d s m).schema (n.params d s m).mem
  unfold node.resolve
  cases hr : (n.params d s m).res with
  | error e => exact hp
  | ok ps =>
    simp only []
    cases hr2 : (findAll d.isInjectable (d.fields n) (n.params d s m).schema
        (n.params d s m).mem).res with
    | error e => exact htrans _ _ _ _ _ _ hp hf
    | ok fs => exact htrans _ _ _ _ _ _ hp hf

/-- The walk step in terms of the resolved dependencies. -/
theorem visit_succ (d : Decl) (f : Nat) (s : defaultSchema) (m : Mem) (n : node) :
    visit d (f + 1) s m n =
      if s.mark n.ptr = visitDone then some ⟨.ok (), s, m⟩
      else if s.mark n.ptr = visitInProgress then
        some ⟨.error (.cycleDetected n.String), s, m⟩
      else
        match (n.resolve d (s.setMark n.ptr visitInProgress) m).res with
        | .error e =>
          some ⟨.error (.lookup e), (n.resolve d (s.setMark n.ptr visitInProgress) m).schema,
            (n.resolve d (s.setMark n.ptr visitInProgress) m).mem⟩
        | .ok l =>
          match visitEach (fun s1 m1 x => visit d f s1 m1 x) l
              (n.resolve d (s.setMark n.ptr visitInProgress) m).schema
              (n.resolve d (s.setMark n.ptr visitInProgress) m).mem with
          | none => none
          | some o =>
            match o.res with
            | .error e => some ⟨.error e, o.schema, o.mem⟩
            | .ok _ => some ⟨.ok (), o.schema.setMark n.ptr visitDone, o.mem⟩ := by
  rw [visit]
  unfold node.resolve
  by_cases hd : s.mark n.ptr = visitDone
  · rw [if_pos hd, if_pos hd]
  · rw [if_neg hd, if_neg hd]
    by_cases hp : s.mark n.ptr = visitInProgress
    · rw [if_pos hp, if_pos hp]
    · rw [if_neg hp, if_neg hp]
      cases hr : (n.params d (s.setMark n.ptr visitInProgress) m).res with
      | error e => rfl
      | ok ps =>
        simp only []
        cases hr2 : (findAll d.isInjectable (d.fields n)
            (n.params d (s.setMark n.ptr visitInProgress) m).schema
            (n.params d (s.setMark n.ptr visitInProgress) m).mem).res with
        | error e => rfl
        | ok fs => rfl

/-- The cases of a walk step that returns. -/
theorem visit_succ_cases (d : Decl) (f : Nat) (s : defaultSchema) (m : Mem) (n : node)
    (o : WalkOutcome) (h : visit d (f + 1) s m n = some o) :
    (s.mark n.ptr = visitDone ∧ o = ⟨.ok (), s, m⟩) ∨
    (s.mark n.ptr ≠ visitDone ∧ s.mark n.ptr = visitInProgress ∧
      o = ⟨.error (.cycleDetected n.String), s, m⟩) ∨
    (s.mark n.ptr ≠ visitDone ∧ s.mark n.ptr ≠ visitInProgress ∧
      ((∃ e, (n.resolve d (s.setMark n.ptr visitInProgress) m).res = .error e ∧
          o = ⟨.error (.lookup e),
            (n.resolve d (s.setMark n.ptr visitInProgress) m).schema,
            (n.resolve d (s.setMark n.ptr visitInProgress) m).mem⟩) ∨
        (∃ l o1, (n.resolve d (s.setMark n.ptr visitInProgress) m).res = .ok l ∧
          visitEach (fun s1 m1 x => visit d f s1 m1 x) l
            (n.resolve d (s.setMark n.ptr visitInProgress) m).schema
            (n.resolve d (s.setMark n.ptr visitInProgress) m).mem = some o1 ∧
          ((∃ e, o1.res = .error e ∧ o = ⟨.error e, o1.schema, o1.mem⟩) ∨
            (o1.res = .ok () ∧ o = ⟨.ok (), o1.schema.setMark n.ptr visitDone, o1.mem⟩))))) := by
  rw [visit_succ] at h
  by_cases hd : s.mark n.ptr = visitDone
  · rw [if_pos hd] at h
    simp only [Option.some.injEq] at h
    exact Or.inl ⟨hd, h.symm⟩
  · rw [if_neg hd] at h
    right
    by_cases hp : s.mark n.ptr = visitInProgress
    · rw [if_pos hp] at h
      simp only [Option.some.injEq] at h
      exact Or.inl ⟨hd, hp, h.symm⟩
    · rw [if_neg hp] at h
      right
      refine ⟨hd, hp, ?_⟩
      cases hr : (n.resolve d (s.setMark n.ptr visitInProgress) m).res with
      | error e =>
        rw [hr] at h
        simp only [Option.some.injEq] at h
        exact Or.inl ⟨e, rfl, h.symm⟩
      | ok l =>
        rw [hr] at h
        simp only [] at h
        right
        cases hv : visitEach (fun s1 m1 x => visit d f s1 m1 x) l
            (n.resolve d (s.setMark n.ptr visitInProgress) m).schema
            (n.resolve d (s.setMark n.ptr visitInProgress) m).mem with
        | none => rw [hv] at h; simp at h
        | some o1 =>
          rw [hv] at h
          simp only [] at h
          refine ⟨l, o1, rfl, hv, ?_⟩
          cases hres : o1.res with
          | error e =>
            rw [hres] at h
            simp only [Option.some.injEq] at h
            exact Or.inl ⟨e, rfl, h.symm⟩
          | ok u =>
            rw [hres] at h
            simp only [Option.some.injEq] at h
            exact Or.inr ⟨rfl, h.symm⟩

/-- The cases of a loop of the walk over a non-empty list. -/
theorem visitEach_cons_cases (v : defaultSchema → Mem → node → Option WalkOutcome)
    (x : node) (rest : List node) (s : defaultSchema) (m : Mem) (o : WalkOutcome)
    (h : visitEach v (x :: rest) s m = some o) :
    ∃ o1, v s m x = some o1 ∧
      ((∃ e, o1.res = .error e ∧ o = ⟨.error e, o1.schema, o1.mem⟩) ∨
        (o1.res = .ok () ∧ visitEach v rest o1.schema o1.mem = some o)) := by
  unfold visitEach at h
  cases hv : v s m x with
  | none => rw [hv] at h; simp at h
  | some o1 =>
    rw [hv] at h
    simp only [] at h
    refine ⟨o1, rfl, ?_⟩
    cases hres : o1.res with
    | error e =>
      rw [hres] at h
      simp only [Option.some.injEq] at h
      exact Or.inl ⟨e, rfl, h.symm⟩
    | ok u =>
      rw [hres] at h
      exact Or.inr ⟨rfl, h⟩

theorem visitEach_rel (R : defaultSchema → Mem → defaultSchema → Mem → Prop)
    (hrefl : ∀ s m, R s m s m)
    (htrans : ∀ s1 m1 s2 m2 s3 m3, R s1 m1 s2 m2 → R s2 m2 s3 m3 → R s1 m1 s3 m3)
    (v : defaultSchema → Mem → node → Option WalkOutcome) (l : List node)
    (hv : ∀ s m x o, x ∈ l → v s m x = some o → R s m o.schema o.mem)
    (s : defaultSchema) (m : Mem) (o : WalkOutcome) (h : visitEach v l s m = some o) :
    R s m o.schema o.mem := by
  induction l generalizing s m with
  | nil =>
    simp only [visitEach, Option.some.injEq] at h
    rw [← h]
    exact hrefl s m
  | cons x rest ih =>
    obtain ⟨o1, h1, h2⟩ := visitEach_cons_cases v x rest s m o h
    have hx := hv s m x o1 (List.mem_cons_self x rest) h1
    rcases h2 with ⟨e, _, ho⟩ | ⟨_, hrest⟩
    · rw [ho]
      exact hx
    · exact htrans _ _ _ _ _ _ hx
        (ih (fun s2 m2 y o2 hy => hv s2 m2 y o2 (List.mem_cons_of_mem x hy)) _ _ hrest)

/-- A relation that is reflexive and transitive, holds across every lookup and
across every write of a mark holds across the walk step. -/
theorem visit_rel (R : defaultSchema → Mem → defaultSchema → Mem → Prop)
    (hrefl : ∀ s m, R s m s m)
    (htrans : ∀ s1 m1 s2 m2 s3 m3, R s1 m1 s2 m2 → R s2 m2 s3 m3 → R s1 m1 s3 m3)
    (d : Decl)
    (hfind : ∀ s m t tags, R s m (s.find d.isInjectable m t tags).schema
      (s.find d.isInjectable m t tags).mem)
    (hmark : ∀ s m k v, v = visitDone ∨ v = visitInProgress → R s m (s.setMark k v) m)
    (f : Nat) (s : defaultSchema) (m : Mem) (n : node) (o : WalkOutcome)
    (h : visit d f s m n = some o) : R s m o.schema o.mem := by
  induction f generalizing s m n o with
  | zero => simp [visit] at h
  | succ f ih =>
    have hres := resolve_rel R hrefl htrans d hfind n (s.setMark n.ptr visitInProgress) m
    have h1 := htrans _ _ _ _ _ _ (hmark s m n.ptr visitInProgress (Or.inr rfl)) hres
    rcases visit_succ_cases d f s m n o h with ⟨_, ho⟩ | ⟨_, _, ho⟩ |
      ⟨_, _, ⟨e, _, ho⟩ | ⟨l, o1, _, hv, ⟨e, _, ho⟩ | ⟨_, ho⟩⟩⟩
    · rw [ho]; exact hrefl s m
    · rw [ho]; exact hrefl s m
    · rw [ho]; exact h1
    · rw [ho]
      exact htrans _ _ _ _ _ _ h1
        (visitEach_rel R hrefl htrans _ l (fun s2 m2 y o2 _ hy => ih s2 m2 y o2 hy) _ _ o1 hv)
    · rw [ho]
      exact htrans _ _ _ _ _ _ (htrans _ _ _ _ _ _ h1
        (visitEach_rel R hrefl htrans _ l (fun s2 m2 y o2 _ hy => ih s2 m2 y o2 hy) _ _ o1 hv))
        (hmark o1.schema o1.mem n.ptr visitDone (Or.inl rfl))

/-! ## The walk moves the registry forward -/

theorem indexLe_refl (s : defaultSchema) : IndexLe s s := fun _ _ h => h

theorem indexLe_trans {s1 s2 s3 : defaultSchema} (h1 : IndexLe s1 s2) (h2 : IndexLe s2 s3) :
    IndexLe s1 s3 := fun t L h => h2 t L (h1 t L h)

theorem grow_refl (s : defaultSchema) (m : Mem) : Grow s m s m :=
  ⟨Nat.le_refl _, indexLe_refl s, fun _ h => h, fun _ h => Or.inl h,
    fun _ _ h => Or.inl h, fun h => h, rfl⟩

theorem grow_trans (s1 : defaultSchema) (m1 : Mem) (s2 : defaultSchema)
    (m2 : Mem) (s3 : defaultSchema) (m3 : Mem) (h1 : Grow s1 m1 s2 m2)
    (h2 : Grow s2 m2 s3 m3) : Grow s1 m1 s3 m3 := by
  obtain ⟨a1, b1, c1, d1, e1, f1, g1⟩ := h1
  obtain ⟨a2, b2, c2, d2, e2, f2, g2⟩ := h2
  refine ⟨Nat.le_trans a1 a2, indexLe_trans b1 b2, fun x hx => c2 x (c1 x hx), ?_, ?_,
    fun h => f2 (f1 h), by rw [g2, g1]⟩
  · intro x hx
    rcases d2 x hx with h | h
    · exact d1 x h
    · exact Or.inr (Nat.le_trans a1 h)
  · intro t L hL
    rcases e2 t L hL with h | h
    · exact e1 t L h
    · exact Or.inr (fun x hx => Nat.le_trans a1 (h x hx))

theorem step_refl (U : List RType) (s : defaultSchema) (m : Mem) : Step U s m s m :=
  ⟨grow_refl s m, Nat.le_refl _⟩

theorem step_trans (U : List RType) (s1 : defaultSchema) (m1 : Mem) (s2 : defaultSchema)
    (m2 : Mem) (s3 : defaultSchema) (m3 : Mem) (h1 : Step U s1 m1 s2 m2)
    (h2 : Step U s2 m2 s3 m3) : Step U s1 m1 s3 m3 :=
  ⟨grow_trans s1 m1 s2 m2 s3 m3 h1.1 h2.1, Nat.le_trans h2.2 h1.2⟩

theorem countP_lt_of_mem {α : Type} (p q : α → Bool) (U : List α) (t : α)
    (himp : ∀ x, q x = true → p x = true) (ht : t ∈ U) (hp : p t = true)
    (hq : q t = false) : U.countP q < U.countP p := by
  induction U with
  | nil => simp at ht
  | cons a r ih =>
    have hle : r.countP q ≤ r.countP p := List.countP_mono_left (fun x _ h => himp x h)
    rcases List.mem_cons.mp ht with h | h
    · subst h
      rw [List.countP_cons_of_pos _ _ hp, List.countP_cons_of_neg _ _ (by simp [hq])]
      omega
    · have := ih h
      by_cases hqa : q a = true
      · rw [List.countP_cons_of_pos _ _ hqa, List.countP_cons_of_pos _ _ (himp a hqa)]
        omega
      · rw [List.countP_cons_of_neg _ _ hqa]
        by_cases hpa : p a = true
        · rw [List.countP_cons_of_pos _ _ hpa]; omega
        · rw [List.countP_cons_of_neg _ _ hpa]; omega

/-- A lookup moves the registry forward. -/
theorem find_grow (inj : RType → Bool) (s : defaultSchema) (m : Mem) (t : RType)
    (tags : Tags) : Grow s m (s.find inj m t tags).schema (s.find inj m t tags).mem := by
  rcases find_cases inj s m t tags with ⟨h1, h2, _⟩ | ⟨h1, h2, _⟩ | ⟨hg, hi, hk, h⟩
  · rw [h1, h2]
    exact grow_refl s m
  · rw [h1, h2]
    refine ⟨by simp, indexLe_refl s, fun _ h => h, fun _ h => Or.inl h,
      fun _ _ h => Or.inl h, ?_, rfl⟩
    intro hw
    refine ⟨fun x hx => ?_, hw.2.1, hw.2.2⟩
    have := hw.1 x hx
    show x.ptr < m.next + 2
    omega
  · rw [h]
    have hall : defaultSchema.allNodes
        { s with nodes := s.nodes.set t [.mk (m.next + 1) m.next t [] (.typeCompiler t)] } =
        s.allNodes ++ [.mk (m.next + 1) m.next t [] (.typeCompiler t)] :=
      NodeMap.flatten_set_of_get_none s.nodes t _ hg
    have hget : ∀ u, u ≠ t →
        (s.nodes.set t [.mk (m.next + 1) m.next t [] (.typeCompiler t)]).get u =
          s.nodes.get u := fun u hu => NodeMap.get_set_other s.nodes t u _ (Ne.symm hu)
    have hgett : (s.nodes.set t [.mk (m.next + 1) m.next t [] (.typeCompiler t)]).get t =
        some [.mk (m.next + 1) m.next t [] (.typeCompiler t)] := NodeMap.get_set_same _ _ _
    refine ⟨by simp, ?_, ?_, ?_, ?_, ?_, rfl⟩
    · intro u L hL
      show (s.nodes.set t _).get u = some L
      by_cases hu : u = t
      · rw [hu, hg] at hL
        simp at hL
      · rw [hget u hu]
        exact hL
    · intro x hx
      rw [hall]
      exact List.mem_append_left _ hx
    · intro x hx
      rw [hall] at hx
      rcases List.mem_append.mp hx with h1 | h1
      · exact Or.inl h1
      · right
        simp only [List.mem_singleton] at h1
        rw [h1]
        show m.next ≤ m.next + 1
        omega
    · intro u L hL
      have hL2 : (s.nodes.set t [.mk (m.next + 1) m.next t [] (.typeCompiler t)]).get u =
          some L := hL
      by_cases hu : u = t
      · right
        rw [hu, hgett] at hL2
        simp only [Option.some.injEq] at hL2
        intro x hx
        rw [← hL2] at hx
        simp only [List.mem_singleton] at hx
        rw [hx]
        show m.next ≤ m.next + 1
        omega
      · left
        rw [hget u hu] at hL2
        exact hL2
    · intro hw
      obtain ⟨w1, w2, w3⟩ := hw
      refine ⟨?_, ?_, ?_⟩
      · intro x hx
        rw [hall] at hx
        show x.ptr < m.next + 2
        rcases List.mem_append.mp hx with h1 | h1
        · have := w1 x h1
          omega
        · simp only [List.mem_singleton] at h1
          rw [h1]
          show m.next + 1 < m.next + 2
          omega
      · intro x hx y hy hxy
        rw [hall] at hx hy
        rcases List.mem_append.mp hx with h1 | h1 <;> rcases List.mem_append.mp hy with h2 | h2
        · exact w2 x h1 y h2 hxy
        · simp only [List.mem_singleton] at h2
          have := w1 x h1
          rw [h2] at hxy
          have hxy2 : x.ptr = m.next + 1 := hxy
          omega
        · simp only [List.mem_singleton] at h1
          have := w1 y h2
          rw [h1] at hxy
          have hxy2 : m.next + 1 = y.ptr := hxy
          omega
        · simp only [List.mem_singleton] at h1 h2
          rw [h1, h2]
      · intro x hx y hy
        rw [hall] at hx ⊢
        rcases List.mem_append.mp hx with h1 | h1
        · exact List.mem_append_left _ (w3 x h1 y hy)
        · simp only [List.mem_singleton] at h1
          rw [h1] at hy
          simp [node.inner, node.compiler] at hy

/-- A lookup leaves no more to walk than before: a synthesized node takes the
place of a type without entry. -/
theorem find_step (U : List RType) (inj : RType → Bool) (HU : ∀ t, inj t = true → t ∈ U)
    (s : defaultSchema) (m : Mem) (t : RType) (tags : Tags) :
    Step U s m (s.find inj m t tags).schema (s.find inj m t tags).mem := by
  refine ⟨find_grow inj s m t tags, ?_⟩
  rcases find_cases inj s m t tags with ⟨h1, _, _⟩ | ⟨h1, _, _⟩ | ⟨hg, hi, hk, h⟩
  · rw [h1]
  · rw [h1]
  · rw [h]
    have hall : defaultSchema.allNodes
        { s with nodes := s.nodes.set t [.mk (m.next + 1) m.next t [] (.typeCompiler t)] } =
        s.allNodes ++ [.mk (m.next + 1) m.next t [] (.typeCompiler t)] :=
      NodeMap.flatten_set_of_get_none s.nodes t _ hg
    have hget : ∀ u, u ≠ t →
        (s.nodes.set t [.mk (m.next + 1) m.next t [] (.typeCompiler t)]).get u =
          s.nodes.get u := fun u hu => NodeMap.get_set_other s.nodes t u _ (Ne.symm hu)
    have hgett : (s.nodes.set t [.mk (m.next + 1) m.next t [] (.typeCompiler t)]).get t =
        some [.mk (m.next + 1) m.next t [] (.typeCompiler t)] := NodeMap.get_set_same _ _ _
    show unmarkedCount (defaultSchema.allNodes
        { s with nodes := s.nodes.set t [.mk (m.next + 1) m.next t [] (.typeCompiler t)] })
        (s.passed.getD []) +
        U.countP (fun u => ((s.nodes.set t
          [.mk (m.next + 1) m.next t [] (.typeCompiler t)]).get u).isNone) ≤
      unmarkedCount s.allNodes (s.passed.getD []) +
        U.countP (fun u => (s.nodes.get u).isNone)
    rw [hall]
    have h1 : unmarkedCount (s.allNodes ++ [.mk (m.next + 1) m.next t [] (.typeCompiler t)])
        (s.passed.getD []) ≤ unmarkedCount s.allNodes (s.passed.getD []) + 1 := by
      unfold unmarkedCount
      rw [List.countP_append]
      have := List.countP_le_length (fun x : node => !isMarked (s.passed.getD []) x.ptr)
        (l := [node.mk (m.next + 1) m.next t [] (.typeCompiler t)])
      simp only [List.length_singleton] at this
      omega
    have h2 : U.countP (fun u => ((s.nodes.set t
          [.mk (m.next + 1) m.next t [] (.typeCompiler t)]).get u).isNone) <
        U.countP (fun u => (s.nodes.get u).isNone) := by
      apply countP_lt_of_mem _ _ U t
      · intro u hu
        by_cases hut : u = t
        · rw [hut, hg]; rfl
        · rw [hget u hut] at hu
          exact hu
      · exact HU t hi
      · rw [hg]; rfl
      · rw [hgett]; rfl
    omega

/-- A write of a mark moves the registry forward. -/
theorem setMark_step (U : List RType) (s : defaultSchema) (m : Mem) (k : Nat) (v : Int)
    (hv : v = visitDone ∨ v = visitInProgress) : Step U s m (s.setMark k v) m := by
  refine ⟨⟨Nat.le_refl _, fun _ _ h => h, fun _ h => h, fun _ h => Or.inl h,
    fun _ _ h => Or.inl h, fun h => h, rfl⟩, ?_⟩
  show unmarkedCount s.allNodes (passedSet (s.passed.getD []) k v) +
      U.countP (fun u => (s.nodes.get u).isNone) ≤
    unmarkedCount s.allNodes (s.passed.getD []) + U.countP (fun u => (s.nodes.get u).isNone)
  have := unmarkedCount_mono s.allNodes (s.passed.getD []) (passedSet (s.passed.getD []) k v)
    (fun a ha => isMarked_set (s.passed.getD []) k a v hv ha)
  omega

theorem findAll_step (U : List RType) (inj : RType → Bool) (HU : ∀ t, inj t = true → t ∈ U)
    (l : List (RType × Tags)) (s : defaultSchema) (m : Mem) :
    Step U s m (findAll inj l s m).schema (findAll inj l s m).mem :=
  findAll_rel (Step U) (step_refl U) (step_trans U) inj (find_step U inj HU) l s m

theorem resolve_step (U : List RType) (d : Decl) (HU : ∀ t, d.isInjectable t = true → t ∈ U)
    (n : node) (s : defaultSchema) (m : Mem) :
    Step U s m (n.resolve d s m).schema (n.resolve d s m).mem :=
  resolve_rel (Step U) (step_refl U) (step_trans U) d (find_step U d.isInjectable HU) n s m

theorem visit_step (U : List RType) (d : Decl) (HU : ∀ t, d.isInjectable t = true → t ∈ U)
    (f : Nat) (s : defaultSchema) (m : Mem) (n : node) (o : WalkOutcome)
    (h : visit d f s m n = some o) : Step U s m o.schema o.mem :=
  visit_rel (Step U) (step_refl U) (step_trans U) d (find_step U d.isInjectable HU)
    (fun s m k v hv => setMark_step U s m k v hv) f s m n o h

theorem visitEach_step (U : List RType) (d : Decl)
    (HU : ∀ t, d.isInjectable t = true → t ∈ U) (f : Nat) (l : List node)
    (s : defaultSchema) (m : Mem) (o : WalkOutcome)
    (h : visitEach (fun s1 m1 x => visit d f s1 m1 x) l s m = some o) :
    Step U s m o.schema o.mem :=
  visitEach_rel (Step U) (step_refl U) (step_trans U) _ l
    (fun s2 m2 y o2 _ hy => visit_step U d HU f s2 m2 y o2 hy) s m o h

/-- The lookups of the dependencies of a node keep the lists of the index,
the cleanup list and the visited-state map. -/
theorem resolve_keeps (d : Decl) (n : node) (s : defaultSchema) (m : Mem) :
    Keeps s (n.resolve d s m).schema :=
  resolve_rel (fun s1 _ s2 _ => Keeps s1 s2) (fun s _ => Keeps.refl s)
    (fun _ _ _ _ _ _ h1 h2 => Keeps.trans h1 h2) d
    (fun s m t tags => find_keeps d.isInjectable s m t tags) n s m

/-- The walk step keeps the lists of the index. -/
theorem visit_indexLe (d : Decl) (f : Nat) (s : defaultSchema) (m : Mem) (n : node)
    (o : WalkOutcome) (h : visit d f s m n = some o) : IndexLe s o.schema :=
  visit_rel (fun s1 _ s2 _ => IndexLe s1 s2) (fun s _ => indexLe_refl s)
    (fun _ _ _ _ _ _ h1 h2 => indexLe_trans h1 h2) d
    (fun s m t tags => (find_keeps d.isInjectable s m t tags).1)
    (fun _ _ _ _ _ => fun _ _ h => h) f s m n o h

theorem visitEach_indexLe (d : Decl) (f : Nat) (l : List node) (s : defaultSchema) (m : Mem)
    (o : WalkOutcome) (h : visitEach (fun s1 m1 x => visit d f s1 m1 x) l s m = some o) :
    IndexLe s o.schema :=
  visitEach_rel (fun s1 _ s2 _ => IndexLe s1 s2) (fun s _ => indexLe_refl s)
    (fun _ _ _ _ _ _ h1 h2 => indexLe_trans h1 h2) _ l
    (fun s2 m2 y o2 _ hy => visit_indexLe d f s2 m2 y o2 hy) s m o h

theorem mark_setMark_other (s : defaultSchema) (k j : Nat) (v : Int) (h : k ≠ j) :
    (s.setMark k v).mark j = s.mark j := by
  simp [defaultSchema.mark, defaultSchema.setMark, passedGet_set_other _ _ _ _ h]

/-! ## The walk covers what it meets -/

theorem WalkedIn.mono (d : Decl) (se hi hi2 : defaultSchema) (W W2 : List node) (x : node)
    (hle : IndexLe hi hi2) (hW : ∀ y ∈ W, y ∈ W2) (h : WalkedIn d se hi W x) :
    WalkedIn d se hi2 W2 x := by
  obtain ⟨s1, m1, l, h1, h2, h3, h4⟩ := h
  exact ⟨s1, m1, l, h1, indexLe_trans h2 hle, h3, fun y hy => hW y (h4 y hy)⟩

/-- Before a walk nothing is left to cover. -/
theorem Covered.base (d : Decl) (s : defaultSchema) : Covered d s s [] :=
  ⟨indexLe_refl s, fun _ h => absurd h (List.not_mem_nil _), fun _ h => Or.inl h⟩

/-- The cover moves to a registry with the same done marks and a larger
index. -/
theorem Covered.move (d : Decl) (se hi hi2 : defaultSchema) (W : List node)
    (h : Covered d se hi W) (hle : IndexLe hi hi2)
    (h1 : ∀ p, hi.mark p = visitDone → hi2.mark p = visitDone)
    (h2 : ∀ p, hi2.mark p = visitDone → hi.mark p = visitDone) : Covered d se hi2 W := by
  obtain ⟨a, b, c⟩ := h
  refine ⟨indexLe_trans a hle, fun x hx => h1 _ (b x hx), ?_⟩
  intro p hp
  rcases c p (h2 p hp) with h | ⟨x, hx, hxp, hw⟩
  · exact Or.inl h
  · exact Or.inr ⟨x, hx, hxp, WalkedIn.mono d se hi hi2 W W x hle (fun _ h => h) hw⟩

/-- A node that is done joins the cover. -/
theorem Covered.add_done (d : Decl) (se hi : defaultSchema) (W : List node) (n : node)
    (h : Covered d se hi W) (hn : hi.mark n.ptr = visitDone) : Covered d se hi (n :: W) := by
  obtain ⟨a, b, c⟩ := h
  refine ⟨a, ?_, ?_⟩
  · intro x hx
    rcases List.mem_cons.mp hx with h | h
    · rw [h]; exact hn
    · exact b x h
  · intro p hp
    rcases c p hp with h | ⟨x, hx, hxp, hw⟩
    · exact Or.inl h
    · exact Or.inr ⟨x, List.mem_cons_of_mem n hx, hxp,
        WalkedIn.mono d se hi hi W (n :: W) x (indexLe_refl hi)
          (fun _ h => List.mem_cons_of_mem n h) hw⟩

theorem visitEach_covers (d : Decl) (f : Nat)
    (ih : ∀ (s : defaultSchema) (m : Mem) (n : node) (o : WalkOutcome) (se : defaultSchema)
      (W : List node), Covered d se s W → visit d f s m n = some o → o.res = .ok () →
      ∃ W2, (∀ x ∈ W, x ∈ W2) ∧ n ∈ W2 ∧ Covered d se o.schema W2)
    (l : List node) (s : defaultSchema) (m : Mem) (o : WalkOutcome) (se : defaultSchema)
    (W : List node) (hc : Covered d se s W)
    (h : visitEach (fun s1 m1 x => visit d f s1 m1 x) l s m = some o) (hok : o.res = .ok ()) :
    ∃ W2, (∀ x ∈ W, x ∈ W2) ∧ (∀ y ∈ l, y ∈ W2) ∧ Covered d se o.schema W2 := by
  induction l generalizing s m W with
  | nil =>
    simp only [visitEach, Option.some.injEq] at h
    rw [← h]
    exact ⟨W, fun _ h => h, fun _ h => absurd h (List.not_mem_nil _), hc⟩
  | cons x rest ihl =>
    obtain ⟨o1, h1, h2⟩ := visitEach_cons_cases _ x rest s m o h
    rcases h2 with ⟨e, _, ho⟩ | ⟨hok1, hrest⟩
    · rw [ho] at hok
      simp at hok
    · obtain ⟨W1, hW1, hx1, hc1⟩ := ih s m x o1 se W hc h1 hok1
      obtain ⟨W2, hW2, hr2, hc2⟩ := ihl o1.schema o1.mem W1 hc1 hrest
      refine ⟨W2, fun y hy => hW2 y (hW1 y hy), ?_, hc2⟩
      intro y hy
      rcases List.mem_cons.mp hy with h | h
      · rw [h]; exact hW2 x hx1
      · exact hr2 y h

/-- A walk step that returns success leaves a cover that holds the node: the
node and whatever the walk met below it are marked done, and every address
that became done is the address of a node whose dependencies were resolved and
walked. -/
theorem visit_covers (d : Decl) (f : Nat) (s : defaultSchema) (m : Mem) (n : node)
    (o : WalkOutcome) (se : defaultSchema) (W : List node) (hc : Covered d se s W)
    (h : visit d f s m n = some o) (hok : o.res = .ok ()) :
    ∃ W2, (∀ x ∈ W, x ∈ W2) ∧ n ∈ W2 ∧ Covered d se o.schema W2 := by
  induction f generalizing s m n o se W with
  | zero => simp [visit] at h
  | succ f ih =>
    rcases visit_succ_cases d f s m n o h with ⟨hd, ho⟩ | ⟨_, _, ho⟩ |
      ⟨hd, hp, ⟨e, _, ho⟩ | ⟨l, o1, hres, hv, ⟨e, _, ho⟩ | ⟨hok1, ho⟩⟩⟩
    · rw [ho]
      exact ⟨n :: W, fun x hx => List.mem_cons_of_mem n hx, List.mem_cons_self n W,
        Covered.add_done d se s W n hc hd⟩
    · rw [ho] at hok; simp at hok
    · rw [ho] at hok; simp at hok
    · rw [ho] at hok; simp at hok
    · have hk := resolve_keeps d n (s.setMark n.ptr visitInProgress) m
      have hmark2 : ∀ p, (n.resolve d (s.setMark n.ptr visitInProgress) m).schema.mark p =
          (s.setMark n.ptr visitInProgress).mark p := by
        intro p
        unfold defaultSchema.mark
        rw [hk.2.2]
      have hc2 : Covered d se (n.resolve d (s.setMark n.ptr visitInProgress) m).schema W := by
        apply Covered.move d se s _ W hc
        · exact indexLe_trans (fun _ _ h => h) hk.1
        · intro p hpd
          rw [hmark2]
          have hne : n.ptr ≠ p := fun h => hd (h ▸ hpd)
          rw [mark_setMark_other _ _ _ _ hne]
          exact hpd
        · intro p hpd
          rw [hmark2] at hpd
          by_cases hne : n.ptr = p
          · rw [← hne, mark_setMark_same] at hpd
            exact absurd hpd visitInProgress_ne_visitDone
          · rw [mark_setMark_other _ _ _ _ hne] at hpd
            exact hpd
      obtain ⟨W1, hW1, hl1, hc1⟩ := visitEach_covers d f ih l _ _ o1 se W hc2 hv hok1
      have hle1 := visitEach_indexLe d f l _ _ o1 hv
      rw [ho]
      refine ⟨n :: W1, fun x hx => List.mem_cons_of_mem n (hW1 x hx), List.mem_cons_self n W1,
        ?_⟩
      obtain ⟨a, b, c⟩ := hc1
      refine ⟨fun t L h => a t L h, ?_, ?_⟩
      · intro x hx
        show (o1.schema.setMark n.ptr visitDone).mark x.ptr = visitDone
        by_cases hne : n.ptr = x.ptr
        · rw [← hne, mark_setMark_same]
        · rw [mark_setMark_other _ _ _ _ hne]
          rcases List.mem_cons.mp hx with h | h
          · exact absurd (by rw [h]) hne
          · exact b x h
      · intro p hpd
        have hpd2 : (o1.schema.setMark n.ptr visitDone).mark p = visitDone := hpd
        by_cases hne : n.ptr = p
        · right
          refine ⟨n, List.mem_cons_self n W1, hne, s.setMark n.ptr visitInProgress, m, l, ?_,
            ?_, hres, fun y hy => List.mem_cons_of_mem n (hl1 y hy)⟩
          · exact fun t L h => hc.1 t L h
          · exact indexLe_trans hk.1 (indexLe_trans hle1 (fun _ _ h => h))
        · rw [mark_setMark_other _ _ _ _ hne] at hpd2
          rcases c p hpd2 with h | ⟨x, hx, hxp, hw⟩
          · exact Or.inl h
          · exact Or.inr ⟨x, List.mem_cons_of_mem n hx, hxp,
              WalkedIn.mono d se o1.schema _ W1 (n :: W1) x (fun _ _ h => h)
                (fun _ h => List.mem_cons_of_mem n h) hw⟩

/-! ## The nodes that a walk meets -/

theorem setMark_grow (s : defaultSchema) (m : Mem) (k : Nat) (v : Int) :
    Grow s m (s.setMark k v) m :=
  ⟨Nat.le_refl _, fun _ _ h => h, fun _ h => h, fun _ h => Or.inl h,
    fun _ _ h => Or.inl h, fun h => h, rfl⟩

theorem findAll_grow (inj : RType → Bool) (l : List (RType × Tags)) (s : defaultSchema)
    (m : Mem) : Grow s m (findAll inj l s m).schema (findAll inj l s m).mem :=
  findAll_rel Grow grow_refl grow_trans inj (find_grow inj) l s m

theorem resolve_grow (d : Decl) (n : node) (s : defaultSchema) (m : Mem) :
    Grow s m (n.resolve d s m).schema (n.resolve d s m).mem :=
  resolve_rel Grow grow_refl grow_trans d (find_grow d.isInjectable) n s m

theorem visit_grow (d : Decl) (f : Nat) (s : defaultSchema) (m : Mem) (n : node)
    (o : WalkOutcome) (h : visit d f s m n = some o) : Grow s m o.schema o.mem :=
  visit_rel Grow grow_refl grow_trans d (find_grow d.isInjectable)
    (fun s m k v _ => setMark_grow s m k v) f s m n o h

theorem visitEach_grow (d : Decl) (f : Nat) (l : List node) (s : defaultSchema) (m : Mem)
    (o : WalkOutcome) (h : visitEach (fun s1 m1 x => visit d f s1 m1 x) l s m = some o) :
    Grow s m o.schema o.mem :=
  visitEach_rel Grow grow_refl grow_trans _ l
    (fun s2 m2 y o2 _ hy => visit_grow d f s2 m2 y o2 hy) s m o h

/-- A node that a walk can meet stays one as the registry moves forward. -/
theorem Met.grow (s : defaultSchema) (m : Mem) (s2 : defaultSchema) (m2 : Mem) (x : node)
    (hg : Grow s m s2 m2) (h : Met s m x) : Met s2 m2 x := by
  obtain ⟨a, _, c, dd, _, _, _⟩ := hg
  rcases h with h | ⟨h1, h2, t, ms, h3, hk, h4⟩
  · exact Or.inl (c x h)
  · right
    refine ⟨Nat.lt_of_lt_of_le h1 a, ?_, t, ms, h3, hk, fun y hy => c y (h4 y hy)⟩
    intro y hy
    rcases dd y hy with h | h
    · exact h2 y h
    · omega

/-- The node that a lookup returns is one that a walk can meet. -/
theorem find_met (inj : RType → Bool) (s : defaultSchema) (m : Mem) (t : RType) (tags : Tags)
    (hw : WellFormed s m) (n : node) (h : (s.find inj m t tags).res = .ok n) :
    Met (s.find inj m t tags).schema (s.find inj m t tags).mem n := by
  rcases find_cases inj s m t tags with ⟨h1, _, h3⟩ | ⟨h1, h2, ms, hms, hk, hr⟩ |
    ⟨hg, _, _, hf⟩
  · rw [h1]
    exact Or.inl (h3 n h)
  · rw [h1, h2]
    rw [hr] at h
    simp only [Except.ok.injEq] at h
    right
    rw [← h]
    refine ⟨?_, ?_, t, ms, rfl, hk, hms⟩
    · show m.next + 1 < m.next + 2
      omega
    · intro y hy
      have := hw.1 y hy
      show y.ptr ≠ m.next + 1
      omega
  · rw [hf] at h ⊢
    simp only [Except.ok.injEq] at h
    left
    rw [← h]
    show _ ∈ (((s.nodes.set t _).map (fun e => e.2)).flatten)
    rw [NodeMap.flatten_set_of_get_none s.nodes t _ hg]
    simp

/-- The parts of a list of lookups that succeeds. -/
theorem findAll_cons_ok_inv (inj : RType → Bool) (t : RType) (tags : Tags)
    (rest : List (RType × Tags)) (s : defaultSchema) (m : Mem) (ps : List node)
    (h : (findAll inj ((t, tags) :: rest) s m).res = .ok ps) :
    ∃ n ps2, (s.find inj m t tags).res = .ok n ∧
      (findAll inj rest (s.find inj m t tags).schema (s.find inj m t tags).mem).res = .ok ps2 ∧
      ps = n :: ps2 ∧
      (findAll inj ((t, tags) :: rest) s m).schema =
        (findAll inj rest (s.find inj m t tags).schema (s.find inj m t tags).mem).schema ∧
      (findAll inj ((t, tags) :: rest) s m).mem =
        (findAll inj rest (s.find inj m t tags).schema (s.find inj m t tags).mem).mem := by
  cases hr : (s.find inj m t tags).res with
  | error e =>
    have key : (findAll inj ((t, tags) :: rest) s m).res = .error e := by
      rw [findAll]
      simp only [hr]
    rw [key] at h
    simp at h
  | ok n =>
    cases hr2 : (findAll inj rest (s.find inj m t tags).schema
        (s.find inj m t tags).mem).res with
    | error e =>
      have key : (findAll inj ((t, tags) :: rest) s m).res = .error e := by
        rw [findAll]
        simp only [hr, hr2]
      rw [key] at h
      simp at h
    | ok ps2 =>
      have key : findAll inj ((t, tags) :: rest) s m =
          ⟨.ok (n :: ps2),
            (findAll inj rest (s.find inj m t tags).schema (s.find inj m t tags).mem).schema,
            (findAll inj rest (s.find inj m t tags).schema (s.find inj m t tags).mem).mem⟩ := by
        rw [findAll]
        simp only [hr, hr2]
      rw [key] at h ⊢
      simp only [Except.ok.injEq] at h
      exact ⟨n, ps2, rfl, rfl, h.symm, rfl, rfl⟩

theorem findAll_met (inj : RType → Bool) (l : List (RType × Tags)) (s : defaultSchema)
    (m : Mem) (hw : WellFormed s m) (ps : List node)
    (h : (findAll inj l s m).res = .ok ps) :
    ∀ y ∈ ps, Met (findAll inj l s m).schema (findAll inj l s m).mem y := by
  induction l generalizing s m ps with
  | nil =>
    simp only [findAll, Except.ok.injEq] at h
    intro y hy
    rw [← h] at hy
    simp at hy
  | cons hd tl ih =>
    obtain ⟨t, tags⟩ := hd
    obtain ⟨n, ps2, h1, h2, h3, h4, h5⟩ := findAll_cons_ok_inv inj t tags tl s m ps h
    have hg1 := find_grow inj s m t tags
    have hw1 := hg1.2.2.2.2.2.1 hw
    have hg2 := findAll_grow inj tl (s.find inj m t tags).schema (s.find inj m t tags).mem
    intro y hy
    rw [h4, h5]
    rw [h3] at hy
    rcases List.mem_cons.mp hy with h | h
    · rw [h]
      exact Met.grow _ _ _ _ n hg2 (find_met inj s m t tags hw n h1)
    · exact ih _ _ hw1 ps2 h2 y h

/-- The parts of a resolution of the dependencies that succeeds. -/
theorem resolve_ok_inv (d : Decl) (n : node) (s : defaultSchema) (m : Mem) (l : List node)
    (h : (n.resolve d s m).res = .ok l) :
    ∃ ps fs, (n.params d s m).res = .ok ps ∧
      (findAll d.isInjectable (d.fields n) (n.params d s m).schema
        (n.params d s m).mem).res = .ok fs ∧
      l = ps ++ fs ∧
      (n.resolve d s m).schema =
        (findAll d.isInjectable (d.fields n) (n.params d s m).schema
          (n.params d s m).mem).schema ∧
      (n.resolve d s m).mem =
        (findAll d.isInjectable (d.fields n) (n.params d s m).schema
          (n.params d s m).mem).mem := by
  cases hr : (n.params d s m).res with
  | error e =>
    have key : (n.resolve d s m).res = .error e := by
      unfold node.resolve
      simp only [hr]
    rw [key] at h
    simp at h
  | ok ps =>
    cases hr2 : (findAll d.isInjectable (d.fields n) (n.params d s m).schema
        (n.params d s m).mem).res with
    | error e =>
      have key : (n.resolve d s m).res = .error e := by
        unfold node.resolve
        simp only [hr, hr2]
      rw [key] at h
      simp at h
    | ok fs =>
      have key : n.resolve d s m =
          ⟨.ok (ps ++ fs),
            (findAll d.isInjectable (d.fields n) (n.params d s m).schema
              (n.params d s m).mem).schema,
            (findAll d.isInjectable (d.fields n) (n.params d s m).schema
              (n.params d s m).mem).mem⟩ := by
        unfold node.resolve
        simp only [hr, hr2]
      rw [key] at h ⊢
      simp only [Except.ok.injEq] at h
      exact ⟨ps, fs, rfl, rfl, h.symm, rfl, rfl⟩

theorem params_grow (d : Decl) (n : node) (s : defaultSchema) (m : Mem) :
    Grow s m (n.params d s m).schema (n.params d s m).mem :=
  params_rel Grow grow_refl grow_trans d (find_grow d.isInjectable) n s m

theorem params_met (d : Decl) (n : node) (s : defaultSchema) (m : Mem)
    (hw : WellFormed s m) (hn : Met s m n) (ps : List node)
    (h : (n.params d s m).res = .ok ps) :
    ∀ y ∈ ps, Met (n.params d s m).schema (n.params d s m).mem y := by
  obtain ⟨p, v, t, g, c⟩ := n
  cases c with
  | provider id => exact findAll_met d.isInjectable (d.inputs id) s m hw ps h
  | typeCompiler t2 =>
    simp only [node.params, node.compiler, Except.ok.injEq] at h
    intro y hy
    rw [← h] at hy
    simp at hy
  | groupCompiler t2 ms =>
    simp only [node.params, node.compiler, Except.ok.injEq] at h
    intro y hy
    rw [← h] at hy
    left
    show y ∈ s.allNodes
    rcases hn with hn | ⟨_, _, t3, ms3, h3, _, h4⟩
    · exact hw.2.2 _ hn y (by simpa [node.inner, node.compiler] using hy)
    · simp only [node.compiler, compiler.groupCompiler.injEq] at h3
      rw [h3.2] at hy
      exact h4 y hy
  | interfaceCompiler w =>
    simp only [node.params, node.compiler, interfaceCompiler.params, List.nil_append,
      Except.ok.injEq] at h
    intro y hy
    rw [← h] at hy
    left
    show y ∈ s.allNodes
    rcases hn with hn | ⟨_, _, t3, ms3, h3, _, _⟩
    · exact hw.2.2 _ hn y (by simpa [node.inner, node.compiler] using hy)
    · simp [node.compiler] at h3

/-- The dependencies that are resolved for a node that a walk can meet are
nodes that a walk can meet. -/
theorem resolve_met (d : Decl) (n : node) (s : defaultSchema) (m : Mem)
    (hw : WellFormed s m) (hn : Met s m n) (l : List node)
    (h : (n.resolve d s m).res = .ok l) :
    ∀ y ∈ l, Met (n.resolve d s m).schema (n.resolve d s m).mem y := by
  obtain ⟨ps, fs, h1, h2, h3, h4, h5⟩ := resolve_ok_inv d n s m l h
  have hg1 := params_grow d n s m
  have hg2 := findAll_grow d.isInjectable (d.fields n) (n.params d s m).schema
    (n.params d s m).mem
  intro y hy
  rw [h4, h5]
  rw [h3] at hy
  rcases List.mem_append.mp hy with h | h
  · exact Met.grow _ _ _ _ y hg2 (params_met d n s m hw hn ps h1 y h)
  · exact findAll_met d.isInjectable (d.fields n) _ _ (hg1.2.2.2.2.2.1 hw) fs h2 y h

/-! ## A dependency that is found again -/

/-- A lookup that succeeds returns the single match of the list of its type,
or a node that it allocates. -/
theorem find_ok_cases (inj : RType → Bool) (s : defaultSchema) (m : Mem) (t : RType)
    (tags : Tags) (n : node) (h : (s.find inj m t tags).res = .ok n) :
    (∃ L, s.nodes.get t = some L ∧ matchTags L tags = [n]) ∨ n.ptr = m.next + 1 := by
  cases hg : s.nodes.get t with
  | some L =>
    left
    rw [find_of_get_some inj s m t tags L hg] at h
    rcases hM : matchTags L tags with _ | ⟨a, _ | ⟨b, r⟩⟩
    · rw [hM] at h; simp at h
    · rw [hM] at h
      simp only [Except.ok.injEq] at h
      exact ⟨L, rfl, by rw [hM, h]⟩
    · rw [hM] at h; simp at h
  | none =>
    right
    rcases find_cases inj s m t tags with ⟨_, _, h3⟩ | ⟨_, _, ms, _, _, hr⟩ | ⟨_, _, _, hf⟩
    · by_cases hi : inj t = true
      · by_cases hk : t.Kind = Kind.Ptr
        · obtain ⟨e, he⟩ := Elem_of_Kind_Ptr t hk
          rw [find_of_get_none inj s m t tags hg] at h
          simp [hi, hk, he] at h
        · rw [find_of_injectable inj s m t tags hg hi hk] at h
          simp only [Except.ok.injEq] at h
          rw [← h]
          rfl
      · have hi2 : inj t = false := by simpa using hi
        by_cases hk : t.Kind = Kind.Slice
        · obtain ⟨T, hT⟩ := Elem_of_Kind_Slice t hk
          rw [find_eq_group inj s m t tags hk hg hi2, group_of_elem s m t T tags hT] at h
          cases hM : matchTags ((s.nodes.get T).getD []) tags with
          | nil => rw [hM] at h; simp at h
          | cons a r =>
            rw [hM] at h
            simp only [Except.ok.injEq] at h
            rw [← h]
            rfl
        · rw [find_of_get_none inj s m t tags hg] at h
          simp [hi2, hk] at h
    · rw [hr] at h
      simp only [Except.ok.injEq] at h
      rw [← h]
      rfl
    · rw [hf] at h
      simp only [Except.ok.injEq] at h
      rw [← h]
      rfl

/-- A node below the counter `mb` that a list of lookups returns from a
registry grown from `sb` is returned again by the same lookups from any
registry that keeps the lists of `sb`. -/
theorem findAll_stable (inj : RType → Bool) (B : node) (sb : defaultSchema) (mb : Mem)
    (hB : B.ptr < mb.next) (l : List (RType × Tags)) (s0 : defaultSchema) (m0 : Mem)
    (s : defaultSchema) (m : Mem) (hg0 : Grow sb mb s0 m0) (hle : IndexLe sb s)
    (ps : List node) (h0 : (findAll inj l s0 m0).res = .ok ps) (hmem : B ∈ ps)
    (ps2 : List node) (h : (findAll inj l s m).res = .ok ps2) : B ∈ ps2 := by
  induction l generalizing s0 m0 s m ps ps2 with
  | nil =>
    simp only [findAll, Except.ok.injEq] at h0
    rw [← h0] at hmem
    simp at hmem
  | cons hd tl ih =>
    obtain ⟨t, tags⟩ := hd
    obtain ⟨n0, q0, a1, a2, a3, _, _⟩ := findAll_cons_ok_inv inj t tags tl s0 m0 ps h0
    obtain ⟨n, q, b1, b2, b3, _, _⟩ := findAll_cons_ok_inv inj t tags tl s m ps2 h
    rw [a3] at hmem
    rw [b3]
    rcases List.mem_cons.mp hmem with hh | hh
    · rcases find_ok_cases inj s0 m0 t tags n0 a1 with ⟨L, hL, hM⟩ | hp
      · have hBL : B ∈ L := (matchTags_sublist L tags).subset (by rw [hM, hh]; simp)
        rcases hg0.2.2.2.2.1 t L hL with hb | hb
        · have hs : s.nodes.get t = some L := hle t L hb
          rw [find_of_get_some inj s m t tags L hs, hM] at b1
          simp only [Except.ok.injEq] at b1
          rw [← b1, hh]
          exact List.mem_cons_self _ _
        · have := hb B hBL
          omega
      · have := hg0.1
        rw [← hh] at hp
        omega
    · refine List.mem_cons_of_mem _ (ih _ _ _ _ ?_ ?_ q0 a2 hh q b2)
      · exact grow_trans _ _ _ _ _ _ hg0 (find_grow inj s0 m0 t tags)
      · exact indexLe_trans hle (find_keeps inj s m t tags).1

/-- A stored node among the parameter nodes of a node is among them again in
every registry that keeps the lists of the index. -/
theorem params_stable (d : Decl) (A B : node) (sb : defaultSchema) (mb : Mem)
    (hB : B.ptr < mb.next) (s : defaultSchema) (m : Mem) (hle : IndexLe sb s)
    (ps : List node) (h0 : (A.params d sb mb).res = .ok ps) (hmem : B ∈ ps)
    (ps2 : List node) (h : (A.params d s m).res = .ok ps2) : B ∈ ps2 := by
  obtain ⟨p, v, t, g, c⟩ := A
  cases c with
  | provider id =>
    exact findAll_stable d.isInjectable B sb mb hB (d.inputs id) sb mb s m (grow_refl sb mb)
      hle ps h0 hmem ps2 h
  | typeCompiler t2 =>
    simp only [node.params, node.compiler, Except.ok.injEq] at h0 h
    rw [← h, h0]
    exact hmem
  | groupCompiler t2 ms =>
    simp only [node.params, node.compiler, Except.ok.injEq] at h0 h
    rw [← h, h0]
    exact hmem
  | interfaceCompiler w =>
    simp only [node.params, node.compiler, interfaceCompiler.params, Except.ok.injEq] at h0 h
    rw [← h, h0]
    exact hmem

/-- A node that a walk can meet at the address of a stored node is that
node. -/
theorem Met.eq_of_ptr (s : defaultSchema) (m : Mem) (hw : WellFormed s m) (x A : node)
    (hx : Met s m x) (hA : A ∈ s.allNodes) (h : x.ptr = A.ptr) : x = A := by
  rcases hx with hx | ⟨_, h2, _⟩
  · exact hw.2.1 x hx A hA h
  · exact absurd h.symm (h2 A hA)

/-! ## Two nodes that depend on each other are never done -/

theorem mark_setMark_inProgress_ne_done (s : defaultSchema) (k p : Nat)
    (h : s.mark p ≠ visitDone) : (s.setMark k visitInProgress).mark p ≠ visitDone := by
  by_cases hkp : k = p
  · rw [← hkp, mark_setMark_same]
    exact visitInProgress_ne_visitDone
  · rw [mark_setMark_other _ _ _ _ hkp]
    exact h

theorem resolve_mark (d : Decl) (n : node) (s : defaultSchema) (m : Mem) (p : Nat) :
    (n.resolve d s m).schema.mark p = s.mark p := by
  unfold defaultSchema.mark
  rw [(resolve_keeps d n s m).2.2]

theorem visitEach_blocked (d : Decl) (s : defaultSchema) (m : Mem) (A B : node) (f : Nat)
    (ih : ∀ (s1 : defaultSchema) (m1 : Mem) (x : node) (o : WalkOutcome),
      Grow s m s1 m1 → s1.mark A.ptr ≠ visitDone → s1.mark B.ptr ≠ visitDone →
      Met s1 m1 x → visit d f s1 m1 x = some o →
      (o.schema.mark A.ptr ≠ visitDone ∧ o.schema.mark B.ptr ≠ visitDone) ∧
        (o.res = .ok () → x.ptr ≠ A.ptr ∧ x.ptr ≠ B.ptr))
    (l : List node) (s1 : defaultSchema) (m1 : Mem) (o : WalkOutcome)
    (hg : Grow s m s1 m1) (hnA : s1.mark A.ptr ≠ visitDone) (hnB : s1.mark B.ptr ≠ visitDone)
    (hl : ∀ y ∈ l, Met s1 m1 y)
    (h : visitEach (fun s2 m2 x => visit d f s2 m2 x) l s1 m1 = some o) :
    (o.schema.mark A.ptr ≠ visitDone ∧ o.schema.mark B.ptr ≠ visitDone) ∧
      (o.res = .ok () → ∀ y ∈ l, y.ptr ≠ A.ptr ∧ y.ptr ≠ B.ptr) := by
  induction l generalizing s1 m1 with
  | nil =>
    simp only [visitEach, Option.some.injEq] at h
    rw [← h]
    exact ⟨⟨hnA, hnB⟩, fun _ y hy => absurd hy (List.not_mem_nil _)⟩
  | cons x rest ihl =>
    obtain ⟨o1, h1, h2⟩ := visitEach_cons_cases _ x rest s1 m1 o h
    obtain ⟨hn1, hx1⟩ := ih s1 m1 x o1 hg hnA hnB (hl x (List.mem_cons_self x rest)) h1
    have hg1 := visit_grow d f s1 m1 x o1 h1
    rcases h2 with ⟨e, _, ho⟩ | ⟨hok1, hrest⟩
    · rw [ho]
      exact ⟨hn1, fun hok => by simp at hok⟩
    · obtain ⟨hn2, hr2⟩ := ihl o1.schema o1.mem (grow_trans _ _ _ _ _ _ hg hg1) hn1.1 hn1.2
        (fun y hy => Met.grow _ _ _ _ y hg1 (hl y (List.mem_cons_of_mem x hy))) hrest
      refine ⟨hn2, ?_⟩
      intro hok y hy
      rcases List.mem_cons.mp hy with hh | hh
      · rw [hh]
        exact hx1 hok1
      · exact hr2 hok y hh

/-- In a well-formed registry with stored nodes `A` and `B`, each among the
parameter nodes of the other, a walk step that starts with neither of them
done leaves neither of them done, and it does not return success for a node at
the address of `A` or of `B`. -/
theorem visit_blocked (d : Decl) (s : defaultSchema) (m : Mem) (A B : node)
    (hw : WellFormed s m) (hA : A ∈ s.allNodes) (hB : B ∈ s.allNodes)
    (hAB : ∃ ps, (A.params d s m).res = .ok ps ∧ B ∈ ps)
    (hBA : ∃ ps, (B.params d s m).res = .ok ps ∧ A ∈ ps)
    (f : Nat) (s1 : defaultSchema) (m1 : Mem) (x : node) (o : WalkOutcome)
    (hg : Grow s m s1 m1) (hnA : s1.mark A.ptr ≠ visitDone) (hnB : s1.mark B.ptr ≠ visitDone)
    (hx : Met s1 m1 x) (h : visit d f s1 m1 x = some o) :
    (o.schema.mark A.ptr ≠ visitDone ∧ o.schema.mark B.ptr ≠ visitDone) ∧
      (o.res = .ok () → x.ptr ≠ A.ptr ∧ x.ptr ≠ B.ptr) := by
  induction f generalizing s1 m1 x o with
  | zero => simp [visit] at h
  | succ f ih =>
    have hw1 : WellFormed s1 m1 := hg.2.2.2.2.2.1 hw
    have hgT : Grow s m (s1.setMark x.ptr visitInProgress) m1 :=
      grow_trans _ _ _ _ _ _ hg (setMark_grow s1 m1 x.ptr visitInProgress)
    have hg2 : Grow s m (x.resolve d (s1.setMark x.ptr visitInProgress) m1).schema
        (x.resolve d (s1.setMark x.ptr visitInProgress) m1).mem :=
      grow_trans _ _ _ _ _ _ hgT (resolve_grow d x _ _)
    have hnA2 : (x.resolve d (s1.setMark x.ptr visitInProgress) m1).schema.mark A.ptr ≠
        visitDone := by
      rw [resolve_mark]
      exact mark_setMark_inProgress_ne_done s1 x.ptr A.ptr hnA
    have hnB2 : (x.resolve d (s1.setMark x.ptr visitInProgress) m1).schema.mark B.ptr ≠
        visitDone := by
      rw [resolve_mark]
      exact mark_setMark_inProgress_ne_done s1 x.ptr B.ptr hnB
    rcases visit_succ_cases d f s1 m1 x o h with ⟨hd, ho⟩ | ⟨_, _, ho⟩ |
      ⟨hd, hp, ⟨e, _, ho⟩ | ⟨l, o1, hres, hv, hcase⟩⟩
    · rw [ho]
      refine ⟨⟨hnA, hnB⟩, fun _ => ⟨?_, ?_⟩⟩
      · intro hxa
        exact hnA (hxa ▸ hd)
      · intro hxb
        exact hnB (hxb ▸ hd)
    · rw [ho]
      exact ⟨⟨hnA, hnB⟩, fun hok => by simp at hok⟩
    · rw [ho]
      exact ⟨⟨hnA2, hnB2⟩, fun hok => by simp at hok⟩
    · have hmet : ∀ y ∈ l, Met (x.resolve d (s1.setMark x.ptr visitInProgress) m1).schema
          (x.resolve d (s1.setMark x.ptr visitInProgress) m1).mem y :=
        resolve_met d x (s1.setMark x.ptr visitInProgress) m1 hw1 hx l hres
      obtain ⟨hn3, hl3⟩ := visitEach_blocked d s m A B f
        (fun s2 m2 y o2 hg hnA hnB hy hv => ih s2 m2 y o2 hg hnA hnB hy hv)
        l _ _ o1 hg2 hnA2 hnB2 hmet hv
      rcases hcase with ⟨e, _, ho⟩ | ⟨hok1, ho⟩
      · rw [ho]
        exact ⟨hn3, fun hok => by simp at hok⟩
      · obtain ⟨ps, fs, hps, _, hlp, _, _⟩ :=
          resolve_ok_inv d x (s1.setMark x.ptr visitInProgress) m1 l hres
        have hleT : IndexLe s (s1.setMark x.ptr visitInProgress) := hgT.2.1
        have hxA : x.ptr ≠ A.ptr := by
          intro hxa
          have hxe : x = A := Met.eq_of_ptr s1 m1 hw1 x A hx (hg.2.2.1 A hA) hxa
          obtain ⟨qs, hq, hBq⟩ := hAB
          have hps2 : (A.params d (s1.setMark x.ptr visitInProgress) m1).res = .ok ps := by
            rw [← hxe]
            exact hps
          have hBl : B ∈ l := by
            rw [hlp]
            exact List.mem_append_left _
              (params_stable d A B s m (hw.1 B hB) _ m1 hleT qs hq hBq ps hps2)
          exact (hl3 hok1 B hBl).2 rfl
        have hxB : x.ptr ≠ B.ptr := by
          intro hxb
          have hxe : x = B := Met.eq_of_ptr s1 m1 hw1 x B hx (hg.2.2.1 B hB) hxb
          obtain ⟨qs, hq, hAq⟩ := hBA
          have hps2 : (B.params d (s1.setMark x.ptr visitInProgress) m1).res = .ok ps := by
            rw [← hxe]
            exact hps
          have hAl : A ∈ l := by
            rw [hlp]
            exact List.mem_append_left _
              (params_stable d B A s m (hw.1 A hA) _ m1 hleT qs hq hAq ps hps2)
          exact (hl3 hok1 A hAl).1 rfl
        rw [ho]
        refine ⟨⟨?_, ?_⟩, fun _ => ⟨hxA, hxB⟩⟩
        · show (o1.schema.setMark x.ptr visitDone).mark A.ptr ≠ visitDone
          rw [mark_setMark_other _ _ _ _ hxA]
          exact hn3.1
        · show (o1.schema.setMark x.ptr visitDone).mark B.ptr ≠ visitDone
          rw [mark_setMark_other _ _ _ _ hxB]
          exact hn3.2

/-! ## The walk returns -/

theorem visitEach_returns (d : Decl) (U : List RType)
    (HU : ∀ t, d.isInjectable t = true → t ∈ U) (f : Nat)
    (ih : ∀ (k : Nat) (s : defaultSchema) (m : Mem) (x : node), WellFormed s m → Met s m x →
      pending U s ≤ k → ((x ∈ s.allNodes ∧ 2 * k + 1 ≤ f) ∨ 2 * k + 2 ≤ f) →
      ∃ o, visit d f s m x = some o)
    (l : List node) (k : Nat) (s : defaultSchema) (m : Mem) (hw : WellFormed s m)
    (hl : ∀ y ∈ l, Met s m y) (hk : pending U s ≤ k)
    (hf : ∀ y ∈ l, (y ∈ s.allNodes ∧ 2 * k + 1 ≤ f) ∨ 2 * k + 2 ≤ f) :
    ∃ o, visitEach (fun s1 m1 x => visit d f s1 m1 x) l s m = some o := by
  induction l generalizing s m with
  | nil => exact ⟨_, rfl⟩
  | cons x rest ihl =>
    obtain ⟨o1, h1⟩ := ih k s m x hw (hl x (List.mem_cons_self x rest)) hk
      (hf x (List.mem_cons_self x rest))
    have hs := visit_step U d HU f s m x o1 h1
    rw [visitEach]
    simp only [h1]
    cases hres : o1.res with
    | error e => exact ⟨_, rfl⟩
    | ok u =>
      simp only []
      apply ihl o1.schema o1.mem (hs.1.2.2.2.2.2.1 hw)
      · exact fun y hy => Met.grow _ _ _ _ y hs.1 (hl y (List.mem_cons_of_mem x hy))
      · exact Nat.le_trans hs.2 hk
      · intro y hy
        rcases hf y (List.mem_cons_of_mem x hy) with ⟨h, h2⟩ | h
        · exact Or.inl ⟨hs.1.2.2.1 y h, h2⟩
        · exact Or.inr h

/-- With the types that qualify for field injection among those of a list `U`,
and no fields on nodes of a slice type, the walk step returns for every node
that a walk can meet, when its fuel is above twice what is left to walk. -/
theorem visit_returns (d : Decl) (U : List RType)
    (HU : ∀ t, d.isInjectable t = true → t ∈ U)
    (Hg : ∀ x : node, x.rt.Kind = Kind.Slice → d.fields x = [])
    (f k : Nat) (s : defaultSchema) (m : Mem) (x : node) (hw : WellFormed s m)
    (hx : Met s m x) (hk : pending U s ≤ k)
    (hf : (x ∈ s.allNodes ∧ 2 * k + 1 ≤ f) ∨ 2 * k + 2 ≤ f) :
    ∃ o, visit d f s m x = some o := by
  induction f generalizing k s m x with
  | zero => omega
  | succ f ih =>
    rw [visit_succ]
    by_cases hd : s.mark x.ptr = visitDone
    · rw [if_pos hd]
      exact ⟨_, rfl⟩
    · rw [if_neg hd]
      by_cases hp : s.mark x.ptr = visitInProgress
      · rw [if_pos hp]
        exact ⟨_, rfl⟩
      · rw [if_neg hp]
        cases hres : (x.resolve d (s.setMark x.ptr visitInProgress) m).res with
        | error e => exact ⟨_, rfl⟩
        | ok l =>
          simp only []
          have hsT : Step U s m (s.setMark x.ptr visitInProgress) m :=
            setMark_step U s m x.ptr visitInProgress (Or.inr rfl)
          have hs2 := resolve_step U d HU x (s.setMark x.ptr visitInProgress) m
          have hw2 := hs2.1.2.2.2.2.2.1 hw
          have hmet := resolve_met d x (s.setMark x.ptr visitInProgress) m hw hx l hres
          have hloop : ∃ o1, visitEach (fun s1 m1 y => visit d f s1 m1 y) l
              (x.resolve d (s.setMark x.ptr visitInProgress) m).schema
              (x.resolve d (s.setMark x.ptr visitInProgress) m).mem = some o1 := by
            by_cases hst : x ∈ s.allNodes
            · have hun : isMarked (s.passed.getD []) x.ptr = false := by
                unfold defaultSchema.mark at hd hp
                unfold isMarked
                simp [hd, hp]
              have hlt : pending U (s.setMark x.ptr visitInProgress) < pending U s := by
                show unmarkedCount s.allNodes
                    (passedSet (s.passed.getD []) x.ptr visitInProgress) +
                    U.countP (fun u => (s.nodes.get u).isNone) <
                  unmarkedCount s.allNodes (s.passed.getD []) +
                    U.countP (fun u => (s.nodes.get u).isNone)
                have := unmarkedCount_lt s.allNodes (s.passed.getD [])
                  (passedSet (s.passed.getD []) x.ptr visitInProgress)
                  (fun a ha => isMarked_set _ _ a _ (Or.inr rfl) ha) x hst hun
                  (isMarked_set_same _ _ _ (Or.inr rfl))
                omega
              have hk2 : pending U (x.resolve d (s.setMark x.ptr visitInProgress) m).schema ≤
                  k - 1 := by
                have := hs2.2
                omega
              have hfuel : 2 * (k - 1) + 2 ≤ f := by
                rcases hf with ⟨_, h⟩ | h <;> omega
              exact visitEach_returns d U HU f
                (fun k2 s2 m2 y hw hy hk hf => ih k2 s2 m2 y hw hy hk hf) l (k - 1) _ _ hw2
                hmet hk2 (fun _ _ => Or.inr hfuel)
            · have hfuel : 2 * k + 1 ≤ f := by
                rcases hf with ⟨h, _⟩ | h
                · exact absurd h hst
                · omega
              have hk2 : pending U (x.resolve d (s.setMark x.ptr visitInProgress) m).schema ≤
                  k := Nat.le_trans hs2.2 (Nat.le_trans hsT.2 hk)
              have hstored : ∀ y ∈ l, y ∈ s.allNodes := by
                rcases hx with hx | ⟨_, _, t, ms, hc, hks, hms⟩
                · exact absurd hx hst
                · obtain ⟨ps, fs, hps, hfs, hl, _, _⟩ := resolve_ok_inv d x _ m l hres
                  have hfields := Hg x hks
                  rw [hfields] at hfs
                  simp only [findAll, Except.ok.injEq] at hfs
                  have hps2 : ps = ms := by
                    unfold node.params at hps
                    rw [hc] at hps
                    simp only [Except.ok.injEq] at hps
                    exact hps.symm
                  intro y hy
                  rw [hl, ← hfs, hps2, List.append_nil] at hy
                  exact hms y hy
              exact visitEach_returns d U HU f
                (fun k2 s2 m2 y hw hy hk hf => ih k2 s2 m2 y hw hy hk hf) l k _ _ hw2
                hmet hk2
                (fun y hy => Or.inl ⟨hs2.1.2.2.1 y (hstored y hy), hfuel⟩)
          obtain ⟨o1, ho1⟩ := hloop
          rw [ho1]
          simp only []
          cases o1.res with
          | error e => exact ⟨_, rfl⟩
          | ok u => exact ⟨_, rfl⟩

/-! ## Where a lookup failure of the walk comes from -/

theorem visitEach_lookup_origin (d : Decl) (f : Nat)
    (ih : ∀ (s : defaultSchema) (m : Mem) (n : node) (o : WalkOutcome) (e : Failure),
      visit d f s m n = some o → o.res = .error (.lookup e) →
      ∃ (x : node) (s1 : defaultSchema) (m1 : Mem),
        IndexLe s s1 ∧ (x.resolve d s1 m1).res = .error e)
    (l : List node) (s : defaultSchema) (m : Mem) (o : WalkOutcome) (e : Failure)
    (h : visitEach (fun s1 m1 x => visit d f s1 m1 x) l s m = some o)
    (he : o.res = .error (.lookup e)) :
    ∃ (x : node) (s1 : defaultSchema) (m1 : Mem),
        IndexLe s s1 ∧ (x.resolve d s1 m1).res = .error e := by
  induction l generalizing s m with
  | nil =>
    simp only [visitEach, Option.some.injEq] at h
    rw [← h] at he
    simp at he
  | cons x rest ihl =>
    obtain ⟨o1, h1, h2⟩ := visitEach_cons_cases _ x rest s m o h
    rcases h2 with ⟨e2, he2, ho⟩ | ⟨_, hrest⟩
    · rw [ho] at he
      simp only [Except.error.injEq] at he
      rw [he] at he2
      exact ih s m x o1 e h1 he2
    · obtain ⟨y, s1, m1, hle, hr⟩ := ihl o1.schema o1.mem hrest
      exact ⟨y, s1, m1, indexLe_trans (visit_indexLe d f s m x o1 h1) hle, hr⟩

/-- A lookup failure that the walk step returns is the failure of the lookups
of the dependencies of a node, in a registry that keeps the lists of the
index. -/
theorem visit_lookup_origin (d : Decl) (f : Nat) (s : defaultSchema) (m : Mem) (n : node)
    (o : WalkOutcome) (e : Failure) (h : visit d f s m n = some o)
    (he : o.res = .error (.lookup e)) :
    ∃ (x : node) (s1 : defaultSchema) (m1 : Mem),
        IndexLe s s1 ∧ (x.resolve d s1 m1).res = .error e := by
  induction f generalizing s m n o e with
  | zero => simp [visit] at h
  | succ f ih =>
    rcases visit_succ_cases d f s m n o h with ⟨_, ho⟩ | ⟨_, _, ho⟩ |
      ⟨_, _, ⟨e2, hr, ho⟩ | ⟨l, o1, _, hv, ⟨e2, he2, ho⟩ | ⟨_, ho⟩⟩⟩
    · rw [ho] at he; simp at he
    · rw [ho] at he; simp at he
    · rw [ho] at he
      simp only [Except.error.injEq, WalkFailure.lookup.injEq] at he
      rw [he] at hr
      exact ⟨n, s.setMark n.ptr visitInProgress, m, fun _ _ h => h, hr⟩
    · rw [ho] at he
      simp only [Except.error.injEq] at he
      rw [he] at he2
      obtain ⟨y, s1, m1, hle, hr⟩ := visitEach_lookup_origin d f
        (fun s2 m2 y o2 e2 h2 he2 => ih s2 m2 y o2 e2 h2 he2) l _ _ o1 e hv he2
      exact ⟨y, s1, m1,
        indexLe_trans (fun t L h => (resolve_keeps d n (s.setMark n.ptr visitInProgress) m).1 t L h)
          hle, hr⟩
    · rw [ho] at he; simp at he

/-! ## What the walk reads of the declarations -/

/-- The walk reads the policy, the declared inputs and the declared fields of
the declarations, and nothing else of them: neither `Value` nor a compile
step. -/
theorem visit_congr (d1 d2 : Decl) (hi : d1.isInjectable = d2.isInjectable)
    (hn : d1.inputs = d2.inputs) (hf : d1.fields = d2.fields) (fuel : Nat) :
    visit d1 fuel = visit d2 fuel := by
  induction fuel with
  | zero => rfl
  | succ fuel ih =>
    funext s m n
    rw [visit, visit]
    simp only [params_congr d1 d2 hi hn, hi, hf, ih]

theorem bypass_congr (d1 d2 : Decl) (hi : d1.isInjectable = d2.isInjectable)
    (hn : d1.inputs = d2.inputs) (hf : d1.fields = d2.fields) (fuel : Nat)
    (s : defaultSchema) (m : Mem) (n : node) :
    s.bypass d1 fuel m n = s.bypass d2 fuel m n := by
  unfold defaultSchema.bypass
  rw [visit_congr d1 d2 hi hn hf fuel]

/-! ## The cycle check on two nodes that depend on each other -/

/-- The samples of the cycle check are well-formed: stored providers at
distinct addresses below the allocation counter. -/
theorem mixedSchema_wellFormed : WellFormed mixedSchema ⟨6⟩ := by
  have hall : mixedSchema.allNodes = [nodeA, nodeB, pluginA2] := rfl
  refine ⟨?_, ?_, ?_⟩
  · intro x hx
    rw [hall] at hx
    simp only [List.mem_cons, List.mem_singleton, List.not_mem_nil, or_false] at hx
    rcases hx with rfl | rfl | rfl <;> decide
  · intro x hx y hy h
    rw [hall] at hx hy
    simp only [List.mem_cons, List.mem_singleton, List.not_mem_nil, or_false] at hx hy
    rcases hx with rfl | rfl | rfl <;> rcases hy with rfl | rfl | rfl <;>
      first | rfl | exact absurd h (by decide)
  · intro x hx y hy
    rw [hall] at hx
    simp only [List.mem_cons, List.mem_singleton, List.not_mem_nil, or_false] at hx
    rcases hx with rfl | rfl | rfl <;> simp [node.inner, node.compiler, nodeA, nodeB,
      pluginA2] at hy

/-- C11, as stated, fails: `Alpha` takes a `Gamma` and a `Beta`, `Beta` takes
an `Alpha`, and `Gamma` takes a `Missing`, which nobody provides. `nodeB` is
among the parameter nodes of `nodeA` and `nodeA` among those of `nodeB`, and the
first `bypass` call returns the failure of the lookup of `Missing`, which the
walk meets before it closes the cycle, not a cycle failure; so it does in
whichever order the loop over the index meets the three entries. -/
theorem bypass_cycle_counterexample :
    brokenSchema.passed = none ∧
    brokenSchema.allNodes = [nodeA, nodeB, nodeC] ∧
    (nodeA.params brokenDecl brokenSchema ⟨6⟩).res = .ok [nodeC, nodeB] ∧
    (nodeB.params brokenDecl brokenSchema ⟨6⟩).res = .ok [nodeA] ∧
    brokenSchema.bypass brokenDecl 10 ⟨6⟩ nodeA =
      some ⟨.error (.lookup (.notInContainer Missing [])),
        { brokenSchema with passed := some [(1, 1), (5, 1)] }, ⟨6⟩⟩ ∧
    brokenSchema.nodes ∈ brokenOrders ∧
    ∀ ns ∈ brokenOrders,
      (defaultSchema.bypass brokenDecl 10 { brokenSchema with nodes := ns } ⟨6⟩ nodeA).map
          (fun o => o.res) =
        some (.error (.lookup (.notInContainer Missing []))) := by
  refine ⟨rfl, rfl, rfl, rfl, rfl, List.mem_cons_self _ _, ?_⟩
  intro ns hns
  simp only [brokenOrders, List.mem_cons, List.mem_singleton, List.not_mem_nil, or_false] at hns
  rcases hns with rfl | rfl | rfl | rfl | rfl | rfl <;> rfl

/-- C11, amended: in a well-formed registry (the stored nodes lie at distinct
addresses below the allocation counter) that contains stored nodes `A` and `B`
with `B` among the parameter nodes of `A` and `A` among those of `B`, the first
`bypass` call never returns success. Whenever it returns, it returns a cycle
failure, or the failure of the lookups of the dependencies of a node, met
before the cycle was closed; the cleanup list is as before and the index keeps
its lists. It returns, for every fuel above twice the number of stored nodes
and of types that qualify for field injection (the types of a finite list `U`,
nodes of a slice type having no fields). It reads the parameters and fields of the nodes
alone: the result is the same whatever the `Value` and the compile steps of the
declarations are. In a registry whose dependencies resolve within the index
without a synthesis, it returns a cycle failure and changes the visited-state
map alone. -/
theorem bypass_detects_mutual_dependency (d : Decl) (s : defaultSchema) (m : Mem)
    (n A B : node) (hpassed : s.passed = none) (hw : WellFormed s m)
    (hA : A ∈ s.allNodes) (hB : B ∈ s.allNodes)
    (hAB : ∃ ps, (A.params d s m).res = .ok ps ∧ B ∈ ps)
    (hBA : ∃ ps, (B.params d s m).res = .ok ps ∧ A ∈ ps) :
    (∀ fuel o, s.bypass d fuel m n = some o →
      ((∃ key, o.res = .error (.cycleDetected key)) ∨
        (∃ (e : Failure) (x : node) (s1 : defaultSchema) (m1 : Mem),
          o.res = .error (.lookup e) ∧ IndexLe s s1 ∧ (x.resolve d s1 m1).res = .error e)) ∧
      o.schema.cleanups = s.cleanups ∧ IndexLe s o.schema) ∧
    (∀ U : List RType, (∀ t, d.isInjectable t = true → t ∈ U) →
      (∀ x : node, x.rt.Kind = Kind.Slice → d.fields x = []) →
      ∀ fuel, 2 * (s.allNodes.length + U.length) + 1 ≤ fuel →
        ∃ o, s.bypass d fuel m n = some o) ∧
    (∀ V C fuel, s.bypass { d with Value := V, compile := C } fuel m n = s.bypass d fuel m n) ∧
    (∀ deps, Closed d s deps → ∀ fuel, s.allNodes.length < fuel →
      ∃ key p, s.bypass d fuel m n =
        some ⟨.error (.cycleDetected key), { s with passed := some p }, m⟩) := by
  have hb : ∀ fuel, s.bypass d fuel m n =
      visitEach (fun s1 m1 x => visit d fuel s1 m1 x) s.allNodes
        { s with passed := some [] } m := by
    intro fuel
    unfold defaultSchema.bypass
    rw [hpassed]
  have hg0 : Grow s m { s with passed := some [] } m :=
    ⟨Nat.le_refl _, fun _ _ h => h, fun _ h => h, fun _ h => Or.inl h,
      fun _ _ h => Or.inl h, fun h => h, rfl⟩
  have hm0 : ∀ {p : Nat}, defaultSchema.mark { s with passed := some [] } p ≠ visitDone := by
    intro p
    show passedGet [] p ≠ visitDone
    simp [passedGet, visitDone]
  refine ⟨?_, ?_, ?_, ?_⟩
  · intro fuel o ho
    rw [hb fuel] at ho
    have hgo := visitEach_grow d fuel s.allNodes _ m o ho
    obtain ⟨_, hok⟩ := visitEach_blocked d s m A B fuel
      (fun s1 m1 x o1 hg hnA hnB hx hv =>
        visit_blocked d s m A B hw hA hB hAB hBA fuel s1 m1 x o1 hg hnA hnB hx hv)
      s.allNodes { s with passed := some [] } m o hg0 hm0 hm0
      (fun y hy => Or.inl hy) ho
    refine ⟨?_, hgo.2.2.2.2.2.2, fun t L h => hgo.2.1 t L h⟩
    cases hres : o.res with
    | ok u => exact absurd rfl (hok hres A hA).1
    | error e =>
      cases e with
      | cycleDetected key => exact Or.inl ⟨key, rfl⟩
      | lookup e =>
        right
        obtain ⟨x, s1, m1, hle, hr⟩ := visitEach_lookup_origin d fuel
          (fun s2 m2 y o2 e2 h2 he2 => visit_lookup_origin d fuel s2 m2 y o2 e2 h2 he2)
          s.allNodes _ m o e ho hres
        exact ⟨e, x, s1, m1, rfl, fun t L h => hle t L h, hr⟩
  · intro U HU Hg fuel hfuel
    rw [hb fuel]
    have hk : pending U { s with passed := some [] } ≤ s.allNodes.length + U.length := by
      show unmarkedCount s.allNodes [] + U.countP (fun u => (s.nodes.get u).isNone) ≤
        s.allNodes.length + U.length
      have h1 := List.countP_le_length (fun x : node => !isMarked [] x.ptr) (l := s.allNodes)
      have h2 := List.countP_le_length (fun u => (s.nodes.get u).isNone) (l := U)
      unfold unmarkedCount
      omega
    exact visitEach_returns d U HU fuel
      (fun k s1 m1 x hw hx hk hf => visit_returns d U HU Hg fuel k s1 m1 x hw hx hk hf)
      s.allNodes (s.allNodes.length + U.length) { s with passed := some [] } m hw
      (fun y hy => Or.inl hy) hk (fun y hy => Or.inl ⟨hy, hfuel⟩)
  · intro V C fuel
    exact bypass_congr { d with Value := V, compile := C } d rfl rfl rfl fuel s m n
  · intro deps hc fuel hfuel
    obtain ⟨qs, hq, hBq⟩ := hAB
    obtain ⟨rs, hr, hAr⟩ := hBA
    obtain ⟨ps, fs, hps, _, hdeps⟩ := (hc.2 A hA).2 s m rfl
    obtain ⟨ps2, fs2, hps2, _, hdeps2⟩ := (hc.2 B hB).2 s m rfl
    rw [hps] at hq
    rw [hps2] at hr
    simp only [Except.ok.injEq] at hq hr
    have h1 : B ∈ deps A := by
      rw [← hdeps, hq]
      exact List.mem_append_left _ hBq
    have h2 : A ∈ deps B := by
      rw [← hdeps2, hr]
      exact List.mem_append_left _ hAr
    exact bypass_closed_cycle d s deps m n A B hpassed hc hA hB h1 h2 fuel hfuel

/-- The cycle sample is well-formed. -/
theorem cycleSchema_wellFormed : WellFormed cycleSchema ⟨4⟩ := by
  have hall : cycleSchema.allNodes = [nodeA, nodeB] := rfl
  refine ⟨?_, cycleSchema_closed.1, ?_⟩
  · intro x hx
    rw [hall] at hx
    simp only [List.mem_cons, List.mem_singleton, List.not_mem_nil, or_false] at hx
    rcases hx with rfl | rfl <;> decide
  · intro x hx y hy
    rw [hall] at hx
    simp only [List.mem_cons, List.mem_singleton, List.not_mem_nil, or_false] at hx
    rcases hx with rfl | rfl <;> simp [node.inner, node.compiler, nodeA, nodeB] at hy

/-- C11, amended, at two samples. In the first, `Alpha` takes the slice of the
`Plugin` providers and a `Beta`, `Beta` takes an `Alpha` and has a field of the
injectable type `Config`: the first `bypass` call walks a group node,
synthesizes the node of `Config`, and returns the cycle failure that names
`Alpha`; it never returns success, it returns for every fuel from 11 on, and
its result does not depend on `Value` and the compile steps. In the second,
the cycle sample, every dependency resolves within the index, and the call
returns a cycle failure and changes the visited-state map alone. -/
theorem bypass_detects_mutual_dependency_witness :
    mixedSchema.passed = none ∧
    mixedSchema.allNodes = [nodeA, nodeB, pluginA2] ∧
    (nodeA.params mixedDecl mixedSchema ⟨6⟩).res =
      .ok [.mk 7 6 (.slice Plugin) [] (.groupCompiler (.slice Plugin) [pluginA2]), nodeB] ∧
    (nodeB.params mixedDecl mixedSchema ⟨6⟩).res = .ok [nodeA] ∧
    (mixedSchema.bypass mixedDecl 6 ⟨6⟩ nodeA).map (fun o => (o.res, o.schema.passed, o.mem)) =
      some (.error (.cycleDetected (Alpha, [])), some [(1, 1), (7, 2), (5, 2), (3, 1)], ⟨10⟩) ∧
    (∀ fuel o, mixedSchema.bypass mixedDecl fuel ⟨6⟩ nodeA = some o →
      ((∃ key, o.res = .error (.cycleDetected key)) ∨
        (∃ (e : Failure) (x : node) (s1 : defaultSchema) (m1 : Mem),
          o.res = .error (.lookup e) ∧ IndexLe mixedSchema s1 ∧
            (x.resolve mixedDecl s1 m1).res = .error e)) ∧
      o.schema.cleanups = mixedSchema.cleanups ∧ IndexLe mixedSchema o.schema) ∧
    (∀ fuel, 11 ≤ fuel → ∃ o, mixedSchema.bypass mixedDecl fuel ⟨6⟩ nodeA = some o) ∧
    (∀ V C fuel, mixedSchema.bypass { mixedDecl with Value := V, compile := C } fuel ⟨6⟩ nodeA =
      mixedSchema.bypass mixedDecl fuel ⟨6⟩ nodeA) ∧
    cycleSchema.allNodes = [nodeA, nodeB] ∧
    cycleSchema.bypass cycleDecl 3 ⟨4⟩ nodeA =
      some ⟨.error (.cycleDetected (Alpha, [])),
        { cycleSchema with passed := some [(1, 1), (3, 1)] }, ⟨4⟩⟩ ∧
    (∃ key p, cycleSchema.bypass cycleDecl 3 ⟨4⟩ nodeA =
      some ⟨.error (.cycleDetected key), { cycleSchema with passed := some p }, ⟨4⟩⟩) := by
  have h := bypass_detects_mutual_dependency mixedDecl mixedSchema ⟨6⟩ nodeA nodeA nodeB rfl
    mixedSchema_wellFormed
    (by simp [show mixedSchema.allNodes = [nodeA, nodeB, pluginA2] from rfl])
    (by simp [show mixedSchema.allNodes = [nodeA, nodeB, pluginA2] from rfl])
    ⟨_, rfl, by simp⟩ ⟨_, rfl, by simp⟩
  have h2 := bypass_detects_mutual_dependency cycleDecl cycleSchema ⟨4⟩ nodeA nodeA nodeB rfl
    cycleSchema_wellFormed
    (by simp [show cycleSchema.allNodes = [nodeA, nodeB] from rfl])
    (by simp [show cycleSchema.allNodes = [nodeA, nodeB] from rfl])
    ⟨_, rfl, by simp⟩ ⟨_, rfl, by simp⟩
  have hU : ∀ t, mixedDecl.isInjectable t = true → t ∈ [Config, RType.ptr Config] := by
    intro t ht
    have ht2 : injectConfig t = true := ht
    simpa [injectConfig] using ht2
  have hS : ∀ x : node, x.rt.Kind = Kind.Slice → mixedDecl.fields x = [] := by
    intro x hk
    show (if x.rt = Beta then [(Config, [])] else []) = []
    rw [if_neg]
    intro hb
    rw [hb] at hk
    exact absurd hk (by decide)
  refine ⟨rfl, rfl, rfl, rfl, rfl, h.1, ?_, h.2.2.1, rfl, rfl, ?_⟩
  · intro fuel hf
    exact h.2.1 [Config, RType.ptr Config] hU hS fuel
      (by
        rw [show mixedSchema.allNodes = [nodeA, nodeB, pluginA2] from rfl]
        simpa using hf)
  · exact h2.2.2.2 cycleDeps cycleSchema_closed 3
      (by rw [show cycleSchema.allNodes = [nodeA, nodeB] from rfl]; simp)

/-- A walk step that returns success for a node that was not done has resolved
the dependencies of the node, and each of them is marked done. -/
theorem visit_ok_deps_done (d : Decl) (f : Nat) (s : defaultSchema) (m : Mem) (n : node)
    (o : WalkOutcome) (h : visit d f s m n = some o) (hok : o.res = .ok ())
    (hnd : s.mark n.ptr ≠ visitDone) :
    ∃ l, (n.resolve d (s.setMark n.ptr visitInProgress) m).res = .ok l ∧
      ∀ y ∈ l, o.schema.mark y.ptr = visitDone := by
  cases f with
  | zero => simp [visit] at h
  | succ f =>
    rcases visit_succ_cases d f s m n o h with ⟨hd, _⟩ | ⟨_, _, ho⟩ |
      ⟨_, _, ⟨e, _, ho⟩ | ⟨l, o1, hres, hv, ⟨e, _, ho⟩ | ⟨hok1, ho⟩⟩⟩
    · exact absurd hd hnd
    · rw [ho] at hok; simp at hok
    · rw [ho] at hok; simp at hok
    · rw [ho] at hok; simp at hok
    · obtain ⟨W1, _, hl1, hc1⟩ := visitEach_covers d f
        (fun s1 m1 x o2 se W hc h2 hok2 => visit_covers d f s1 m1 x o2 se W hc h2 hok2)
        l _ _ o1 _ [] (Covered.base d _) hv hok1
      refine ⟨l, hres, ?_⟩
      intro y hy
      rw [ho]
      show (o1.schema.setMark n.ptr visitDone).mark y.ptr = visitDone
      by_cases hne : n.ptr = y.ptr
      · rw [← hne, mark_setMark_same]
      · rw [mark_setMark_other _ _ _ _ hne]
        exact hc1.2.1 y (hl1 y hy)

/-- C12, amended: `bypass(n)` walks `n` on every call but the first. When the
registry has its visited-state map, the call is the walk step `visit` applied
to `n` with that map, whether or not `n` is stored in the index, and when it
returns success the map covers the subgraph reachable from `n`: `n` is marked
done; if `n` was not done before, its parameters and fields were looked up and
every node they resolved to is marked done; and there is a list `W` of nodes
that holds `n`, whose nodes are all marked done, such that every address that
the map marks done was done before the walks (from a registry `se` on) or is
the address of a node of `W` whose parameters and fields were looked up during
the walks and resolved to nodes of `W`; a cover `W0` of earlier walks is kept.
On the first call (nil map) the map is created and the nodes of the index are
walked: the result does not depend on `n`, which is not walked unless it is in
the index, and on success the map covers the nodes of the index. -/
theorem bypass_walks_node (d : Decl) (fuel : Nat) (s : defaultSchema) (m : Mem) (n : node) :
    (s.passed ≠ none → s.bypass d fuel m n = visit d fuel s m n) ∧
    (s.passed ≠ none → ∀ se W0 o, Covered d se s W0 → s.bypass d fuel m n = some o →
      o.res = .ok () →
      o.schema.mark n.ptr = visitDone ∧
      (s.mark n.ptr ≠ visitDone →
        ∃ l, (n.resolve d (s.setMark n.ptr visitInProgress) m).res = .ok l ∧
          ∀ y ∈ l, o.schema.mark y.ptr = visitDone) ∧
      ∃ W, (∀ x ∈ W0, x ∈ W) ∧ n ∈ W ∧ Covered d se o.schema W) ∧
    (s.passed = none →
      s.bypass d fuel m n =
        visitEach (fun s1 m1 x => visit d fuel s1 m1 x) s.allNodes
          { s with passed := some [] } m) ∧
    (s.passed = none → ∀ n2, s.bypass d fuel m n2 = s.bypass d fuel m n) ∧
    (s.passed = none → ∀ o, s.bypass d fuel m n = some o → o.res = .ok () →
      ∃ W, (∀ x ∈ s.allNodes, x ∈ W) ∧ Covered d { s with passed := some [] } o.schema W) := by
  have h1 : s.passed ≠ none → s.bypass d fuel m n = visit d fuel s m n := by
    intro hp
    unfold defaultSchema.bypass
    cases hs : s.passed with
    | none => exact absurd hs hp
    | some p => rfl
  have h3 : s.passed = none →
      s.bypass d fuel m n =
        visitEach (fun s1 m1 x => visit d fuel s1 m1 x) s.allNodes
          { s with passed := some [] } m := by
    intro hp
    unfold defaultSchema.bypass
    rw [hp]
  refine ⟨h1, ?_, h3, ?_, ?_⟩
  · intro hp se W0 o hc ho hok
    rw [h1 hp] at ho
    exact ⟨visit_ok_marks_done d fuel s m n o ho hok,
      fun hnd => visit_ok_deps_done d fuel s m n o ho hok hnd,
      visit_covers d fuel s m n o se W0 hc ho hok⟩
  · intro hp n2
    unfold defaultSchema.bypass
    rw [hp]
  · intro hp o ho hok
    rw [h3 hp] at ho
    obtain ⟨W, _, hW, hc⟩ := visitEach_covers d fuel
      (fun s1 m1 x o1 se W hc h hok => visit_covers d fuel s1 m1 x o1 se W hc h hok)
      s.allNodes { s with passed := some [] } m o { s with passed := some [] } []
      (Covered.base d _) ho hok
    exact ⟨W, hW, hc⟩

/-- C12, amended, at a sample registry that has an empty visited-state map: the
call for the group node of `pluginA`, which is not stored in the index, walks
the group node and, below it, the provider `pluginA`, which was not done; both
are marked done, and the map covers the subgraph of the group node. -/
theorem bypass_walks_node_witness :
    defaultSchema.passed { pluginSchema with passed := some [] } ≠ none ∧
    defaultSchema.bypass noDeps 5 { pluginSchema with passed := some [] } ⟨8⟩
        (.mk 7 6 (.slice Plugin) ["a"] (.groupCompiler (.slice Plugin) [pluginA])) =
      some ⟨.ok (), { pluginSchema with passed := some [(7, 2), (1, 2)] }, ⟨8⟩⟩ ∧
    defaultSchema.mark { pluginSchema with passed := some [] } pluginA.ptr = 0 ∧
    defaultSchema.mark { pluginSchema with passed := some [(7, 2), (1, 2)] } pluginA.ptr =
      visitDone ∧
    (node.resolve noDeps
        (.mk 7 6 (.slice Plugin) ["a"] (.groupCompiler (.slice Plugin) [pluginA]))
        (defaultSchema.setMark { pluginSchema with passed := some [] } 7 visitInProgress)
        ⟨8⟩).res = .ok [pluginA] ∧
    (defaultSchema.mark { pluginSchema with passed := some [(7, 2), (1, 2)] } 7 = visitDone ∧
      (defaultSchema.mark { pluginSchema with passed := some [] } 7 ≠ visitDone →
        ∃ l, (node.resolve noDeps
            (.mk 7 6 (.slice Plugin) ["a"] (.groupCompiler (.slice Plugin) [pluginA]))
            (defaultSchema.setMark { pluginSchema with passed := some [] } 7 visitInProgress)
            ⟨8⟩).res = .ok l ∧
          ∀ y ∈ l, defaultSchema.mark { pluginSchema with passed := some [(7, 2), (1, 2)] }
            y.ptr = visitDone) ∧
      ∃ W, (∀ x ∈ ([] : List node), x ∈ W) ∧
        node.mk 7 6 (.slice Plugin) ["a"] (.groupCompiler (.slice Plugin) [pluginA]) ∈ W ∧
        Covered noDeps { pluginSchema with passed := some [] }
          { pluginSchema with passed := some [(7, 2), (1, 2)] } W) :=
  ⟨by simp, rfl, rfl, rfl, rfl,
    (bypass_walks_node noDeps 5 { pluginSchema with passed := some [] } ⟨8⟩
      (.mk 7 6 (.slice Plugin) ["a"] (.groupCompiler (.slice Plugin) [pluginA]))).2.1
      (by simp) { pluginSchema with passed := some [] } [] _
      (Covered.base noDeps _) rfl rfl⟩

end Di
